import Mathlib

/-!
# Krita stroke helper and update queue: a shallow embedding

The definitions follow `krita/ui/tool/kis_tool_freehand_helper.cpp`.  The C++
type `qreal` is modelled by the exact rationals, `int` timestamps by `Int`.
Functions of the Qt library and of libm that the helper calls are collected in
the structure `Qt` and passed as a parameter.
-/

namespace Krita

/-! ## Points -/

/-- QPointF, a point with two qreal coordinates. -/
structure QPointF where
  x : ℚ
  y : ℚ
deriving DecidableEq, Repr

namespace QPointF

/-- The default constructed point `QPointF()`, which is (0,0). -/
def zero : QPointF := ⟨0, 0⟩

instance : Inhabited QPointF := ⟨zero⟩

/-- Coordinate-wise `operator+`. -/
def add (a b : QPointF) : QPointF := ⟨a.x + b.x, a.y + b.y⟩

/-- Coordinate-wise `operator-`. -/
def sub (a b : QPointF) : QPointF := ⟨a.x - b.x, a.y - b.y⟩

/-- Scaling `operator*(QPointF, qreal)` and `operator*(qreal, QPointF)`. -/
def smul (c : ℚ) (a : QPointF) : QPointF := ⟨c * a.x, c * a.y⟩

/-- Division `operator/(QPointF, qreal)` by a divisor known to be non-zero. -/
def divq (a : QPointF) (c : ℚ) : QPointF := ⟨a.x / c, a.y / c⟩

/-- Test `QPointF::isNull()`: both coordinates are zero. -/
def isNull (a : QPointF) : Bool := decide (a.x = 0) && decide (a.y = 0)

/-- Sum of absolute coordinates, `QPointF::manhattanLength()`. -/
def manhattanLength (a : QPointF) : ℚ := |a.x| + |a.y|

end QPointF

/-! ## PositionHistory -/

/-- The two previously requested points kept by `PositionHistory`. -/
structure PositionHistory where
  m_first : QPointF
  m_second : QPointF
deriving DecidableEq, Repr

namespace PositionHistory

/-- A default constructed history: both members are `QPointF()`. -/
def init : PositionHistory := ⟨QPointF.zero, QPointF.zero⟩

/-- The local constant `pointSwapThreshold = 7.0`. -/
def pointSwapThreshold : ℚ := 7

/-- The condition of the `if` in `pushThroughHistory`: x and y are checked separately. -/
def swaps (h : PositionHistory) (pt : QPointF) : Bool :=
  decide (|pt.x - h.m_second.x| > pointSwapThreshold) &&
    decide (|pt.y - h.m_second.y| > pointSwapThreshold)

/-- Method `PositionHistory::pushThroughHistory`: the returned point and the new members. -/
def pushThroughHistory (h : PositionHistory) (pt : QPointF) : QPointF × PositionHistory :=
  if swaps h pt then
    (h.m_second, { m_first := h.m_second, m_second := pt })
  else
    (h.m_first, h)

/-- The history after a sequence of calls, oldest call first. -/
def pushAll (h : PositionHistory) : List QPointF → PositionHistory
  | [] => h
  | pt :: pts => pushAll (pushThroughHistory h pt).2 pts

/-- Whether one call of the sequence, started in `h`, takes the update branch. -/
def everSwapped (h : PositionHistory) : List QPointF → Bool
  | [] => false
  | pt :: pts => swaps h pt || everSwapped (pushThroughHistory h pt).2 pts

/-- The points returned by a sequence of calls, oldest call first. -/
def results (h : PositionHistory) : List QPointF → List QPointF
  | [] => []
  | pt :: pts => (pushThroughHistory h pt).1 :: results (pushThroughHistory h pt).2 pts

/-- The stored points are more than the threshold apart on both axes. -/
def Separated (h : PositionHistory) : Prop :=
  |h.m_first.x - h.m_second.x| > pointSwapThreshold ∧
    |h.m_first.y - h.m_second.y| > pointSwapThreshold

end PositionHistory

/-! ## Data handled by the stroke helper -/

/-- QLineF, a line given by its two end points. -/
structure QLineF where
  p1 : QPointF
  p2 : QPointF
deriving DecidableEq, Repr

/-- The result type `QLineF::IntersectType`. -/
inductive IntersectType where
  | NoIntersection
  | BoundedIntersection
  | UnboundedIntersection
deriving DecidableEq, Repr

/-- Library functions the helper calls: QLineF and QVector2D geometry (Qt) and sqrt, exp (libm).
`lineIntersect a b` stands for `a.intersect(b, &pt)`: the returned type and the point written
to `pt` (meaningless for `NoIntersection`). -/
structure Qt where
  lineLength : QLineF → ℚ
  lineSetLength : QLineF → ℚ → QLineF
  lineIntersect : QLineF → QLineF → IntersectType × QPointF
  vector2DLength : QPointF → ℚ
  sqrt : ℚ → ℚ
  exp : ℚ → ℚ

/-- The constant `M_PI` of math.h. -/
def M_PI : ℚ := 314159265358979323846 / 100000000000000000000

/-- KisPaintInformation (a paint sample): the fields the helper reads or writes, and the tilt. -/
structure KisPaintInformation where
  pos : QPointF
  pressure : ℚ
  xTilt : ℚ
  yTilt : ℚ
  currentTime : Int
deriving DecidableEq, Repr

instance : Inhabited KisPaintInformation := ⟨⟨QPointF.zero, 0, 0, 0, 0⟩⟩

/-- The enumeration `KisSmoothingOptions::SmoothingType`. -/
inductive SmoothingType where
  | NO_SMOOTHING
  | SIMPLE_SMOOTHING
  | WEIGHTED_SMOOTHING
deriving DecidableEq, Repr

/-- KisSmoothingOptions, read through its four accessors. -/
structure KisSmoothingOptions where
  smoothingType : SmoothingType
  smoothnessDistance : ℚ
  tailAggressiveness : ℚ
  smoothPressure : Bool
deriving DecidableEq, Repr

/-- KisDistanceInformation as constructed by `createPainters`. -/
structure KisDistanceInformation where
  lastPosition : QPointF
  lastTime : Int
deriving DecidableEq, Repr

/-- PainterInfo: a fresh `KisPainter` (not modelled) and its drag distance. -/
structure PainterInfo where
  dragDistance : KisDistanceInformation
deriving DecidableEq, Repr

/-- A job handed to `strokesFacade->addJob`: the three constructors of
`FreehandStrokeStrategy::Data` (the node argument is not modelled). -/
inductive Job where
  | dab (painterInfo : PainterInfo) (pi : KisPaintInformation)
  | line (painterInfo : PainterInfo) (pi1 pi2 : KisPaintInformation)
  | curve (painterInfo : PainterInfo) (pi1 : KisPaintInformation) (control1 control2 : QPointF)
      (pi2 : KisPaintInformation)
deriving DecidableEq, Repr

namespace Job

/-- Whether the job is a single dab. -/
def isDab : Job → Bool
  | dab _ _ => true
  | _ => false

/-- Whether the job is a line. -/
def isLine : Job → Bool
  | line _ _ _ => true
  | _ => false

end Job

/-- Ways a call leaves the model: `QVector::first()` on an empty painter list, and a division of
a point by a zero time difference (in C++ it yields a non-finite point, which the rationals do
not have). -/
inductive Fault where
  | emptyPainterList
  | divisionByZero
deriving DecidableEq, Repr

namespace KisToolFreehandHelper

/-- The members of `KisToolFreehandHelper::Private` that carry stroke state.  A timer is
modelled by whether it is active. -/
structure Private where
  haveTangent : Bool
  previousTangent : QPointF
  hasPaintAtLeastOnce : Bool
  strokeTimeoutTimer : Bool
  painterInfos : List PainterInfo
  previousPaintInformation : KisPaintInformation
  olderPaintInformation : KisPaintInformation
  smoothingOptions : KisSmoothingOptions
  airbrushingTimer : Bool
  history : List KisPaintInformation
  distanceHistory : List ℚ
  lastOutlinePos : PositionHistory
deriving DecidableEq, Repr

/-- The result of a call: a fault, or the new state and the jobs added in emission order. -/
abbrev Outcome := Except Fault (Private × List Job)

/-- Method `setSmoothness`. -/
def setSmoothness (d : Private) (smoothingOptions : KisSmoothingOptions) : Private :=
  { d with smoothingOptions := smoothingOptions }

/-- Method `createPainters`: appends one painter info to the vector. -/
def createPainters (painterInfos : List PainterInfo) (lastPosition : QPointF) (lastTime : Int) :
    List PainterInfo :=
  painterInfos ++ [⟨⟨lastPosition, lastTime⟩⟩]

/-- Method `initPaint`.  `start` is the sample `infoBuilder->startStroke` built from the event
and `needsAirbrushing` the answer of the resources snapshot. -/
def initPaint (d : Private) (start : KisPaintInformation) (needsAirbrushing : Bool) : Private :=
  { d with
    haveTangent := false
    previousTangent := QPointF.zero
    hasPaintAtLeastOnce := false
    previousPaintInformation := start
    painterInfos := createPainters d.painterInfos start.pos start.currentTime
    history := []
    distanceHistory := []
    airbrushingTimer := if needsAirbrushing then true else d.airbrushingTimer }

/-- Method `paintAt` on the painter vector: a dab job for `painterInfos.first()`. -/
def paintAt (d : Private) (pi : KisPaintInformation) : Outcome :=
  match d.painterInfos with
  | [] => .error .emptyPainterList
  | p :: _ => .ok ({ d with hasPaintAtLeastOnce := true }, [Job.dab p pi])

/-- Method `paintLine` on the painter vector: a line job for `painterInfos.first()`. -/
def paintLine (d : Private) (pi1 pi2 : KisPaintInformation) : Outcome :=
  match d.painterInfos with
  | [] => .error .emptyPainterList
  | p :: _ => .ok ({ d with hasPaintAtLeastOnce := true }, [Job.line p pi1 pi2])

/-- Method `paintBezierCurve` on the painter vector (DEBUG_BEZIER_CURVES is not defined). -/
def paintBezierCurve (d : Private) (pi1 : KisPaintInformation) (control1 control2 : QPointF)
    (pi2 : KisPaintInformation) : Outcome :=
  match d.painterInfos with
  | [] => .error .emptyPainterList
  | p :: _ => .ok ({ d with hasPaintAtLeastOnce := true }, [Job.curve p pi1 control1 control2 pi2])

/-- The local constant `maxSanePoint = 1e6` of `paintBezierSegment`. -/
def maxSanePoint : ℚ := 1000000

/-- The two control targets `paintBezierSegment` computes from the end points and tangents. -/
def controlTargets (qt : Qt) (p1 p2 tangent1 tangent2 : QPointF) : QPointF × QPointF :=
  let controlDirection1 := p1.add tangent1
  let controlDirection2 := p2.sub tangent2
  let line1 : QLineF := ⟨p1, controlDirection1⟩
  let line2 : QLineF := ⟨p2, controlDirection2⟩
  let line3 : QLineF := ⟨controlDirection1, controlDirection2⟩
  let line4 : QLineF := ⟨p1, p2⟩
  if (qt.lineIntersect line3 line4).1 = IntersectType.BoundedIntersection then
    let controlLength := qt.lineLength line4 / 2
    ((qt.lineSetLength line1 controlLength).p2, (qt.lineSetLength line2 controlLength).p2)
  else
    let r := qt.lineIntersect line1 line2
    let intersection :=
      if r.1 = IntersectType.NoIntersection ∨ r.2.manhattanLength > maxSanePoint then
        QPointF.smul (1 / 2) (p1.add p2)
      else r.2
    (intersection, intersection)

/-- The velocities of `paintBezierSegment` after the zero clamp to `1e-6`. -/
def velocities (qt : Qt) (tangent1 tangent2 : QPointF) : ℚ × ℚ :=
  let velocity1 := qt.lineLength ⟨QPointF.zero, tangent1⟩
  let velocity2 := qt.lineLength ⟨QPointF.zero, tangent2⟩
  if velocity1 = 0 ∨ velocity2 = 0 then (1 / 1000000, 1 / 1000000) else (velocity1, velocity2)

/-- The value of `similarity` after `qMax(similarity, 0.5)`. -/
def similarity (velocity1 velocity2 : ℚ) : ℚ :=
  max (min (velocity1 / velocity2) (velocity2 / velocity1)) (1 / 2)

/-- The value of `coeff` at the `Q_ASSERT(coeff > 0)`. -/
def coeffOf (similarity : ℚ) : ℚ :=
  (8 / 10) * (1 - max 0 (similarity - 8 / 10))

/-- The control points `(control1, control2)` of `paintBezierSegment`. -/
def bezierControls (qt : Qt) (p1 p2 tangent1 tangent2 : QPointF) : QPointF × QPointF :=
  let targets := controlTargets qt p1 p2 tangent1 tangent2
  let v := velocities qt tangent1 tangent2
  let sim := similarity v.1 v.2
  let coeff := coeffOf sim
  if v.1 > v.2 then
    let control1 := (QPointF.smul (1 - coeff) p1).add (QPointF.smul coeff targets.1)
    let coeff2 := coeff * sim
    let control2 := (QPointF.smul (1 - coeff2) p2).add (QPointF.smul coeff2 targets.2)
    (control1, control2)
  else
    let control2 := (QPointF.smul (1 - coeff) p2).add (QPointF.smul coeff targets.2)
    let coeff2 := coeff * sim
    let control1 := (QPointF.smul (1 - coeff2) p1).add (QPointF.smul coeff2 targets.1)
    (control1, control2)

/-- Method `paintBezierSegment`: nothing for a null tangent, else one curve job. -/
def paintBezierSegment (qt : Qt) (d : Private) (pi1 pi2 : KisPaintInformation)
    (tangent1 tangent2 : QPointF) : Outcome :=
  if tangent1.isNull || tangent2.isNull then .ok (d, [])
  else
    let c := bezierControls qt pi1.pos pi2.pos tangent1 tangent2
    paintBezierCurve d pi1 c.1 c.2 pi2

/-- The variables of the weighted smoothing loop that live across iterations. -/
structure SmoothAcc where
  distanceSum : ℚ
  scaleSum : ℚ
  pressure : ℚ
  baseRate : ℚ
  x : ℚ
  y : ℚ
deriving DecidableEq, Repr

/-- The test `a / b > bound` on doubles with `b` not negative: for `b = 0` the quotient is
plus infinity when `a > 0` and otherwise is not greater than the bound. -/
def ratioExceeds (a b bound : ℚ) : Bool :=
  if b = 0 then decide (0 < a) else decide (a / b > bound)

/-- The distance of history entry `i` after the pressure gradient adjustment. -/
def adjustedDistance (opts : KisSmoothingOptions) (history : List KisPaintInformation)
    (distanceHistory : List ℚ) (sigma : ℚ) (i : Nat) : ℚ :=
  let nextInfo := history.getD i default
  let distance := distanceHistory.getD i 0
  if i + 1 < history.length then
    let pressureGrad := nextInfo.pressure - (history.getD (i + 1) default).pressure
    let tailAgressiveness := 40 * opts.tailAggressiveness
    if pressureGrad > 0 then
      distance + (pressureGrad * (tailAgressiveness * (1 - nextInfo.pressure))) * 3 * sigma
    else distance
  else distance

/-- The loop `for (int i = history.size() - 1; i >= 0; i--)` of the weighted smoothing; the
first argument is `i + 1`, the number of entries still to visit. -/
def smoothLoop (qt : Qt) (opts : KisSmoothingOptions) (history : List KisPaintInformation)
    (distanceHistory : List ℚ) (sigma gaussianWeight gaussianWeight2 : ℚ) :
    Nat → SmoothAcc → SmoothAcc
  | 0, acc => acc
  | i + 1, acc =>
    let nextInfo := history.getD i default
    let distance := adjustedDistance opts history distanceHistory sigma i
    let distanceSum := if gaussianWeight2 ≠ 0 then acc.distanceSum + distance else acc.distanceSum
    let rate :=
      if gaussianWeight2 ≠ 0 then
        gaussianWeight * qt.exp (-distanceSum * distanceSum / (2 * gaussianWeight2))
      else 0
    let isNewest := decide (history.length - i = 1)
    let baseRate := if isNewest then rate else acc.baseRate
    if !isNewest && ratioExceeds baseRate rate 100 then
      { acc with distanceSum := distanceSum }
    else
      smoothLoop qt opts history distanceHistory sigma gaussianWeight gaussianWeight2 i
        { distanceSum := distanceSum
          scaleSum := acc.scaleSum + rate
          pressure :=
            if opts.smoothPressure then acc.pressure + rate * nextInfo.pressure else acc.pressure
          baseRate := baseRate
          x := acc.x + rate * nextInfo.pos.x
          y := acc.y + rate * nextInfo.pos.y }

/-- The smoothed position and pressure computed when the history has more than 3 entries:
the loop followed by the division by `scaleSum`. -/
def smoothedValues (qt : Qt) (opts : KisSmoothingOptions) (history : List KisPaintInformation)
    (distanceHistory : List ℚ) : ℚ × ℚ × ℚ :=
  let sigma := opts.smoothnessDistance / 3
  let gaussianWeight := 1 / (qt.sqrt (2 * M_PI) * sigma)
  let gaussianWeight2 := sigma * sigma
  let acc := smoothLoop qt opts history distanceHistory sigma gaussianWeight gaussianWeight2
    history.length ⟨0, 0, 0, 0, 0, 0⟩
  if acc.scaleSum ≠ 0 then
    (acc.x / acc.scaleSum, acc.y / acc.scaleSum,
      if opts.smoothPressure then acc.pressure / acc.scaleSum else acc.pressure)
  else (acc.x, acc.y, acc.pressure)

/-- The weighted smoothing block of `paint`, entered for WEIGHTED_SMOOTHING with a positive
smoothness distance: the state with the two histories updated, and the sample `info` as the rest
of `paint` sees it. -/
def weightedSmoothing (qt : Qt) (d : Private) (info : KisPaintInformation) :
    Private × KisPaintInformation :=
  let prevPos :=
    match d.history.getLast? with
    | some prevPi => prevPi.pos
    | none => d.previousPaintInformation.pos
  let currentDistance := qt.vector2DLength (info.pos.sub prevPos)
  let distanceHistory := d.distanceHistory ++ [currentDistance]
  let history := d.history ++ [info]
  if history.length > 3 then
    let v := smoothedValues qt d.smoothingOptions history distanceHistory
    let x := v.1
    let y := v.2.1
    let pressure := v.2.2
    if (x ≠ 0 ∧ y ≠ 0) ∨ (x = info.pos.x ∧ y = info.pos.y) then
      let info1 := { info with pos := ⟨x, y⟩ }
      let info2 := if d.smoothingOptions.smoothPressure then { info1 with pressure := pressure }
        else info1
      ({ d with history := history.dropLast ++ [info2], distanceHistory := distanceHistory }, info2)
    else
      ({ d with history := history, distanceHistory := distanceHistory }, info)
  else
    ({ d with history := history, distanceHistory := distanceHistory }, info)

/-- The first part of `paint`: the weighted smoothing when it applies, else nothing. -/
def smoothSample (qt : Qt) (d : Private) (info : KisPaintInformation) :
    Private × KisPaintInformation :=
  if d.smoothingOptions.smoothingType = SmoothingType.WEIGHTED_SMOOTHING ∧
      d.smoothingOptions.smoothnessDistance > 0 then
    weightedSmoothing qt d info
  else (d, info)

/-- The quotient `(a.pos() - b.pos()) / qMax(1, a.currentTime() - b.currentTime())`. -/
def guardedTangent (a b : KisPaintInformation) : QPointF :=
  (a.pos.sub b.pos).divq ((max 1 (a.currentTime - b.currentTime) : Int) : ℚ)

/-- The second part of `paint`, from the test of the smoothing type to the end, run on the state
`d` and the sample `info` the smoothing part leaves. -/
def paintSmoothed (qt : Qt) (d : Private) (info : KisPaintInformation) : Outcome :=
  if d.smoothingOptions.smoothingType = SmoothingType.SIMPLE_SMOOTHING ∨
      d.smoothingOptions.smoothingType = SmoothingType.WEIGHTED_SMOOTHING then
    if !d.haveTangent then
      .ok ({ d with
              haveTangent := true
              previousTangent := guardedTangent info d.previousPaintInformation
              olderPaintInformation := d.previousPaintInformation
              strokeTimeoutTimer := true
              previousPaintInformation := info }, [])
    else
      let newTangent := guardedTangent info d.olderPaintInformation
      match paintBezierSegment qt d d.olderPaintInformation d.previousPaintInformation
          d.previousTangent newTangent with
      | .error f => .error f
      | .ok (d1, jobs) =>
        .ok ({ d1 with
                previousTangent := newTangent
                olderPaintInformation := d1.previousPaintInformation
                strokeTimeoutTimer := true
                previousPaintInformation := info }, jobs)
  else
    match paintLine d d.previousPaintInformation info with
    | .error f => .error f
    | .ok (d1, jobs) => .ok ({ d1 with previousPaintInformation := info }, jobs)

/-- Method `paint`.  `info0` is the sample `infoBuilder->continueStroke` built from the event. -/
def paint (qt : Qt) (d0 : Private) (info0 : KisPaintInformation) : Outcome :=
  let s := smoothSample qt d0 info0
  paintSmoothed qt s.1 s.2

/-- Slot `finishStroke`, also run by the stroke timeout timer.  The quotient has no `qMax`
guard: a zero time difference is the fault `divisionByZero`. -/
def finishStroke (qt : Qt) (d : Private) : Outcome :=
  if d.haveTangent then
    let d1 := { d with haveTangent := false }
    let dt := d1.previousPaintInformation.currentTime - d1.olderPaintInformation.currentTime
    if dt = 0 then .error .divisionByZero
    else
      let newTangent :=
        (d1.previousPaintInformation.pos.sub d1.olderPaintInformation.pos).divq (dt : ℚ)
      paintBezierSegment qt d1 d1.olderPaintInformation d1.previousPaintInformation
        d1.previousTangent newTangent
  else .ok (d, [])

/-- Slot `doAirbrushing`, run by the airbrushing timer. -/
def doAirbrushing (d : Private) : Outcome :=
  if !d.painterInfos.isEmpty then paintAt d d.previousPaintInformation else .ok (d, [])

/-- Method `endPaint`. -/
def endPaint (qt : Qt) (d : Private) : Outcome :=
  let r : Outcome :=
    if !d.hasPaintAtLeastOnce then paintAt d d.previousPaintInformation
    else if d.smoothingOptions.smoothingType ≠ SmoothingType.NO_SMOOTHING then finishStroke qt d
    else .ok (d, [])
  match r with
  | .error f => .error f
  | .ok (d1, jobs) =>
    .ok ({ d1 with strokeTimeoutTimer := false, airbrushingTimer := false, painterInfos := [] },
      jobs)

/-- What can reach the helper between `initPaint` and `endPaint`: a paint event with its sample,
the stroke timeout and a tick of the airbrushing timer. -/
inductive StrokeEvent where
  | paint (info : KisPaintInformation)
  | timeout
  | airbrush
deriving DecidableEq, Repr

/-- The call a stroke event leads to. -/
def step (qt : Qt) (d : Private) : StrokeEvent → Outcome
  | .paint info => paint qt d info
  | .timeout => finishStroke qt d
  | .airbrush => doAirbrushing d

/-- A sequence of stroke events, oldest first: the final state and all jobs in emission order;
the first fault ends the run. -/
def run (qt : Qt) (d : Private) : List StrokeEvent → Outcome
  | [] => .ok (d, [])
  | e :: es =>
    match step qt d e with
    | .error f => .error f
    | .ok (d1, jobs) =>
      match run qt d1 es with
      | .error f => .error f
      | .ok (d2, jobs2) => .ok (d2, jobs ++ jobs2)

/-- A sequence of `paint` calls, oldest first. -/
def paints (qt : Qt) (d : Private) (samples : List KisPaintInformation) : Outcome :=
  run qt d (samples.map StrokeEvent.paint)

/-- The painter `painterInfos.first()` yields once `initPaint` has run from state `d`. -/
def strokePainter (d : Private) (start : KisPaintInformation) : PainterInfo :=
  match d.painterInfos with
  | [] => ⟨⟨start.pos, start.currentTime⟩⟩
  | p :: _ => p

end KisToolFreehandHelper

/-! ## A concrete library instance for evaluation -/

/-- Square root on the rationals: exact on squares of rationals, rounded down on the numerator
otherwise. -/
def ratSqrt (q : ℚ) : ℚ :=
  if q ≤ 0 then 0 else (Nat.sqrt (q.num.natAbs * q.den) : ℚ) / (q.den : ℚ)

/-- A positive rational approximant of the exponential with value 1 at 0. -/
def ratExp (q : ℚ) : ℚ :=
  if q ≤ 0 then 1 / (1 - q + q * q / 2) else 1 + q + q * q / 2

/-- The documented behaviour of `QLineF::intersect`. -/
def lineIntersectExact (l m : QLineF) : IntersectType × QPointF :=
  let a := l.p2.sub l.p1
  let b := m.p1.sub m.p2
  let c := l.p1.sub m.p1
  let denominator := a.y * b.x - a.x * b.y
  if denominator = 0 then (IntersectType.NoIntersection, QPointF.zero)
  else
    let reciprocal := 1 / denominator
    let na := (b.y * c.x - b.x * c.y) * reciprocal
    let pt := l.p1.add (QPointF.smul na a)
    if na < 0 ∨ na > 1 then (IntersectType.UnboundedIntersection, pt)
    else
      let nb := (a.x * c.y - a.y * c.x) * reciprocal
      if nb < 0 ∨ nb > 1 then (IntersectType.UnboundedIntersection, pt)
      else (IntersectType.BoundedIntersection, pt)

/-- A library instance over the rationals: QLineF and QVector2D as documented by Qt, on top of
`ratSqrt` and `ratExp`. -/
def Qt.exact : Qt where
  lineLength l := ratSqrt ((l.p2.x - l.p1.x) ^ 2 + (l.p2.y - l.p1.y) ^ 2)
  lineSetLength l len :=
    let n := ratSqrt ((l.p2.x - l.p1.x) ^ 2 + (l.p2.y - l.p1.y) ^ 2)
    if n = 0 then l
    else ⟨l.p1, ⟨l.p1.x + (l.p2.x - l.p1.x) / n * len, l.p1.y + (l.p2.y - l.p1.y) / n * len⟩⟩
  lineIntersect := lineIntersectExact
  vector2DLength v := ratSqrt (v.x ^ 2 + v.y ^ 2)
  sqrt := ratSqrt
  exp := ratExp

/-- A sample at a position and time with full pressure and no tilt. -/
def sampleAt (x y : ℚ) (t : Int) : KisPaintInformation := ⟨⟨x, y⟩, 1, 0, 0, t⟩

/-- A helper state outside any stroke, with the given smoothing options. -/
def idleState (opts : KisSmoothingOptions) : KisToolFreehandHelper.Private where
  haveTangent := false
  previousTangent := QPointF.zero
  hasPaintAtLeastOnce := false
  strokeTimeoutTimer := false
  painterInfos := []
  previousPaintInformation := default
  olderPaintInformation := default
  smoothingOptions := opts
  airbrushingTimer := false
  history := []
  distanceHistory := []
  lastOutlinePos := PositionHistory.init

/-- Smoothing options with the given type, distance 0, tail aggressiveness 0, raw pressure. -/
def optionsOf (t : SmoothingType) : KisSmoothingOptions := ⟨t, 0, 0, false⟩

/-- The state of a stroke in the given mode after `initPaint` at (0,0), time 0, and one `paint`
at (10,0), time 10: the tangent (1,0) is at hand and no job has been emitted. -/
def twoSampleState (t : SmoothingType) : KisToolFreehandHelper.Private :=
  { idleState (optionsOf t) with
    haveTangent := true
    previousTangent := ⟨1, 0⟩
    strokeTimeoutTimer := true
    painterInfos := [⟨⟨⟨0, 0⟩, 0⟩⟩]
    previousPaintInformation := sampleAt 10 0 10
    olderPaintInformation := sampleAt 0 0 0 }

/-! ## Update queue

Of the queue, the walker and the updater context only the test
`krita/image/tests/kis_simple_update_queue_test.cpp` is among the source files.  The
definitions of this section are written from the specification (sections 3, 4.6 and 4.7) and
agree with that test. -/

/-- Modelled from the spec: QRect (Qt), the integer rectangle `QRect(x, y, width, height)` of
the test; it covers the pixels x ≤ px < x + width, y ≤ py < y + height. -/
structure QRect where
  x : Int
  y : Int
  width : Int
  height : Int
deriving DecidableEq, Repr

namespace QRect

/-- Modelled from the spec: whether the rectangle covers the pixel (px, py). -/
def containsPoint (r : QRect) (px py : Int) : Prop :=
  r.x ≤ px ∧ px < r.x + r.width ∧ r.y ≤ py ∧ py < r.y + r.height

/-- Modelled from the spec: a rectangle without pixels. -/
def isEmpty (r : QRect) : Bool := decide (r.width ≤ 0) || decide (r.height ≤ 0)

/-- Modelled from the spec: two rectangles overlap when they share a pixel. -/
def intersects (a b : QRect) : Bool :=
  !a.isEmpty && !b.isEmpty &&
    decide (a.x < b.x + b.width) && decide (b.x < a.x + a.width) &&
    decide (a.y < b.y + b.height) && decide (b.y < a.y + a.height)

/-- Modelled from the spec: two rectangles are adjacent when they share a piece of an edge. -/
def adjacent (a b : QRect) : Bool :=
  !a.isEmpty && !b.isEmpty &&
    ((decide (a.x + a.width = b.x ∨ b.x + b.width = a.x) &&
        decide (a.y < b.y + b.height) && decide (b.y < a.y + a.height)) ||
      (decide (a.y + a.height = b.y ∨ b.y + b.height = a.y) &&
        decide (a.x < b.x + b.width) && decide (b.x < a.x + a.width)))

/-- Modelled from the spec: the bounding rectangle of two rectangles (section 4.6, optimize);
an empty rectangle does not count. -/
def united (a b : QRect) : QRect :=
  if a.isEmpty then b
  else if b.isEmpty then a
  else
    { x := min a.x b.x
      y := min a.y b.y
      width := max (a.x + a.width) (b.x + b.width) - min a.x b.x
      height := max (a.y + a.height) (b.y + b.height) - min a.y b.y }

end QRect

/-- Modelled from the spec: the Walker (KisBaseRectsWalker, source not at hand), reduced to
its requested rectangle, the part the queue reads. -/
structure KisBaseRectsWalker where
  requestedRect : QRect
deriving DecidableEq, Repr

/-- Modelled from the spec: the overlap test on requested rectangles, the instance of
`checksOverlap` used for the scenarios. -/
def requestedRectsOverlap (a b : KisBaseRectsWalker) : Bool :=
  a.requestedRect.intersects b.requestedRect

/-- Modelled from the spec: the UpdaterContext (KisUpdaterContext, source not at hand), a
fixed number of job slots, each empty or bound to a walker. -/
structure KisUpdaterContext where
  slots : List (Option KisBaseRectsWalker)
deriving DecidableEq, Repr

namespace KisUpdaterContext

/-- Modelled from the spec: a context of capacity `n` with all slots empty, as constructed by
`KisTestableUpdaterContext(n)` and restored by `clear()`. -/
def empty (n : Nat) : KisUpdaterContext := ⟨List.replicate n none⟩

/-- Modelled from the spec: whether a slot is free. -/
def hasFreeSlot (ctx : KisUpdaterContext) : Bool := ctx.slots.any Option.isNone

/-- Modelled from the spec: the first free slot of a slot list is bound to the walker. -/
def fillFirst (w : KisBaseRectsWalker) :
    List (Option KisBaseRectsWalker) → List (Option KisBaseRectsWalker)
  | [] => []
  | none :: rest => some w :: rest
  | some v :: rest => some v :: fillFirst w rest

/-- Modelled from the spec: claim a free slot of the context for the walker. -/
def claim (ctx : KisUpdaterContext) (w : KisBaseRectsWalker) : KisUpdaterContext :=
  ⟨fillFirst w ctx.slots⟩

/-- Modelled from the spec: the walkers bound to the slots of the context, its running jobs, in
slot order (section 4.7: a way to observe running jobs). -/
def running (ctx : KisUpdaterContext) : List KisBaseRectsWalker := ctx.slots.filterMap id

/-- Modelled from the spec: the free slots are bound, in slot order, to the given walkers. -/
def fill (ctx : KisUpdaterContext) (ws : List KisBaseRectsWalker) : KisUpdaterContext :=
  ws.foldl claim ctx

end KisUpdaterContext

/-- Modelled from the spec: the UpdateQueue (KisSimpleUpdateQueue, source not at hand):
the ordered list of pending walkers and the blocked flag. -/
structure KisSimpleUpdateQueue where
  walkers : List KisBaseRectsWalker
  blocked : Bool
deriving DecidableEq, Repr

namespace KisSimpleUpdateQueue

/-- Modelled from the spec: what one scan of `processQueue` yields: the context, the walkers
selected by the scan in selection order, and the walkers left pending. -/
structure Scan where
  context : KisUpdaterContext
  selected : List KisBaseRectsWalker
  pending : List KisBaseRectsWalker
deriving DecidableEq, Repr

/-- Modelled from the spec: `addJob` appends the walker to the tail (the test finds all four
walkers pending after four calls). -/
def addJob (q : KisSimpleUpdateQueue) (w : KisBaseRectsWalker) : KisSimpleUpdateQueue :=
  { q with walkers := q.walkers ++ [w] }

/-- Modelled from the spec: the scan of `processQueue` from the head of the list (section 4.6):
it stops when the context is full; a walker that no walker bound to a slot of the context
overlaps claims a free slot and leaves the list; the others remain in order.  The walkers
selected earlier in the scan are bound to slots by then, so they are among the walkers tested;
so are the walkers the context was already running, which the invariant of section 3 (no two
walkers dispatched concurrently overlap) and section 5 require. -/
def scan (checksOverlap : KisBaseRectsWalker → KisBaseRectsWalker → Bool)
    (ctx : KisUpdaterContext) (selected : List KisBaseRectsWalker) :
    List KisBaseRectsWalker → Scan
  | [] => ⟨ctx, selected, []⟩
  | w :: ws =>
    if !ctx.hasFreeSlot then ⟨ctx, selected, w :: ws⟩
    else if ctx.running.any (fun s => checksOverlap s w) then
      let r := scan checksOverlap ctx selected ws
      ⟨r.context, r.selected, w :: r.pending⟩
    else scan checksOverlap (ctx.claim w) (selected ++ [w]) ws

/-- Modelled from the spec: `processQueue(context)`: nothing while blocked, else one scan. -/
def processQueue (checksOverlap : KisBaseRectsWalker → KisBaseRectsWalker → Bool)
    (q : KisSimpleUpdateQueue) (ctx : KisUpdaterContext) :
    KisSimpleUpdateQueue × KisUpdaterContext :=
  if q.blocked then (q, ctx)
  else
    let r := scan checksOverlap ctx [] q.walkers
    ({ q with walkers := r.pending }, r.context)

/-- Modelled from the spec: `blockProcessing(context)` marks the queue blocked. -/
def blockProcessing (q : KisSimpleUpdateQueue) : KisSimpleUpdateQueue :=
  { q with blocked := true }

/-- Modelled from the spec: `startProcessing(context)` clears the flag and runs `processQueue`. -/
def startProcessing (checksOverlap : KisBaseRectsWalker → KisBaseRectsWalker → Bool)
    (q : KisSimpleUpdateQueue) (ctx : KisUpdaterContext) :
    KisSimpleUpdateQueue × KisUpdaterContext :=
  processQueue checksOverlap { q with blocked := false } ctx

end KisSimpleUpdateQueue

namespace KisUpdaterContext

/-- Modelled from the spec: the number of free slots. -/
def freeSlots (ctx : KisUpdaterContext) : Nat := ctx.slots.countP Option.isNone

end KisUpdaterContext

/-- The walker of the test for the dirty rectangle (0,0,50,100). -/
def walker1 : KisBaseRectsWalker := ⟨⟨0, 0, 50, 100⟩⟩

/-- The walker of the test for the dirty rectangle (0,0,100,100). -/
def walker2 : KisBaseRectsWalker := ⟨⟨0, 0, 100, 100⟩⟩

/-- The walker of the test for the dirty rectangle (50,0,50,100). -/
def walker3 : KisBaseRectsWalker := ⟨⟨50, 0, 50, 100⟩⟩

/-- The walker of the test for the dirty rectangle (150,150,50,50). -/
def walker4 : KisBaseRectsWalker := ⟨⟨150, 150, 50, 50⟩⟩

namespace KisSimpleUpdateQueue

/-- Modelled from the spec: the calls a client makes on a queue and its context. -/
inductive Call where
  | addJob (w : KisBaseRectsWalker)
  | processQueue
  | blockProcessing
  | startProcessing
deriving DecidableEq, Repr

/-- Modelled from the spec: the effect of a call on the pair of the queue and the context;
`addJob` and `blockProcessing` do not touch the context. -/
def perform (checksOverlap : KisBaseRectsWalker → KisBaseRectsWalker → Bool)
    (s : KisSimpleUpdateQueue × KisUpdaterContext) :
    Call → KisSimpleUpdateQueue × KisUpdaterContext
  | .addJob w => (addJob s.1 w, s.2)
  | .processQueue => processQueue checksOverlap s.1 s.2
  | .blockProcessing => (blockProcessing s.1, s.2)
  | .startProcessing => startProcessing checksOverlap s.1 s.2

/-- Modelled from the spec: a sequence of calls, oldest first. -/
def performAll (checksOverlap : KisBaseRectsWalker → KisBaseRectsWalker → Bool)
    (s : KisSimpleUpdateQueue × KisUpdaterContext) (calls : List Call) :
    KisSimpleUpdateQueue × KisUpdaterContext :=
  calls.foldl (perform checksOverlap) s

end KisSimpleUpdateQueue

namespace KisSimpleUpdateQueue

/-- Modelled from the spec: the test "overlap or are adjacent" of `optimize` on two dirty
rectangles. -/
def touches (a b : QRect) : Bool := a.intersects b || a.adjacent b

/-- Modelled from the spec: the bounding rectangle of a group of walkers, united from the first
member on. -/
def groupRect : List KisBaseRectsWalker → QRect
  | [] => ⟨0, 0, 0, 0⟩
  | w :: ws => ws.foldl (fun r v => r.united v.requestedRect) w.requestedRect

/-- Modelled from the spec: the group `g` takes in the first group of the list whose bounding
rectangle overlaps or is adjacent to its own: the merged group and the groups left, or nothing
when `g` touches no group of the list. -/
def absorbFirst (g : List KisBaseRectsWalker) :
    List (List KisBaseRectsWalker) →
      Option (List KisBaseRectsWalker × List (List KisBaseRectsWalker))
  | [] => none
  | h :: hs =>
    if touches (groupRect g) (groupRect h) then some (g ++ h, hs)
    else
      match absorbFirst g hs with
      | none => none
      | some (m, rest) => some (m, h :: rest)

/-- Modelled from the spec: one merge of `optimize`: the first group that touches a later group
takes the first such group in, in its own place; nothing when no two groups touch. -/
def mergeStep : List (List KisBaseRectsWalker) → Option (List (List KisBaseRectsWalker))
  | [] => none
  | g :: gs =>
    match absorbFirst g gs with
    | some (m, rest) => some (m :: rest)
    | none =>
      match mergeStep gs with
      | none => none
      | some gs1 => some (g :: gs1)

/-- Modelled from the spec: at most `n` merges, stopping when no two groups touch. -/
def mergeAll : Nat → List (List KisBaseRectsWalker) → List (List KisBaseRectsWalker)
  | 0, gs => gs
  | n + 1, gs =>
    match mergeStep gs with
    | none => gs
    | some gs1 => mergeAll n gs1

/-- Modelled from the spec: the groups `optimize` coalesces: every pending walker starts as a
group of its own, in queue order, and groups whose bounding rectangles overlap or are adjacent
are merged until no two of them do (each merge takes a group away, so as many merges as there
are walkers suffice). -/
def coalesce (ws : List KisBaseRectsWalker) : List (List KisBaseRectsWalker) :=
  mergeAll ws.length (ws.map (fun w => [w]))

/-- Modelled from the spec: the groups `optimize` may form: a pending walker alone, or two
such groups whose bounding rectangles overlap or are adjacent, the members of the earlier
group first. -/
inductive Coalesced : List KisBaseRectsWalker → Prop
  | single (w : KisBaseRectsWalker) : Coalesced [w]
  | merge (g h : List KisBaseRectsWalker) : Coalesced g → Coalesced h →
      touches (groupRect g) (groupRect h) = true → Coalesced (g ++ h)

/-- Modelled from the spec: the walker rebuilt for a group: its requested rectangle is the
bounding rectangle of the group. -/
def rebuild (g : List KisBaseRectsWalker) : KisBaseRectsWalker := ⟨groupRect g⟩

/-- Modelled from the spec: `optimize()` replaces each group of coalesced walkers by one rebuilt
walker, placed where the first member of the group was. -/
def optimize (q : KisSimpleUpdateQueue) : KisSimpleUpdateQueue :=
  { q with walkers := (coalesce q.walkers).map rebuild }

/-- Modelled from the spec: the first members of the groups, in group order. -/
def heads (gs : List (List KisBaseRectsWalker)) : List KisBaseRectsWalker :=
  gs.filterMap List.head?

end KisSimpleUpdateQueue

namespace KisToolFreehandHelper

/-- What `paintOpOutline` passes on to `settings->brushOutline`: whether the settings are those
of the stroke preset (not `globalSettings`), the paint information, and the distance information
registered with it. -/
structure OutlineRequest where
  strokeSettings : Bool
  info : KisPaintInformation
  distanceInfo : KisDistanceInformation
deriving DecidableEq, Repr

/-- Method `paintOpOutline`.  `hover` is the sample `infoBuilder->hover` built from the cursor
position and the event.  The new state is returned since the method writes through `m_d`. -/
def paintOpOutline (d : Private) (savedCursorPos : QPointF) (hover : KisPaintInformation) :
    Private × OutlineRequest :=
  let r := d.lastOutlinePos.pushThroughHistory savedCursorPos
  let d1 := { d with lastOutlinePos := r.2 }
  match d.painterInfos with
  | [] => (d1, ⟨false, hover, ⟨r.1, 0⟩⟩)
  | p :: _ => (d1, ⟨true, d.previousPaintInformation, p.dragDistance⟩)

/-- The state the constructor leaves: containers empty, timers inactive, points and the position
history default constructed.  The two flags are not initialised by the constructor, and the
defaults of KisPaintInformation and KisSmoothingOptions are declared elsewhere; they are
arguments. -/
def constructed (haveTangent hasPaintAtLeastOnce : Bool) (info : KisPaintInformation)
    (opts : KisSmoothingOptions) : Private where
  haveTangent := haveTangent
  previousTangent := QPointF.zero
  hasPaintAtLeastOnce := hasPaintAtLeastOnce
  strokeTimeoutTimer := false
  painterInfos := []
  previousPaintInformation := info
  olderPaintInformation := info
  smoothingOptions := opts
  airbrushingTimer := false
  history := []
  distanceHistory := []
  lastOutlinePos := PositionHistory.init

/-- A call on the helper: the public operations and the two timer slots. -/
inductive HelperCall where
  | initPaint (start : KisPaintInformation) (needsAirbrushing : Bool)
  | paint (info : KisPaintInformation)
  | endPaint
  | setSmoothness (smoothingOptions : KisSmoothingOptions)
  | paintOpOutline (savedCursorPos : QPointF) (hover : KisPaintInformation)
  | timeout
  | airbrush
deriving DecidableEq, Repr

/-- The effect of one call: the new state and the jobs added. -/
def call (qt : Qt) (d : Private) : HelperCall → Outcome
  | .initPaint start needsAirbrushing => .ok (initPaint d start needsAirbrushing, [])
  | .paint info => paint qt d info
  | .endPaint => endPaint qt d
  | .setSmoothness smoothingOptions => .ok (setSmoothness d smoothingOptions, [])
  | .paintOpOutline savedCursorPos hover => .ok ((paintOpOutline d savedCursorPos hover).1, [])
  | .timeout => finishStroke qt d
  | .airbrush => doAirbrushing d

/-- A sequence of calls, oldest first: the final state and all jobs in emission order; the first
fault ends the sequence. -/
def callAll (qt : Qt) (d : Private) : List HelperCall → Outcome
  | [] => .ok (d, [])
  | c :: cs =>
    match call qt d c with
    | .error f => .error f
    | .ok (d1, jobs) =>
      match callAll qt d1 cs with
      | .error f => .error f
      | .ok (d2, jobs2) => .ok (d2, jobs ++ jobs2)

/-- The jobs of an outcome; a call that ends in a fault has added none. -/
def jobsOf : Outcome → List Job
  | .ok (_, jobs) => jobs
  | .error _ => []

end KisToolFreehandHelper

namespace KisToolFreehandHelper

/-- The list `m_d->history` in the weighted smoothing block of `paint` after `append(info)`. -/
def appendedHistory (d : Private) (info : KisPaintInformation) : List KisPaintInformation :=
  d.history ++ [info]

/-- The list `m_d->distanceHistory` in the weighted smoothing block of `paint` after
`append(currentDistance)`. -/
def appendedDistanceHistory (qt : Qt) (d : Private) (info : KisPaintInformation) : List ℚ :=
  d.distanceHistory ++
    [qt.vector2DLength (info.pos.sub
      (match d.history.getLast? with
        | some prevPi => prevPi.pos
        | none => d.previousPaintInformation.pos))]

/-- The condition of `Q_ASSERT(m_d->history.size() == m_d->distanceHistory.size())` in `paint`,
at the place of the assertion: after the two appends for the sample `info`. -/
def historySizesAssert (qt : Qt) (d : Private) (info : KisPaintInformation) : Prop :=
  (appendedHistory d info).length = (appendedDistanceHistory qt d info).length

end KisToolFreehandHelper

/-! ## KisCanvas: tablet events

The definitions follow `krita/ui/kis_canvas.cc`.  `PRESSURE_THRESHOLD` is defined in a header
that is not among the source files; it is an argument. -/

/-- The values of `QTabletEvent::device()` the switch of `tabletEvent` tells apart; `other`
stands for any value that reaches the `default` label. -/
inductive TabletDevice where
  | NoDevice
  | Stylus
  | Puck
  | Eraser
  | other
deriving DecidableEq, Repr

/-- The values of `enumInputDevice` that `tabletEvent` assigns. -/
inductive enumInputDevice where
  | INPUT_DEVICE_STYLUS
  | INPUT_DEVICE_PUCK
  | INPUT_DEVICE_ERASER
deriving DecidableEq, Repr

/-- The button values `tabletEvent` passes on: `Qt::NoButton` and `Qt::LeftButton`. -/
inductive ButtonState where
  | NoButton
  | LeftButton
deriving DecidableEq, Repr

/-- QTabletEvent: the accessors `tabletEvent` reads; `pressure()` is the raw integer. -/
structure QTabletEvent where
  device : TabletDevice
  pos : Int × Int
  globalPos : Int × Int
  pressure : Int
  xTilt : Int
  yTilt : Int
deriving DecidableEq, Repr

/-- The event a canvas emits: KisButtonPressEvent (signal gotButtonPressEvent),
KisButtonReleaseEvent (gotButtonReleaseEvent) or KisMoveEvent (gotMoveEvent), with the
constructor arguments `tabletEvent` passes. -/
inductive KisEvent where
  | buttonPress (device : enumInputDevice) (pos globalPos : Int × Int) (pressure : ℚ)
      (xTilt yTilt : Int) (button state : ButtonState)
  | buttonRelease (device : enumInputDevice) (pos globalPos : Int × Int) (pressure : ℚ)
      (xTilt yTilt : Int) (button state : ButtonState)
  | move (device : enumInputDevice) (pos globalPos : Int × Int) (pressure : ℚ)
      (xTilt yTilt : Int) (state : ButtonState)
deriving DecidableEq, Repr

namespace KisEvent

/-- Whether the event is a button press. -/
def isPress : KisEvent → Bool
  | buttonPress _ _ _ _ _ _ _ _ => true
  | _ => false

/-- Whether the event is a button release. -/
def isRelease : KisEvent → Bool
  | buttonRelease _ _ _ _ _ _ _ _ => true
  | _ => false

/-- Whether the event is a move. -/
def isMove : KisEvent → Bool
  | move _ _ _ _ _ _ _ => true
  | _ => false

end KisEvent

/-- The member of KisCanvas that `tabletEvent` reads and writes. -/
structure KisCanvas where
  m_lastPressure : ℚ
deriving DecidableEq, Repr

namespace KisCanvas

/-- The constructor sets `m_lastPressure = 0`. -/
def init : KisCanvas := ⟨0⟩

/-- The switch on `e->device()` at the head of `tabletEvent`. -/
def inputDevice : TabletDevice → enumInputDevice
  | .Puck => .INPUT_DEVICE_PUCK
  | .Eraser => .INPUT_DEVICE_ERASER
  | _ => .INPUT_DEVICE_STYLUS

/-- Method `KisCanvas::tabletEvent` (the `#if 1` branch): the new canvas state and the events
emitted, in order. -/
def tabletEvent (PRESSURE_THRESHOLD : ℚ) (c : KisCanvas) (e : QTabletEvent) :
    KisCanvas × List KisEvent :=
  let device := inputDevice e.device
  let pressure : ℚ := (e.pressure : ℚ) / 255
  let emitted :=
    if pressure ≥ PRESSURE_THRESHOLD ∧ c.m_lastPressure < PRESSURE_THRESHOLD then
      [KisEvent.buttonPress device e.pos e.globalPos pressure e.xTilt e.yTilt
        ButtonState.LeftButton ButtonState.NoButton]
    else if pressure < PRESSURE_THRESHOLD ∧ c.m_lastPressure ≥ PRESSURE_THRESHOLD then
      [KisEvent.buttonRelease device e.pos e.globalPos pressure e.xTilt e.yTilt
        ButtonState.LeftButton ButtonState.NoButton]
    else
      [KisEvent.move device e.pos e.globalPos pressure e.xTilt e.yTilt ButtonState.NoButton]
  ({ c with m_lastPressure := pressure }, emitted)

/-- A sequence of tablet events, oldest first: the final state and all events emitted. -/
def tabletEvents (PRESSURE_THRESHOLD : ℚ) (c : KisCanvas) :
    List QTabletEvent → KisCanvas × List KisEvent
  | [] => (c, [])
  | e :: es =>
    let r := tabletEvent PRESSURE_THRESHOLD c e
    let rs := tabletEvents PRESSURE_THRESHOLD r.1 es
    (rs.1, r.2 ++ rs.2)

end KisCanvas

namespace KisToolFreehandHelper

/-- The sum D_i of the pressure-adjusted distances of the history entries from the newest one
back to entry `i`, the value of `distanceSum` when the loop computes the rate of entry `i`. -/
def accumulatedDistance (opts : KisSmoothingOptions) (history : List KisPaintInformation)
    (distanceHistory : List ℚ) (sigma : ℚ) (i : Nat) : ℚ :=
  ∑ j in Finset.Ico i history.length, adjustedDistance opts history distanceHistory sigma j

/-- The Gaussian weight in the words of the specification:
(1/(s*sqrt(2*pi))) * exp(-D^2 / (2*s^2)). -/
def kernelFormula (qt : Qt) (s D : ℚ) : ℚ :=
  1 / (s * qt.sqrt (2 * M_PI)) * qt.exp (-(D ^ 2) / (2 * s ^ 2))

/-- The rate of history entry `i` as the loop of the weighted smoothing computes it, for the
sigma of the loop. -/
def kernelWeight (qt : Qt) (opts : KisSmoothingOptions) (history : List KisPaintInformation)
    (distanceHistory : List ℚ) (sigma : ℚ) (i : Nat) : ℚ :=
  1 / (qt.sqrt (2 * M_PI) * sigma) *
    qt.exp (-(accumulatedDistance opts history distanceHistory sigma i) *
      (accumulatedDistance opts history distanceHistory sigma i) / (2 * (sigma * sigma)))

/-- The indices below `k` that the loop visits before its `break`, newest first: it stops in
front of the first entry whose weight `w i` makes `baseRate / w i > 100`. -/
def visitedBelow (w : Nat → ℚ) (baseRate : ℚ) : Nat → List Nat
  | 0 => []
  | i + 1 => if ratioExceeds baseRate (w i) 100 then [] else i :: visitedBelow w baseRate i

/-- The indices of the `n` history entries that enter the weighted mean, newest first: the
newest entry always, then the entries back to, and excluding, the first one that breaks. -/
def kernelIndices (w : Nat → ℚ) : Nat → List Nat
  | 0 => []
  | m + 1 => m :: visitedBelow w (w m) m

end KisToolFreehandHelper

namespace KisToolFreehandHelper

/-- The smoothed position in the words of the specification, for a kernel parameter `s`: the
sum of w_i * pos_i divided by the sum of w_i, with w_i = `kernelFormula` at `s` and D_i, over the
entries of `kernelIndices`. -/
def kernelMean (qt : Qt) (opts : KisSmoothingOptions) (history : List KisPaintInformation)
    (distanceHistory : List ℚ) (s : ℚ) : ℚ × ℚ :=
  let w := fun i => kernelFormula qt s (accumulatedDistance opts history distanceHistory s i)
  let indices := kernelIndices w history.length
  ((indices.map (fun i => w i * (history.getD i default).pos.x)).sum / (indices.map w).sum,
    (indices.map (fun i => w i * (history.getD i default).pos.y)).sum / (indices.map w).sum)

/-- The sum of the weights of the entries that enter the mean (`scaleSum` after the loop). -/
def kernelScale (qt : Qt) (opts : KisSmoothingOptions) (history : List KisPaintInformation)
    (distanceHistory : List ℚ) (s : ℚ) : ℚ :=
  ((kernelIndices
    (fun i => kernelFormula qt s (accumulatedDistance opts history distanceHistory s i))
    history.length).map
    (fun i => kernelFormula qt s (accumulatedDistance opts history distanceHistory s i))).sum

end KisToolFreehandHelper

namespace KisToolFreehandHelper

/-- The accumulators of the weighted smoothing when its loop ends, before the division by
`scaleSum`. -/
def smoothAccumulators (qt : Qt) (opts : KisSmoothingOptions)
    (history : List KisPaintInformation) (distanceHistory : List ℚ) : SmoothAcc :=
  smoothLoop qt opts history distanceHistory (opts.smoothnessDistance / 3)
    (1 / (qt.sqrt (2 * M_PI) * (opts.smoothnessDistance / 3)))
    (opts.smoothnessDistance / 3 * (opts.smoothnessDistance / 3)) history.length
    ⟨0, 0, 0, 0, 0, 0⟩

end KisToolFreehandHelper

/-- Weighted smoothing options with the given smoothness distance, no tail aggressiveness and
no pressure smoothing. -/
def weightedOptions (distance : ℚ) : KisSmoothingOptions :=
  ⟨SmoothingType.WEIGHTED_SMOOTHING, distance, 0, false⟩

/-- The state of a weighted stroke with smoothness distance 15 after `initPaint` at (0,0),
time 0, and `paint` at (3,4), (6,8) and (9,12), times 1, 2 and 3: three history entries, a step
of length 5 apart. -/
def diagonalStroke : KisToolFreehandHelper.Private :=
  { idleState (weightedOptions 15) with
    haveTangent := true
    previousTangent := ⟨3, 4⟩
    hasPaintAtLeastOnce := true
    strokeTimeoutTimer := true
    painterInfos := [⟨⟨⟨0, 0⟩, 0⟩⟩]
    previousPaintInformation := sampleAt 9 12 3
    olderPaintInformation := sampleAt 6 8 2
    history := [sampleAt 3 4 1, sampleAt 6 8 2, sampleAt 9 12 3]
    distanceHistory := [5, 5, 5] }

/-- The history of `diagonalStroke` in the next `paint`, at (12,16) and time 4, after the
append. -/
def diagonalHistory : List KisPaintInformation :=
  [sampleAt 3 4 1, sampleAt 6 8 2, sampleAt 9 12 3, sampleAt 12 16 4]

/-- The state of a weighted stroke with smoothness distance 3 after `initPaint` at (0,0),
time 0, and `paint` at (1,0), (2,0) and (3,0), times 1, 2 and 3: three history entries on the
x axis, a step of length 1 apart. -/
def axisStroke : KisToolFreehandHelper.Private :=
  { idleState (weightedOptions 3) with
    haveTangent := true
    previousTangent := ⟨1, 0⟩
    hasPaintAtLeastOnce := true
    strokeTimeoutTimer := true
    painterInfos := [⟨⟨⟨0, 0⟩, 0⟩⟩]
    previousPaintInformation := sampleAt 3 0 3
    olderPaintInformation := sampleAt 2 0 2
    history := [sampleAt 1 0 1, sampleAt 2 0 2, sampleAt 3 0 3]
    distanceHistory := [1, 1, 1] }

/-- The history of `axisStroke` in the next `paint`, at (4,0) and time 4, after the append. -/
def axisHistory : List KisPaintInformation :=
  [sampleAt 1 0 1, sampleAt 2 0 2, sampleAt 3 0 3, sampleAt 4 0 4]

namespace KisCanvas

/-- The button press and release events among the events a canvas emitted, in order. -/
def buttonEvents (events : List KisEvent) : List KisEvent :=
  events.filter (fun ev => !ev.isMove)

/-- A stylus event at the origin with the given raw pressure. -/
def stylusAt (pressure : Int) : QTabletEvent :=
  ⟨TabletDevice.Stylus, (0, 0), (0, 0), pressure, 0, 0⟩

end KisCanvas

/-! ## Theorems -/

namespace PositionHistory

theorem swaps_iff (h : PositionHistory) (pt : QPointF) :
    swaps h pt = true ↔
      |pt.x - h.m_second.x| > pointSwapThreshold ∧ |pt.y - h.m_second.y| > pointSwapThreshold := by
  simp [swaps]

theorem push_of_swaps {h : PositionHistory} {pt : QPointF} (hs : swaps h pt = true) :
    pushThroughHistory h pt = (h.m_second, { m_first := h.m_second, m_second := pt }) := by
  simp [pushThroughHistory, hs]

theorem push_of_not_swaps {h : PositionHistory} {pt : QPointF} (hs : swaps h pt = false) :
    pushThroughHistory h pt = (h.m_first, h) := by
  simp [pushThroughHistory, hs]

/-- A call that takes the update branch returns a point different from its argument. -/
theorem push_ne_of_swaps {h : PositionHistory} {pt : QPointF} (hs : swaps h pt = true) :
    (pushThroughHistory h pt).1 ≠ pt := by
  rw [push_of_swaps hs]
  intro heq
  have hx := ((swaps_iff h pt).1 hs).1
  simp only at heq
  rw [heq] at hx
  simp [pointSwapThreshold] at hx
  linarith

/-- With separated stored points, a call in the `else` branch returns a point other than `pt`. -/
theorem push_ne_of_separated {h : PositionHistory} {pt : QPointF} (hsep : Separated h)
    (hs : swaps h pt = false) : (pushThroughHistory h pt).1 ≠ pt := by
  rw [push_of_not_swaps hs]
  intro heq
  simp only at heq
  have : swaps h pt = true := by
    rw [swaps_iff, ← heq]
    exact hsep
  rw [hs] at this
  exact Bool.false_ne_true this

theorem separated_push {h : PositionHistory} {pt : QPointF}
    (hsep : swaps h pt = true ∨ Separated h) : Separated (pushThroughHistory h pt).2 := by
  cases hc : swaps h pt with
  | true =>
    rw [push_of_swaps hc]
    obtain ⟨hx, hy⟩ := (swaps_iff h pt).1 hc
    refine ⟨?_, ?_⟩
    · simpa [abs_sub_comm] using hx
    · simpa [abs_sub_comm] using hy
  | false =>
    rw [push_of_not_swaps hc]
    rcases hsep with h1 | h1
    · rw [hc] at h1
      exact absurd h1 Bool.false_ne_true
    · exact h1

theorem separated_pushAll (pts : List QPointF) :
    ∀ h : PositionHistory, (everSwapped h pts = true ∨ Separated h) → Separated (pushAll h pts) := by
  induction pts with
  | nil =>
    intro h hh
    rcases hh with h1 | h1
    · simp [everSwapped] at h1
    · exact h1
  | cons pt pts ih =>
    intro h hh
    simp only [pushAll]
    apply ih
    rcases hh with h1 | h1
    · simp only [everSwapped, Bool.or_eq_true] at h1
      rcases h1 with h2 | h2
      · exact Or.inr (separated_push (Or.inl h2))
      · exact Or.inl h2
    · exact Or.inr (separated_push (Or.inr h1))

/-- Claim C1. For every sequence of calls on a default constructed history: the next call
`pushThroughHistory p` returns a point different from `p` when it takes the update branch, and
also, in either branch, when some earlier call of the sequence took the update branch. -/
theorem pushThroughHistory_ne_arg (pts : List QPointF) (p : QPointF) :
    (swaps (pushAll init pts) p = true → (pushThroughHistory (pushAll init pts) p).1 ≠ p) ∧
    (everSwapped init pts = true → (pushThroughHistory (pushAll init pts) p).1 ≠ p) := by
  refine ⟨fun hs => push_ne_of_swaps hs, fun he => ?_⟩
  have hsep := separated_pushAll pts init (Or.inl he)
  cases hc : swaps (pushAll init pts) p with
  | true => exact push_ne_of_swaps hc
  | false => exact push_ne_of_separated hsep hc

/-- A run of calls that all take the `else` branch returns `m_first` each time. -/
theorem results_of_else (pts : List QPointF) (h : PositionHistory)
    (hall : ∀ q ∈ pts, ¬ (|q.x - h.m_second.x| > 7 ∧ |q.y - h.m_second.y| > 7)) :
    results h pts = List.replicate pts.length h.m_first ∧ pushAll h pts = h := by
  induction pts with
  | nil => simp [results, pushAll]
  | cons q qs ih =>
    have hq : swaps h q = false := by
      have := hall q (List.mem_cons_self q qs)
      cases hc : swaps h q with
      | false => rfl
      | true => exact absurd ((swaps_iff h q).1 hc) this
    have ih2 := ih (fun r hr => hall r (List.mem_cons_of_mem q hr))
    simp only [results, pushAll, push_of_not_swaps hq, List.length_cons, List.replicate_succ]
    exact ⟨by rw [ih2.1], ih2.2⟩

theorem pushThroughHistory_spec_aux (h : PositionHistory) (p : QPointF) :
    ((|p.x - h.m_second.x| > 7 ∧ |p.y - h.m_second.y| > 7) →
      pushThroughHistory h p = (h.m_second, { m_first := h.m_second, m_second := p })) ∧
    (¬ (|p.x - h.m_second.x| > 7 ∧ |p.y - h.m_second.y| > 7) →
      pushThroughHistory h p = (h.m_first, h)) := by
  refine ⟨fun hc => push_of_swaps ((swaps_iff h p).2 hc), fun hc => ?_⟩
  apply push_of_not_swaps
  cases hs : swaps h p with
  | false => rfl
  | true => exact absurd ((swaps_iff h p).1 hs) hc

/-- Claim C2. With stored points (first, second): when p is more than 7 away from second on
both axes the call returns the old second and the new members are (old second, p); otherwise it
returns first and leaves both members unchanged; hence a run of consecutive calls that all fall
in the second case returns first every time and ends in the same history. -/
theorem pushThroughHistory_spec (h : PositionHistory) (p : QPointF) (pts : List QPointF) :
    ((|p.x - h.m_second.x| > 7 ∧ |p.y - h.m_second.y| > 7) →
      pushThroughHistory h p = (h.m_second, { m_first := h.m_second, m_second := p })) ∧
    (¬ (|p.x - h.m_second.x| > 7 ∧ |p.y - h.m_second.y| > 7) →
      pushThroughHistory h p = (h.m_first, h)) ∧
    ((∀ q ∈ pts, ¬ (|q.x - h.m_second.x| > 7 ∧ |q.y - h.m_second.y| > 7)) →
      results h pts = List.replicate pts.length h.m_first ∧ pushAll h pts = h) := by
  refine ⟨fun hc => push_of_swaps ((swaps_iff h p).2 hc), fun hc => ?_, results_of_else pts h⟩
  apply push_of_not_swaps
  cases hs : swaps h p with
  | false => rfl
  | true => exact absurd ((swaps_iff h p).1 hs) hc

/-- Witness of C1: after the call with (10,10) took the update branch, a second call with
(10,10) returns the stored (0,0). -/
theorem pushThroughHistory_ne_arg_witness :
    everSwapped init [⟨10, 10⟩] = true ∧
      (pushThroughHistory (pushAll init [⟨10, 10⟩]) ⟨10, 10⟩).1 ≠ ⟨10, 10⟩ :=
  ⟨by norm_num [everSwapped, swaps, init, QPointF.zero, pointSwapThreshold],
    (pushThroughHistory_ne_arg [⟨10, 10⟩] ⟨10, 10⟩).2
      (by norm_num [everSwapped, swaps, init, QPointF.zero, pointSwapThreshold])⟩

/-- Witness of C2: with members ((0,0),(10,10)) the calls with (12,30) and (30,12) move on one
axis only by more than 7; both return (0,0) and the members stay as they were. -/
theorem pushThroughHistory_spec_witness :
    results ⟨⟨0, 0⟩, ⟨10, 10⟩⟩ [⟨12, 30⟩, ⟨30, 12⟩] = [⟨0, 0⟩, ⟨0, 0⟩] ∧
      pushAll ⟨⟨0, 0⟩, ⟨10, 10⟩⟩ [⟨12, 30⟩, ⟨30, 12⟩] = ⟨⟨0, 0⟩, ⟨10, 10⟩⟩ :=
  (pushThroughHistory_spec ⟨⟨0, 0⟩, ⟨10, 10⟩⟩ ⟨0, 0⟩ [⟨12, 30⟩, ⟨30, 12⟩]).2.2
    (by
      intro q hq
      simp only [List.mem_cons, List.mem_singleton, List.not_mem_nil, or_false] at hq
      rcases hq with rfl | rfl <;> norm_num)

end PositionHistory

namespace KisToolFreehandHelper

theorem initPaint_painterInfos (d : Private) (start : KisPaintInformation) (air : Bool) :
    ∃ rest, (initPaint d start air).painterInfos = strokePainter d start :: rest := by
  cases hp : d.painterInfos with
  | nil => exact ⟨[], by simp [initPaint, createPainters, strokePainter, hp]⟩
  | cons p ps =>
    exact ⟨ps ++ [⟨⟨start.pos, start.currentTime⟩⟩],
      by simp [initPaint, createPainters, strokePainter, hp]⟩

theorem smoothSample_of_not_weighted (qt : Qt) (d : Private) (info : KisPaintInformation)
    (h : d.smoothingOptions.smoothingType ≠ SmoothingType.WEIGHTED_SMOOTHING) :
    smoothSample qt d info = (d, info) := by
  simp [smoothSample, h]

/-- One `paint` call in mode none: one line job from the previous sample to the new one. -/
theorem paint_none (qt : Qt) (d : Private) (info : KisPaintInformation) (p : PainterInfo)
    (rest : List PainterInfo)
    (hmode : d.smoothingOptions.smoothingType = SmoothingType.NO_SMOOTHING)
    (hp : d.painterInfos = p :: rest) :
    paint qt d info =
      .ok ({ d with hasPaintAtLeastOnce := true, previousPaintInformation := info },
        [Job.line p d.previousPaintInformation info]) := by
  have hs : smoothSample qt d info = (d, info) :=
    smoothSample_of_not_weighted qt d info (by simp [hmode])
  simp [paint, paintSmoothed, hs, hmode, paintLine, hp]

theorem paints_nil (qt : Qt) (d : Private) : paints qt d [] = .ok (d, []) := rfl

theorem paints_cons (qt : Qt) (d : Private) (s : KisPaintInformation)
    (ss : List KisPaintInformation) :
    paints qt d (s :: ss) =
      match paint qt d s with
      | .error f => .error f
      | .ok (d1, jobs) =>
        match paints qt d1 ss with
        | .error f => .error f
        | .ok (d2, jobs2) => .ok (d2, jobs ++ jobs2) := rfl

theorem paints_none (qt : Qt) (p : PainterInfo) (samples : List KisPaintInformation) :
    ∀ (d : Private) (rest : List PainterInfo),
      d.smoothingOptions.smoothingType = SmoothingType.NO_SMOOTHING →
      d.painterInfos = p :: rest →
      ∃ dn, paints qt d samples =
          .ok (dn, List.zipWith (Job.line p) (d.previousPaintInformation :: samples) samples) ∧
        dn.smoothingOptions = d.smoothingOptions ∧
        dn.previousPaintInformation = (d.previousPaintInformation :: samples).getLast
          (List.cons_ne_nil _ _) ∧
        (samples ≠ [] → dn.hasPaintAtLeastOnce = true) := by
  induction samples with
  | nil =>
    intro d rest _ _
    exact ⟨d, by simp [paints_nil], rfl, by simp, by simp⟩
  | cons s ss ih =>
    intro d rest hmode hp
    obtain ⟨dn, h1, h2, h3, h4⟩ :=
      ih { d with hasPaintAtLeastOnce := true, previousPaintInformation := s } rest hmode hp
    refine ⟨dn, ?_, h2, ?_, ?_⟩
    · rw [paints_cons, paint_none qt d s p rest hmode hp]
      simp only [h1]
      simp
    · rw [h3]
      simp [List.getLast_cons]
    · intro _
      cases ss with
      | nil =>
        simp [paints_nil] at h1
        rw [← h1]
      | cons t ts => exact h4 (List.cons_ne_nil _ _)

theorem zipWith_line_isLine (p : PainterInfo) (l1 : List KisPaintInformation) :
    ∀ l2 : List KisPaintInformation, ∀ j ∈ List.zipWith (Job.line p) l1 l2, j.isLine = true := by
  induction l1 with
  | nil => intro l2 j hj; simp at hj
  | cons a as ih =>
    intro l2 j hj
    cases l2 with
    | nil => simp at hj
    | cons b bs =>
      simp only [List.zipWith_cons_cons, List.mem_cons] at hj
      rcases hj with rfl | hj
      · rfl
      · exact ih bs j hj

/-- Claim C3. In mode none every `paint` call emits exactly one line job from the previous sample
to the current one and makes the current sample the previous one; so the stroke
initPaint(s0), paint(s1), ..., paint(sn) emits exactly the n line jobs (s0,s1), ..., (s(n-1),sn),
all for the first painter and none of them a curve or a dab, and for n ≥ 1 `endPaint` adds no
job. -/
theorem none_stroke_lines (qt : Qt) (d : Private) (s0 : KisPaintInformation) (air : Bool)
    (samples : List KisPaintInformation)
    (hmode : d.smoothingOptions.smoothingType = SmoothingType.NO_SMOOTHING) :
    (∀ (e : Private) (info : KisPaintInformation) (p : PainterInfo) (rest : List PainterInfo),
      e.smoothingOptions.smoothingType = SmoothingType.NO_SMOOTHING →
      e.painterInfos = p :: rest →
      paint qt e info =
        .ok ({ e with hasPaintAtLeastOnce := true, previousPaintInformation := info },
          [Job.line p e.previousPaintInformation info])) ∧
    ∃ dn, paints qt (initPaint d s0 air) samples =
        .ok (dn, List.zipWith (Job.line (strokePainter d s0)) (s0 :: samples) samples) ∧
      (List.zipWith (Job.line (strokePainter d s0)) (s0 :: samples) samples).length =
        samples.length ∧
      (∀ j ∈ List.zipWith (Job.line (strokePainter d s0)) (s0 :: samples) samples,
        j.isLine = true) ∧
      dn.previousPaintInformation = (s0 :: samples).getLast (List.cons_ne_nil _ _) ∧
      (samples ≠ [] → ∃ dEnd, endPaint qt dn = .ok (dEnd, [])) := by
  refine ⟨fun e info p rest he hp => paint_none qt e info p rest he hp, ?_⟩
  obtain ⟨rest, hrest⟩ := initPaint_painterInfos d s0 air
  have hm0 : (initPaint d s0 air).smoothingOptions.smoothingType = SmoothingType.NO_SMOOTHING := by
    simpa [initPaint] using hmode
  obtain ⟨dn, h1, h2, h3, h4⟩ := paints_none qt (strokePainter d s0) samples _ rest hm0 hrest
  have hprev : (initPaint d s0 air).previousPaintInformation = s0 := by simp [initPaint]
  rw [hprev] at h1
  refine ⟨dn, h1, by simp, zipWith_line_isLine _ _ _, ?_, ?_⟩
  · rw [h3]
    simp [hprev]
  · intro hne
    have hpaint := h4 hne
    have hmn : dn.smoothingOptions.smoothingType = SmoothingType.NO_SMOOTHING := by
      rw [h2]
      exact hm0
    exact ⟨{ dn with strokeTimeoutTimer := false, airbrushingTimer := false, painterInfos := [] },
      by simp [endPaint, hpaint, hmn]⟩

/-- Witness of C3 (scenario 4): samples at (0,0), (10,0), (20,0) give the two line jobs
(s0,s1) and (s1,s2), and `endPaint` adds none. -/
theorem none_stroke_lines_witness :
    ∃ dn, paints Qt.exact
        (initPaint (idleState (optionsOf SmoothingType.NO_SMOOTHING)) (sampleAt 0 0 0) false)
        [sampleAt 10 0 10, sampleAt 20 0 20] =
        .ok (dn, [Job.line ⟨⟨⟨0, 0⟩, 0⟩⟩ (sampleAt 0 0 0) (sampleAt 10 0 10),
          Job.line ⟨⟨⟨0, 0⟩, 0⟩⟩ (sampleAt 10 0 10) (sampleAt 20 0 20)]) ∧
      ∃ dEnd, endPaint Qt.exact dn = .ok (dEnd, []) := by
  obtain ⟨_, dn, h1, _, _, _, h4⟩ :=
    none_stroke_lines Qt.exact (idleState (optionsOf SmoothingType.NO_SMOOTHING))
      (sampleAt 0 0 0) false [sampleAt 10 0 10, sampleAt 20 0 20] rfl
  exact ⟨dn, by simpa [strokePainter, idleState, sampleAt] using h1, h4 (by simp)⟩

/-- The smoothing part of `paint` changes nothing but the two histories. -/
theorem smoothSample_frame (qt : Qt) (d : Private) (info : KisPaintInformation) :
    (smoothSample qt d info).1 =
      { d with
        history := (smoothSample qt d info).1.history
        distanceHistory := (smoothSample qt d info).1.distanceHistory } := by
  unfold smoothSample
  split_ifs
  · simp only [weightedSmoothing]
    split_ifs <;> rfl
  · rfl

/-- The segment part of `paint` with a tangent at hand and a painter: the samples are shifted,
and one curve job is emitted unless a tangent is null. -/
theorem paint_haveTangent (qt : Qt) (d : Private) (raw : KisPaintInformation) (p : PainterInfo)
    (rest : List PainterInfo)
    (hmode : d.smoothingOptions.smoothingType = SmoothingType.SIMPLE_SMOOTHING ∨
      d.smoothingOptions.smoothingType = SmoothingType.WEIGHTED_SMOOTHING)
    (hT : d.haveTangent = true) (hp : d.painterInfos = p :: rest) :
    ∃ d1, paint qt d raw =
        .ok (d1,
          if d.previousTangent.isNull ||
              (guardedTangent (smoothSample qt d raw).2 d.olderPaintInformation).isNull then []
          else
            [Job.curve p d.olderPaintInformation
              (bezierControls qt d.olderPaintInformation.pos d.previousPaintInformation.pos
                d.previousTangent
                (guardedTangent (smoothSample qt d raw).2 d.olderPaintInformation)).1
              (bezierControls qt d.olderPaintInformation.pos d.previousPaintInformation.pos
                d.previousTangent
                (guardedTangent (smoothSample qt d raw).2 d.olderPaintInformation)).2
              d.previousPaintInformation]) ∧
      d1.olderPaintInformation = d.previousPaintInformation ∧
      d1.previousPaintInformation = (smoothSample qt d raw).2 ∧
      d1.previousTangent = guardedTangent (smoothSample qt d raw).2 d.olderPaintInformation ∧
      d1.haveTangent = true ∧
      d1.painterInfos = d.painterInfos ∧
      d1.smoothingOptions = d.smoothingOptions := by
  have hf := smoothSample_frame qt d raw
  unfold paint
  generalize smoothSample qt d raw = s at hf ⊢
  obtain ⟨e, cur⟩ := s
  simp only at hf ⊢
  have h1 : e.smoothingOptions = d.smoothingOptions := by rw [hf]
  have h2 : e.haveTangent = true := by rw [hf]; exact hT
  have h3 : e.painterInfos = p :: rest := by rw [hf]; exact hp
  have h4 : e.olderPaintInformation = d.olderPaintInformation := by rw [hf]
  have h5 : e.previousPaintInformation = d.previousPaintInformation := by rw [hf]
  have h6 : e.previousTangent = d.previousTangent := by rw [hf]
  have hm : e.smoothingOptions.smoothingType = SmoothingType.SIMPLE_SMOOTHING ∨
      e.smoothingOptions.smoothingType = SmoothingType.WEIGHTED_SMOOTHING := by rw [h1]; exact hmode
  by_cases hn : (d.previousTangent.isNull ||
      (guardedTangent cur d.olderPaintInformation).isNull) = true
  · refine ⟨{ e with
        previousTangent := guardedTangent cur d.olderPaintInformation
        olderPaintInformation := d.previousPaintInformation
        strokeTimeoutTimer := true
        previousPaintInformation := cur }, ?_, rfl, rfl, rfl, h2, ?_, h1⟩
    · simp [paintSmoothed, hm, h2, h4, h5, h6, paintBezierSegment, hn]
    · simp [h3, hp]
  · refine ⟨{ e with
        hasPaintAtLeastOnce := true
        previousTangent := guardedTangent cur d.olderPaintInformation
        olderPaintInformation := d.previousPaintInformation
        strokeTimeoutTimer := true
        previousPaintInformation := cur }, ?_, rfl, rfl, rfl, h2, ?_, h1⟩
    · simp [paintSmoothed, hm, h2, h4, h5, h6, paintBezierSegment, hn, paintBezierCurve, h3]
    · simp [h3, hp]

/-- Claim C4. In simple or weighted mode with haveTangent set (and a painter, as between
initPaint and endPaint), `paint` works on the sample `cur` its smoothing part delivers (the raw
sample in simple mode): it computes newTangent = (cur.pos - older.pos) / max(1, cur.t - older.t),
emits exactly one curve job with end samples (older, previous) whose control points are built
from (previousTangent, newTangent) when both tangents are non-null, and afterwards
older = the former previous, previous = cur and previousTangent = newTangent. -/
theorem paint_bezier_segment (qt : Qt) (d : Private) (raw cur : KisPaintInformation)
    (newTangent : QPointF) (p : PainterInfo) (rest : List PainterInfo)
    (hmode : d.smoothingOptions.smoothingType = SmoothingType.SIMPLE_SMOOTHING ∨
      d.smoothingOptions.smoothingType = SmoothingType.WEIGHTED_SMOOTHING)
    (hT : d.haveTangent = true) (hp : d.painterInfos = p :: rest)
    (hcur : cur = (smoothSample qt d raw).2)
    (hnew : newTangent = QPointF.divq (cur.pos.sub d.olderPaintInformation.pos)
      ((max 1 (cur.currentTime - d.olderPaintInformation.currentTime) : Int) : ℚ)) :
    (d.smoothingOptions.smoothingType = SmoothingType.SIMPLE_SMOOTHING → cur = raw) ∧
    ∃ d1 jobs, paint qt d raw = .ok (d1, jobs) ∧
      (d.previousTangent.isNull = false → newTangent.isNull = false →
        jobs = [Job.curve p d.olderPaintInformation
          (bezierControls qt d.olderPaintInformation.pos d.previousPaintInformation.pos
            d.previousTangent newTangent).1
          (bezierControls qt d.olderPaintInformation.pos d.previousPaintInformation.pos
            d.previousTangent newTangent).2
          d.previousPaintInformation]) ∧
      d1.olderPaintInformation = d.previousPaintInformation ∧
      d1.previousPaintInformation = cur ∧
      d1.previousTangent = newTangent := by
  have hg : newTangent = guardedTangent cur d.olderPaintInformation := by
    rw [hnew]
    rfl
  refine ⟨fun hs => ?_, ?_⟩
  · rw [hcur, smoothSample_of_not_weighted qt d raw (by simp [hs])]
  · obtain ⟨d1, h1, h2, h3, h4, _, _, _⟩ := paint_haveTangent qt d raw p rest hmode hT hp
    rw [← hcur] at h1 h3 h4
    rw [← hg] at h1 h4
    refine ⟨d1, _, h1, ?_, h2, h3, h4⟩
    intro n1 n2
    simp [n1, n2]

/-- Witness of C4: simple mode, older (0,0) at 0 ms, previous (10,0) at 10 ms, tangent (1,0); the
sample (20,0) at 20 ms gives newTangent (1,0) and the curve (0,0) (3.2,0) (6.8,0) (10,0). -/
theorem paint_bezier_segment_witness :
    ∃ d1, paint Qt.exact (twoSampleState SmoothingType.SIMPLE_SMOOTHING) (sampleAt 20 0 20) =
        .ok (d1, [Job.curve ⟨⟨⟨0, 0⟩, 0⟩⟩ (sampleAt 0 0 0) ⟨16 / 5, 0⟩ ⟨34 / 5, 0⟩
          (sampleAt 10 0 10)]) ∧
      d1.olderPaintInformation = sampleAt 10 0 10 ∧
      d1.previousPaintInformation = sampleAt 20 0 20 ∧
      d1.previousTangent = ⟨1, 0⟩ := by
  obtain ⟨_, d1, jobs, h1, h2, h3, h4, h5⟩ :=
    paint_bezier_segment Qt.exact (twoSampleState SmoothingType.SIMPLE_SMOOTHING)
      (sampleAt 20 0 20) (sampleAt 20 0 20) ⟨1, 0⟩ ⟨⟨⟨0, 0⟩, 0⟩⟩ []
      (Or.inl rfl) rfl rfl
      (by simp [smoothSample, twoSampleState, idleState, optionsOf])
      (by norm_num [twoSampleState, idleState, sampleAt, QPointF.divq, QPointF.sub])
  have hj := h2 (by simp [twoSampleState, idleState, QPointF.isNull])
    (by simp [QPointF.isNull])
  have hr : ratSqrt 1 = 1 := by simp [ratSqrt]
  have hc : bezierControls Qt.exact ⟨0, 0⟩ ⟨10, 0⟩ ⟨1, 0⟩ ⟨1, 0⟩ = (⟨16 / 5, 0⟩, ⟨34 / 5, 0⟩) := by
    simp [bezierControls, controlTargets, velocities, similarity, coeffOf, Qt.exact,
      lineIntersectExact, QPointF.add, QPointF.sub, QPointF.smul, QPointF.zero, hr]
    norm_num
  refine ⟨d1, ?_, h3, h4, h5⟩
  rw [h1, hj]
  simp [twoSampleState, idleState, sampleAt, hc]

theorem guardedTangent_step (a b : KisPaintInformation) (v : QPointF) (k dt : Int)
    (hpos : a.pos = b.pos.add (QPointF.smul (k : ℚ) v)) (hk : 1 ≤ k)
    (ht : a.currentTime = b.currentTime + k * dt) (hdt : 1 ≤ dt) :
    guardedTangent a b = v.divq (dt : ℚ) := by
  have hmax : max 1 (a.currentTime - b.currentTime) = k * dt := by
    rw [ht]
    have : 1 ≤ k * dt := by nlinarith
    simp [this]
  have hd : (dt : ℚ) ≠ 0 := by
    have : (1 : ℚ) ≤ dt := by exact_mod_cast hdt
    linarith
  have hkq : (k : ℚ) ≠ 0 := by
    have : (1 : ℚ) ≤ k := by exact_mod_cast hk
    linarith
  unfold guardedTangent
  rw [hmax, hpos]
  simp only [QPointF.sub, QPointF.add, QPointF.smul, QPointF.divq, Int.cast_mul]
  congr 1 <;> field_simp <;> ring

theorem divq_isNull (v : QPointF) (c : ℚ) (hv : v.isNull = false) (hc : c ≠ 0) :
    (v.divq c).isNull = false := by
  simp only [QPointF.isNull, QPointF.divq, Bool.and_eq_false_imp, decide_eq_true_eq,
    decide_eq_false_iff_not, div_eq_zero_iff, not_or] at hv ⊢
  intro h
  rcases h with h | h
  · exact ⟨hv h, hc⟩
  · exact absurd h hc

/-- Claim C5. Simple mode, stroke initPaint(s0), paint(s1), paint(s2), endPaint() with
s1 = s0 + δ, s2 = s1 + δ, δ non-null, and time steps dt ≥ 1 ms: paint(s1) emits no job, paint(s2)
emits exactly one curve job from s0 to s1 built with the tangent δ/dt on both sides, and endPaint
emits exactly one further curve job from s1 to s2 (again with δ/dt on both sides). -/
theorem simple_three_samples (qt : Qt) (d : Private) (s0 s1 s2 : KisPaintInformation)
    (air : Bool) (δ : QPointF) (dt : Int)
    (hmode : d.smoothingOptions.smoothingType = SmoothingType.SIMPLE_SMOOTHING)
    (hp1 : s1.pos = s0.pos.add δ) (hp2 : s2.pos = s1.pos.add δ) (hδ : δ.isNull = false)
    (ht1 : s1.currentTime = s0.currentTime + dt) (ht2 : s2.currentTime = s1.currentTime + dt)
    (hdt : 1 ≤ dt) :
    ∃ d1 d2 d3,
      paint qt (initPaint d s0 air) s1 = .ok (d1, []) ∧
      paint qt d1 s2 = .ok (d2, [Job.curve (strokePainter d s0) s0
        (bezierControls qt s0.pos s1.pos (δ.divq dt) (δ.divq dt)).1
        (bezierControls qt s0.pos s1.pos (δ.divq dt) (δ.divq dt)).2 s1]) ∧
      endPaint qt d2 = .ok (d3, [Job.curve (strokePainter d s0) s1
        (bezierControls qt s1.pos s2.pos (δ.divq dt) (δ.divq dt)).1
        (bezierControls qt s1.pos s2.pos (δ.divq dt) (δ.divq dt)).2 s2]) := by
  obtain ⟨rest, hrest⟩ := initPaint_painterInfos d s0 air
  have hd : (dt : ℚ) ≠ 0 := by
    have : (1 : ℚ) ≤ dt := by exact_mod_cast hdt
    linarith
  have hT : (δ.divq (dt : ℚ)).isNull = false := divq_isNull δ _ hδ hd
  have hg1 : guardedTangent s1 s0 = δ.divq (dt : ℚ) :=
    guardedTangent_step s1 s0 δ 1 dt (by simp [hp1, QPointF.smul]) le_rfl
      (by simp [ht1]) hdt
  have hg2 : guardedTangent s2 s0 = δ.divq (dt : ℚ) :=
    guardedTangent_step s2 s0 δ 2 dt
      (by
        rw [hp2, hp1]
        simp only [QPointF.add, QPointF.smul, QPointF.mk.injEq]
        constructor <;> push_cast <;> ring)
      (by norm_num) (by rw [ht2, ht1]; ring) hdt
  have hdt0 : s2.currentTime - s1.currentTime = dt := by rw [ht2]; ring
  have hg3 : (s2.pos.sub s1.pos).divq (dt : ℚ) = δ.divq (dt : ℚ) := by
    rw [hp2]
    simp [QPointF.sub, QPointF.add, QPointF.divq]
  have hdt_ne : dt ≠ 0 := by omega
  have hm0 : (initPaint d s0 air).smoothingOptions.smoothingType =
      SmoothingType.SIMPLE_SMOOTHING := by simpa [initPaint] using hmode
  refine ⟨{ initPaint d s0 air with
      haveTangent := true
      previousTangent := δ.divq (dt : ℚ)
      olderPaintInformation := s0
      strokeTimeoutTimer := true
      previousPaintInformation := s1 },
    { initPaint d s0 air with
      haveTangent := true
      hasPaintAtLeastOnce := true
      previousTangent := δ.divq (dt : ℚ)
      olderPaintInformation := s1
      strokeTimeoutTimer := true
      previousPaintInformation := s2 },
    { initPaint d s0 air with
      haveTangent := false
      hasPaintAtLeastOnce := true
      previousTangent := δ.divq (dt : ℚ)
      olderPaintInformation := s1
      strokeTimeoutTimer := false
      airbrushingTimer := false
      painterInfos := []
      previousPaintInformation := s2 }, ?_, ?_, ?_⟩
  · unfold paint
    rw [smoothSample_of_not_weighted]
    · simp only [paintSmoothed, hm0, true_or, if_true]
      simp [initPaint, hg1]
    · simp [hm0]
  · unfold paint
    rw [smoothSample_of_not_weighted]
    · simp only [paintSmoothed, hm0, true_or, if_true, hg2]
      simp [paintBezierSegment, hT, paintBezierCurve, hrest]
    · simp [hm0]
  · simp only [endPaint, finishStroke, hm0]
    simp [hdt0, hdt_ne, hg3, paintBezierSegment, hT, paintBezierCurve, hrest]

/-- Witness of C5 (scenario 5): samples (0,0), (10,0), (20,0) at 0, 10, 20 ms.  The tangent is
(1,0) on both sides; the two curves are (0,0) (3.2,0) (6.8,0) (10,0) and
(10,0) (13.2,0) (16.8,0) (20,0). -/
theorem simple_three_samples_witness :
    ∃ d1 d2 d3,
      paint Qt.exact
        (initPaint (idleState (optionsOf SmoothingType.SIMPLE_SMOOTHING)) (sampleAt 0 0 0) false)
        (sampleAt 10 0 10) = .ok (d1, []) ∧
      paint Qt.exact d1 (sampleAt 20 0 20) =
        .ok (d2, [Job.curve ⟨⟨⟨0, 0⟩, 0⟩⟩ (sampleAt 0 0 0) ⟨16 / 5, 0⟩ ⟨34 / 5, 0⟩
          (sampleAt 10 0 10)]) ∧
      endPaint Qt.exact d2 =
        .ok (d3, [Job.curve ⟨⟨⟨0, 0⟩, 0⟩⟩ (sampleAt 10 0 10) ⟨66 / 5, 0⟩ ⟨84 / 5, 0⟩
          (sampleAt 20 0 20)]) := by
  obtain ⟨d1, d2, d3, h1, h2, h3⟩ :=
    simple_three_samples Qt.exact (idleState (optionsOf SmoothingType.SIMPLE_SMOOTHING))
      (sampleAt 0 0 0) (sampleAt 10 0 10) (sampleAt 20 0 20) false ⟨10, 0⟩ 10 rfl
      (by simp [sampleAt, QPointF.add]) (by norm_num [sampleAt, QPointF.add])
      (by simp [QPointF.isNull]) (by simp [sampleAt]) (by simp [sampleAt]) (by norm_num)
  have hr : ratSqrt 1 = 1 := by simp [ratSqrt]
  have hT : QPointF.divq ⟨10, 0⟩ ((10 : Int) : ℚ) = ⟨1, 0⟩ := by norm_num [QPointF.divq]
  have hc1 : bezierControls Qt.exact ⟨0, 0⟩ ⟨10, 0⟩ ⟨1, 0⟩ ⟨1, 0⟩ =
      (⟨16 / 5, 0⟩, ⟨34 / 5, 0⟩) := by
    simp [bezierControls, controlTargets, velocities, similarity, coeffOf, Qt.exact,
      lineIntersectExact, QPointF.add, QPointF.sub, QPointF.smul, QPointF.zero, hr]
    norm_num
  have hc2 : bezierControls Qt.exact ⟨10, 0⟩ ⟨20, 0⟩ ⟨1, 0⟩ ⟨1, 0⟩ =
      (⟨66 / 5, 0⟩, ⟨84 / 5, 0⟩) := by
    simp [bezierControls, controlTargets, velocities, similarity, coeffOf, Qt.exact,
      lineIntersectExact, QPointF.add, QPointF.sub, QPointF.smul, QPointF.zero, hr]
    norm_num
  refine ⟨d1, d2, d3, h1, ?_, ?_⟩
  · rw [h2, hT]
    simp [strokePainter, idleState, sampleAt, hc1]
  · rw [h3, hT]
    simp [strokePainter, idleState, sampleAt, hc2]

/-! ### The flag hasPaintAtLeastOnce along a stroke -/

theorem paintBezierSegment_ok (qt : Qt) (d d1 : Private) (a b : KisPaintInformation)
    (t1 t2 : QPointF) (js : List Job) (h : paintBezierSegment qt d a b t1 t2 = .ok (d1, js)) :
    d1 = { d with hasPaintAtLeastOnce := d.hasPaintAtLeastOnce || !js.isEmpty } ∧
      ∀ j ∈ js, j.isDab = false := by
  unfold paintBezierSegment at h
  split_ifs at h with hn
  · simp only [Except.ok.injEq, Prod.mk.injEq] at h
    obtain ⟨rfl, rfl⟩ := h
    simp
  · unfold paintBezierCurve at h
    cases hp : d.painterInfos with
    | nil => simp [hp] at h
    | cons p ps =>
      simp only [hp, Except.ok.injEq, Prod.mk.injEq] at h
      obtain ⟨rfl, rfl⟩ := h
      simp [Job.isDab]

theorem paintSmoothed_ok (qt : Qt) (d d1 : Private) (info : KisPaintInformation) (js : List Job)
    (h : paintSmoothed qt d info = .ok (d1, js)) :
    d1.painterInfos = d.painterInfos ∧ d1.smoothingOptions = d.smoothingOptions ∧
      d1.hasPaintAtLeastOnce = (d.hasPaintAtLeastOnce || !js.isEmpty) ∧
      (d.smoothingOptions.smoothingType = SmoothingType.NO_SMOOTHING → js ≠ []) := by
  unfold paintSmoothed at h
  split_ifs at h with hm hT
  · simp only [Except.ok.injEq, Prod.mk.injEq] at h
    obtain ⟨rfl, rfl⟩ := h
    refine ⟨rfl, rfl, by simp, ?_⟩
    intro hno
    rcases hm with hm | hm <;> simp [hno] at hm
  · cases hb : paintBezierSegment qt d d.olderPaintInformation d.previousPaintInformation
        d.previousTangent (guardedTangent info d.olderPaintInformation) with
    | error f => simp [hb] at h
    | ok r =>
      obtain ⟨e, js1⟩ := r
      simp only [hb, Except.ok.injEq, Prod.mk.injEq] at h
      obtain ⟨rfl, rfl⟩ := h
      obtain ⟨he, _⟩ := paintBezierSegment_ok qt d e _ _ _ _ js1 hb
      refine ⟨by rw [he], by rw [he], by rw [he], ?_⟩
      intro hno
      rcases hm with hm | hm <;> simp [hno] at hm
  · unfold paintLine at h
    cases hp : d.painterInfos with
    | nil => simp [hp] at h
    | cons p ps =>
      simp only [hp, Except.ok.injEq, Prod.mk.injEq] at h
      obtain ⟨rfl, rfl⟩ := h
      simp [hp]

theorem paint_ok (qt : Qt) (d d1 : Private) (info : KisPaintInformation) (js : List Job)
    (h : paint qt d info = .ok (d1, js)) :
    d1.painterInfos = d.painterInfos ∧ d1.smoothingOptions = d.smoothingOptions ∧
      d1.hasPaintAtLeastOnce = (d.hasPaintAtLeastOnce || !js.isEmpty) ∧
      (d.smoothingOptions.smoothingType = SmoothingType.NO_SMOOTHING → js ≠ []) := by
  unfold paint at h
  have hf := smoothSample_frame qt d info
  obtain ⟨h1, h2, h3, h4⟩ := paintSmoothed_ok qt _ d1 _ js h
  rw [hf] at h1 h2 h3 h4
  exact ⟨h1, h2, h3, h4⟩

theorem finishStroke_ok (qt : Qt) (d d1 : Private) (js : List Job)
    (h : finishStroke qt d = .ok (d1, js)) :
    d1.painterInfos = d.painterInfos ∧ d1.smoothingOptions = d.smoothingOptions ∧
      d1.hasPaintAtLeastOnce = (d.hasPaintAtLeastOnce || !js.isEmpty) ∧
      d1.previousPaintInformation = d.previousPaintInformation ∧
      ∀ j ∈ js, j.isDab = false := by
  unfold finishStroke at h
  split_ifs at h with hT
  · simp only at h
    split_ifs at h with hz
    obtain ⟨he, hj⟩ := paintBezierSegment_ok qt _ d1 _ _ _ _ js h
    exact ⟨by rw [he], by rw [he], by rw [he], by rw [he], hj⟩
  · simp only [Except.ok.injEq, Prod.mk.injEq] at h
    obtain ⟨rfl, rfl⟩ := h
    simp

theorem doAirbrushing_ok (d d1 : Private) (js : List Job)
    (h : doAirbrushing d = .ok (d1, js)) :
    d1.painterInfos = d.painterInfos ∧ d1.smoothingOptions = d.smoothingOptions ∧
      d1.hasPaintAtLeastOnce = (d.hasPaintAtLeastOnce || !js.isEmpty) ∧
      d1.previousPaintInformation = d.previousPaintInformation := by
  unfold doAirbrushing paintAt at h
  cases hp : d.painterInfos with
  | nil =>
    simp only [hp, List.isEmpty_nil, Bool.not_true, Bool.false_eq_true, if_false, Except.ok.injEq,
      Prod.mk.injEq] at h
    obtain ⟨rfl, rfl⟩ := h
    simp [hp]
  | cons p ps =>
    simp only [hp, List.isEmpty_cons, Bool.not_false, if_true, Except.ok.injEq,
      Prod.mk.injEq] at h
    obtain ⟨rfl, rfl⟩ := h
    simp [hp]

theorem step_ok (qt : Qt) (d d1 : Private) (e : StrokeEvent) (js : List Job)
    (h : step qt d e = .ok (d1, js)) :
    d1.painterInfos = d.painterInfos ∧ d1.smoothingOptions = d.smoothingOptions ∧
      d1.hasPaintAtLeastOnce = (d.hasPaintAtLeastOnce || !js.isEmpty) ∧
      ((∀ info, e ≠ StrokeEvent.paint info) →
        d1.previousPaintInformation = d.previousPaintInformation) ∧
      (d.smoothingOptions.smoothingType = SmoothingType.NO_SMOOTHING → js = [] →
        ∀ info, e ≠ StrokeEvent.paint info) := by
  cases e with
  | paint info =>
    obtain ⟨h1, h2, h3, h4⟩ := paint_ok qt d d1 info js h
    exact ⟨h1, h2, h3, fun hn => absurd rfl (hn info), fun hno hjs => absurd hjs (h4 hno)⟩
  | timeout =>
    obtain ⟨h1, h2, h3, h4, _⟩ := finishStroke_ok qt d d1 js h
    exact ⟨h1, h2, h3, fun _ => h4, fun _ _ info => by simp⟩
  | airbrush =>
    obtain ⟨h1, h2, h3, h4⟩ := doAirbrushing_ok d d1 js h
    exact ⟨h1, h2, h3, fun _ => h4, fun _ _ info => by simp⟩

theorem run_ok (qt : Qt) (evs : List StrokeEvent) :
    ∀ (d dN : Private) (jobs : List Job), run qt d evs = .ok (dN, jobs) →
      dN.painterInfos = d.painterInfos ∧ dN.smoothingOptions = d.smoothingOptions ∧
      dN.hasPaintAtLeastOnce = (d.hasPaintAtLeastOnce || !jobs.isEmpty) ∧
      ((∀ info, StrokeEvent.paint info ∉ evs) →
        dN.previousPaintInformation = d.previousPaintInformation) ∧
      (d.smoothingOptions.smoothingType = SmoothingType.NO_SMOOTHING → jobs = [] →
        ∀ info, StrokeEvent.paint info ∉ evs) := by
  induction evs with
  | nil =>
    intro d dN jobs h
    simp only [run, Except.ok.injEq, Prod.mk.injEq] at h
    obtain ⟨rfl, rfl⟩ := h
    simp
  | cons e es ih =>
    intro d dN jobs h
    simp only [run] at h
    cases hs : step qt d e with
    | error f => simp [hs] at h
    | ok r =>
      obtain ⟨d1, js1⟩ := r
      cases hr : run qt d1 es with
      | error f => simp [hs, hr] at h
      | ok r2 =>
        obtain ⟨d2, js2⟩ := r2
        simp only [hs, hr, Except.ok.injEq, Prod.mk.injEq] at h
        obtain ⟨rfl, rfl⟩ := h
        obtain ⟨a1, a2, a3, a4, a5⟩ := step_ok qt d d1 e js1 hs
        obtain ⟨b1, b2, b3, b4, b5⟩ := ih d1 d2 js2 hr
        refine ⟨by rw [b1, a1], by rw [b2, a2], ?_, ?_, ?_⟩
        · rw [b3, a3]
          cases d.hasPaintAtLeastOnce <;> cases js1 <;> cases js2 <;> simp
        · intro hn
          rw [b4 (fun info hi => hn info (List.mem_cons_of_mem _ hi)),
            a4 (fun info hi => hn info (hi ▸ List.mem_cons_self _ _))]
        · intro hno hjs info hmem
          have hj1 : js1 = [] := (List.append_eq_nil.1 hjs).1
          have hj2 : js2 = [] := (List.append_eq_nil.1 hjs).2
          rcases List.mem_cons.1 hmem with hi | hi
          · exact a5 hno hj1 info hi.symm
          · exact b5 (by rw [a2]; exact hno) hj2 info hi

/-- Claim C6 as amended.  Along any stroke (paint events, timeouts and airbrush ticks after
initPaint) that ran without a fault: when no job was emitted, `endPaint` emits exactly one dab,
for the first painter and at the helper's previous sample; that sample is the starting sample
when `paint` was not called, which is always so in mode none.  When a job was emitted, `endPaint`
emits no dab: it ends in the fault of dividing by a zero time difference or returns jobs none of
which is a dab. -/
theorem endPaint_dab (qt : Qt) (d : Private) (s0 : KisPaintInformation) (air : Bool)
    (evs : List StrokeEvent) (dN : Private) (jobs : List Job)
    (hrun : run qt (initPaint d s0 air) evs = .ok (dN, jobs)) :
    (jobs = [] → ∃ dE, endPaint qt dN =
      .ok (dE, [Job.dab (strokePainter d s0) dN.previousPaintInformation])) ∧
    (jobs = [] → (∀ info, StrokeEvent.paint info ∉ evs) → dN.previousPaintInformation = s0) ∧
    (jobs = [] → d.smoothingOptions.smoothingType = SmoothingType.NO_SMOOTHING →
      dN.previousPaintInformation = s0) ∧
    (jobs ≠ [] → endPaint qt dN = .error Fault.divisionByZero ∨
      ∃ dE js, endPaint qt dN = .ok (dE, js) ∧ ∀ j ∈ js, j.isDab = false) := by
  obtain ⟨rest, hrest⟩ := initPaint_painterInfos d s0 air
  obtain ⟨h1, h2, h3, h4, h5⟩ := run_ok qt evs _ dN jobs hrun
  have hprev : (initPaint d s0 air).previousPaintInformation = s0 := by simp [initPaint]
  have hflag0 : (initPaint d s0 air).hasPaintAtLeastOnce = false := by simp [initPaint]
  have hopt : (initPaint d s0 air).smoothingOptions = d.smoothingOptions := by simp [initPaint]
  rw [hrest] at h1
  rw [hprev] at h4
  rw [hflag0] at h3
  refine ⟨?_, fun _ hn => h4 hn, ?_, ?_⟩
  · intro hj
    have hf : dN.hasPaintAtLeastOnce = false := by rw [h3, hj]; rfl
    exact ⟨{ dN with
        hasPaintAtLeastOnce := true
        strokeTimeoutTimer := false
        airbrushingTimer := false
        painterInfos := [] }, by simp [endPaint, hf, paintAt, h1]⟩
  · intro hj hno
    exact h4 (h5 (by rw [hopt]; exact hno) hj)
  · intro hj
    have hf : dN.hasPaintAtLeastOnce = true := by
      rw [h3]
      cases jobs with
      | nil => exact absurd rfl hj
      | cons j js => rfl
    by_cases hm : dN.smoothingOptions.smoothingType = SmoothingType.NO_SMOOTHING
    · exact Or.inr ⟨{ dN with
          strokeTimeoutTimer := false
          airbrushingTimer := false
          painterInfos := [] }, [], by simp [endPaint, hf, hm], by simp⟩
    · cases hfs : finishStroke qt dN with
      | error f =>
        left
        have hfd : f = Fault.divisionByZero := by
          unfold finishStroke at hfs
          split_ifs at hfs with hT
          simp only at hfs
          split_ifs at hfs with hz
          · simpa using hfs.symm
          · unfold paintBezierSegment at hfs
            split_ifs at hfs
            simp [paintBezierCurve, h1] at hfs
        simp [endPaint, hf, hm, hfs, hfd]
      | ok r =>
        obtain ⟨dF, js⟩ := r
        obtain ⟨_, _, _, _, hnd⟩ := finishStroke_ok qt dN dF js hfs
        exact Or.inr ⟨{ dF with
            strokeTimeoutTimer := false
            airbrushingTimer := false
            painterInfos := [] }, js, by simp [endPaint, hf, hm, hfs], hnd⟩

theorem run_two_samples (t : SmoothingType) (ht : t ≠ SmoothingType.NO_SMOOTHING) :
    run Qt.exact (initPaint (idleState (optionsOf t)) (sampleAt 0 0 0) false)
      [StrokeEvent.paint (sampleAt 10 0 10)] = .ok (twoSampleState t, []) := by
  have hs : ∀ d i, d.smoothingOptions = optionsOf t → smoothSample Qt.exact d i = (d, i) := by
    intro d i hd
    simp [smoothSample, hd, optionsOf]
  have hg : guardedTangent (sampleAt 10 0 10) (sampleAt 0 0 0) = ⟨1, 0⟩ := by
    norm_num [guardedTangent, sampleAt, QPointF.sub, QPointF.divq]
  have hm : t = SmoothingType.SIMPLE_SMOOTHING ∨ t = SmoothingType.WEIGHTED_SMOOTHING := by
    cases t <;> simp at ht ⊢
  simp only [run, step, paint]
  rw [hs _ _ rfl]
  simp only [sampleAt] at hg
  simp [paintSmoothed, initPaint, idleState, optionsOf, hm, hg, twoSampleState, createPainters,
    sampleAt, QPointF.zero]

/-- Counterexample to C6 as stated: in simple mode the stroke initPaint at (0,0), paint at (10,0)
emits no job, and `endPaint` then emits its single dab at the sample (10,0) of the paint call,
not at the starting sample (0,0). -/
theorem endPaint_dab_not_at_start :
    run Qt.exact
        (initPaint (idleState (optionsOf SmoothingType.SIMPLE_SMOOTHING)) (sampleAt 0 0 0) false)
        [StrokeEvent.paint (sampleAt 10 0 10)] =
      .ok (twoSampleState SmoothingType.SIMPLE_SMOOTHING, []) ∧
    endPaint Qt.exact (twoSampleState SmoothingType.SIMPLE_SMOOTHING) =
      .ok ({ twoSampleState SmoothingType.SIMPLE_SMOOTHING with
              hasPaintAtLeastOnce := true
              strokeTimeoutTimer := false
              painterInfos := [] },
        [Job.dab ⟨⟨⟨0, 0⟩, 0⟩⟩ (sampleAt 10 0 10)]) ∧
    Job.dab ⟨⟨⟨0, 0⟩, 0⟩⟩ (sampleAt 10 0 10) ≠ Job.dab ⟨⟨⟨0, 0⟩, 0⟩⟩ (sampleAt 0 0 0) := by
  refine ⟨run_two_samples _ (by simp), ?_, ?_⟩
  · simp [endPaint, paintAt, twoSampleState, idleState]
  · simp [sampleAt]

/-- Witness of C6 as amended: the stroke initPaint at (0,0), paint at (10,0) in weighted mode
emits no job, and `endPaint` emits one dab at the previous sample (10,0). -/
theorem endPaint_dab_witness :
    ∃ dE, endPaint Qt.exact (twoSampleState SmoothingType.WEIGHTED_SMOOTHING) =
      .ok (dE, [Job.dab ⟨⟨⟨0, 0⟩, 0⟩⟩ (sampleAt 10 0 10)]) := by
  have h := (endPaint_dab Qt.exact (idleState (optionsOf SmoothingType.WEIGHTED_SMOOTHING))
    (sampleAt 0 0 0) false [StrokeEvent.paint (sampleAt 10 0 10)] _ []
    (run_two_samples _ (by simp))).1 rfl
  simpa [strokePainter, idleState, twoSampleState, sampleAt] using h

/-- The quotient in `finishStroke` has no guard: with a tangent at hand and equal timestamps of
the previous and the older sample it divides by zero. -/
theorem finishStroke_same_timestamp (qt : Qt) (d : Private) (hT : d.haveTangent = true)
    (ht : d.previousPaintInformation.currentTime = d.olderPaintInformation.currentTime) :
    finishStroke qt d = .error Fault.divisionByZero := by
  simp [finishStroke, hT, ht]

/-- Claim C7 fails in `finishStroke`.  Simple mode, samples (0,0) at 0 ms, (10,0) at 10 ms and
(20,0) again at 10 ms: the second `paint` emits a curve and leaves haveTangent set with the older
and the previous sample both at 10 ms; `endPaint` then reaches `finishStroke`, whose divisor
previous.t - older.t is 0, while the guarded quotient of the claim would be (10,0). -/
theorem finishStroke_divides_by_zero :
    ∃ d2 jobs, run Qt.exact (twoSampleState SmoothingType.SIMPLE_SMOOTHING)
        [StrokeEvent.paint (sampleAt 20 0 10)] = .ok (d2, jobs) ∧
      jobs.length = 1 ∧
      d2.haveTangent = true ∧
      d2.previousPaintInformation.currentTime - d2.olderPaintInformation.currentTime = 0 ∧
      guardedTangent d2.previousPaintInformation d2.olderPaintInformation = ⟨10, 0⟩ ∧
      endPaint Qt.exact d2 = .error Fault.divisionByZero := by
  obtain ⟨d2, h1, h2, h3, h4, h5, h6, h7⟩ :=
    paint_haveTangent Qt.exact (twoSampleState SmoothingType.SIMPLE_SMOOTHING)
      (sampleAt 20 0 10) ⟨⟨⟨0, 0⟩, 0⟩⟩ [] (Or.inl rfl) rfl rfl
  have hs : smoothSample Qt.exact (twoSampleState SmoothingType.SIMPLE_SMOOTHING)
      (sampleAt 20 0 10) = (twoSampleState SmoothingType.SIMPLE_SMOOTHING, sampleAt 20 0 10) :=
    smoothSample_of_not_weighted _ _ _ (by simp [twoSampleState, idleState, optionsOf])
  rw [hs] at h1 h3 h4
  have hg : guardedTangent (sampleAt 20 0 10) (sampleAt 0 0 0) = ⟨2, 0⟩ := by
    norm_num [guardedTangent, sampleAt, QPointF.sub, QPointF.divq]
  have hn : ((twoSampleState SmoothingType.SIMPLE_SMOOTHING).previousTangent.isNull ||
      (guardedTangent (sampleAt 20 0 10)
        (twoSampleState SmoothingType.SIMPLE_SMOOTHING).olderPaintInformation).isNull) = false := by
    have : (twoSampleState SmoothingType.SIMPLE_SMOOTHING).olderPaintInformation =
        sampleAt 0 0 0 := rfl
    rw [this, hg]
    simp [twoSampleState, idleState, QPointF.isNull]
  simp only [hn, Bool.false_eq_true, if_false] at h1
  generalize hjobs : [Job.curve _ _ _ _ _] = jobs at h1
  have hlen : jobs.length = 1 := by rw [← hjobs]; rfl
  have hflag := (paint_ok _ _ _ _ _ h1).2.2.1
  have hold : d2.olderPaintInformation = sampleAt 10 0 10 := h2
  have hprev : d2.previousPaintInformation = sampleAt 20 0 10 := h3
  have hdt : d2.previousPaintInformation.currentTime = d2.olderPaintInformation.currentTime := by
    rw [hold, hprev]
    rfl
  have hmode : d2.smoothingOptions.smoothingType = SmoothingType.SIMPLE_SMOOTHING := by
    rw [h7]
    rfl
  refine ⟨d2, jobs, ?_, hlen, h5, by rw [hdt]; simp, ?_, ?_⟩
  · simp [run, step, h1]
  · rw [hold, hprev]
    norm_num [guardedTangent, sampleAt, QPointF.sub, QPointF.divq]
  · have hf : d2.hasPaintAtLeastOnce = true := by
      rw [hflag, ← hjobs]
      simp
    simp [endPaint, hf, hmode, finishStroke_same_timestamp Qt.exact d2 h5 hdt]

end KisToolFreehandHelper

/-! ### Update queue -/

namespace KisUpdaterContext

theorem fillFirst_length (w : KisBaseRectsWalker) (l : List (Option KisBaseRectsWalker)) :
    (fillFirst w l).length = l.length := by
  induction l with
  | nil => rfl
  | cons a rest ih =>
    cases a with
    | none => simp [fillFirst]
    | some v => simp [fillFirst, ih]

theorem fillFirst_countP (w : KisBaseRectsWalker) (l : List (Option KisBaseRectsWalker))
    (h : l.any Option.isNone = true) :
    (fillFirst w l).countP Option.isNone + 1 = l.countP Option.isNone := by
  induction l with
  | nil => simp at h
  | cons a rest ih =>
    cases a with
    | none => simp [fillFirst]
    | some v =>
      have h2 : rest.any Option.isNone = true := by simpa using h
      simpa [fillFirst] using ih h2

theorem claim_freeSlots (ctx : KisUpdaterContext) (w : KisBaseRectsWalker)
    (h : ctx.hasFreeSlot = true) : (ctx.claim w).freeSlots + 1 = ctx.freeSlots :=
  fillFirst_countP w ctx.slots h

theorem fill_cons (ctx : KisUpdaterContext) (w : KisBaseRectsWalker)
    (ws : List KisBaseRectsWalker) : ctx.fill (w :: ws) = (ctx.claim w).fill ws := rfl

theorem fill_slots_length (ws : List KisBaseRectsWalker) :
    ∀ ctx : KisUpdaterContext, (ctx.fill ws).slots.length = ctx.slots.length := by
  induction ws with
  | nil => intro ctx; rfl
  | cons w ws ih =>
    intro ctx
    rw [fill_cons, ih]
    exact fillFirst_length w ctx.slots

theorem fillFirst_afterBound (w : KisBaseRectsWalker) (pre : List KisBaseRectsWalker)
    (rest : List (Option KisBaseRectsWalker)) :
    fillFirst w (pre.map some ++ none :: rest) = (pre ++ [w]).map some ++ rest := by
  induction pre with
  | nil => simp [fillFirst]
  | cons a as ih => simp [fillFirst, ih]

/-- In a context whose occupied slots come first, filling binds the following slots in order. -/
theorem fill_afterBound (ws : List KisBaseRectsWalker) :
    ∀ (pre : List KisBaseRectsWalker) (k : Nat), ws.length ≤ k →
      fill ⟨pre.map some ++ List.replicate k none⟩ ws =
        ⟨(pre ++ ws).map some ++ List.replicate (k - ws.length) none⟩ := by
  induction ws with
  | nil => intro pre k _; simp [fill]
  | cons w ws ih =>
    intro pre k hk
    obtain ⟨k0, rfl⟩ : ∃ k0, k = k0 + 1 := ⟨k - 1, by simp at hk; omega⟩
    rw [fill_cons]
    have hc : claim ⟨pre.map some ++ List.replicate (k0 + 1) none⟩ w =
        ⟨(pre ++ [w]).map some ++ List.replicate k0 none⟩ := by
      simp only [claim, List.replicate_succ]
      rw [fillFirst_afterBound]
    rw [hc, ih (pre ++ [w]) k0 (by simp at hk; omega)]
    simp

theorem fill_empty (n : Nat) (ws : List KisBaseRectsWalker) (h : ws.length ≤ n) :
    (empty n).fill ws = ⟨ws.map some ++ List.replicate (n - ws.length) none⟩ := by
  have := fill_afterBound ws [] n h
  simpa [empty] using this

theorem empty_freeSlots (n : Nat) : (empty n).freeSlots = n := by
  simp [empty, freeSlots, List.countP_replicate]

end KisUpdaterContext

namespace KisSimpleUpdateQueue

theorem fillFirst_running (w s : KisBaseRectsWalker) (l : List (Option KisBaseRectsWalker))
    (h : l.any Option.isNone = true) :
    s ∈ (KisUpdaterContext.fillFirst w l).filterMap id ↔ s = w ∨ s ∈ l.filterMap id := by
  induction l with
  | nil => simp at h
  | cons a rest ih =>
    cases a with
    | none => simp [KisUpdaterContext.fillFirst]
    | some v =>
      have h2 : rest.any Option.isNone = true := by simpa using h
      have := ih h2
      simp only [KisUpdaterContext.fillFirst, List.filterMap_cons, id, List.mem_cons, this]
      tauto

theorem claim_running (ctx : KisUpdaterContext) (w s : KisBaseRectsWalker)
    (h : ctx.hasFreeSlot = true) :
    s ∈ (ctx.claim w).running ↔ s = w ∨ s ∈ ctx.running :=
  fillFirst_running w s ctx.slots h

theorem freeSlots_pos (ctx : KisUpdaterContext) (h : 0 < ctx.freeSlots) :
    ctx.hasFreeSlot = true := by
  unfold KisUpdaterContext.freeSlots at h
  obtain ⟨a, ha, hn⟩ := List.countP_pos_iff.1 h
  exact List.any_eq_true.2 ⟨a, ha, hn⟩

/-- The walkers a context runs after free slots were bound: the ones it ran before and the ones
bound. -/
theorem fill_running (ws : List KisBaseRectsWalker) :
    ∀ ctx : KisUpdaterContext, ws.length ≤ ctx.freeSlots →
      ∀ s, s ∈ (ctx.fill ws).running ↔ s ∈ ctx.running ∨ s ∈ ws := by
  induction ws with
  | nil => intro ctx _ s; simp [KisUpdaterContext.fill]
  | cons w ws ih =>
    intro ctx hlen s
    have hf : ctx.hasFreeSlot = true := freeSlots_pos ctx (by simp at hlen; omega)
    have hc := KisUpdaterContext.claim_freeSlots ctx w hf
    rw [KisUpdaterContext.fill_cons, ih (ctx.claim w) (by simp at hlen; omega) s,
      claim_running ctx w s hf]
    simp only [List.mem_cons]
    tauto

theorem scan_append (ov : KisBaseRectsWalker → KisBaseRectsWalker → Bool)
    (pre post : List KisBaseRectsWalker) :
    ∀ (ctx : KisUpdaterContext) (sel : List KisBaseRectsWalker),
      scan ov ctx sel (pre ++ post) =
        ⟨(scan ov (scan ov ctx sel pre).context (scan ov ctx sel pre).selected post).context,
          (scan ov (scan ov ctx sel pre).context (scan ov ctx sel pre).selected post).selected,
          (scan ov ctx sel pre).pending ++
            (scan ov (scan ov ctx sel pre).context (scan ov ctx sel pre).selected post).pending⟩ := by
  induction pre with
  | nil =>
    intro ctx sel
    simp [scan]
  | cons w ws ih =>
    intro ctx sel
    by_cases hf : ctx.hasFreeSlot = true
    · by_cases ho : ctx.running.any (fun s => ov s w) = true
      · rw [List.cons_append]
        simp only [scan, hf, ho, Bool.not_true, Bool.false_eq_true, if_false, if_true]
        rw [ih ctx sel]
        rfl
      · rw [List.cons_append]
        simp only [scan, hf, ho, Bool.not_true, Bool.false_eq_true, if_false]
        rw [ih]
    · have hfull : ∀ l, scan ov ctx sel l = ⟨ctx, sel, l⟩ := by
        intro l
        cases l with
        | nil => rfl
        | cons a l => simp [scan, hf]
      simp [hfull]

/-- What a scan selects and leaves, relative to the walkers selected before it and to the
walkers the context runs. -/
theorem scan_spec (ov : KisBaseRectsWalker → KisBaseRectsWalker → Bool)
    (l : List KisBaseRectsWalker) :
    ∀ (ctx : KisUpdaterContext) (sel : List KisBaseRectsWalker),
      ∃ new, (scan ov ctx sel l).selected = sel ++ new ∧
        (scan ov ctx sel l).context = ctx.fill new ∧
        new.Sublist l ∧ (scan ov ctx sel l).pending.Sublist l ∧
        l.Perm (new ++ (scan ov ctx sel l).pending) ∧
        new.length ≤ ctx.freeSlots ∧
        new.Pairwise (fun a b => ov a b = false) ∧
        (∀ s ∈ ctx.running, ∀ w ∈ new, ov s w = false) := by
  induction l with
  | nil =>
    intro ctx sel
    exact ⟨[], by simp [scan], rfl, List.Sublist.refl _, by simp [scan], by simp [scan], by simp,
      List.Pairwise.nil, by simp⟩
  | cons w ws ih =>
    intro ctx sel
    by_cases hf : ctx.hasFreeSlot = true
    · by_cases ho : ctx.running.any (fun s => ov s w) = true
      · obtain ⟨new, h1, h2, h3, h4, h5, h6, h7, h8⟩ := ih ctx sel
        refine ⟨new, ?_, ?_, ?_, ?_, ?_, h6, h7, h8⟩
        · simpa [scan, hf, ho] using h1
        · simpa [scan, hf, ho] using h2
        · exact List.Sublist.cons _ h3
        · simpa [scan, hf, ho] using List.Sublist.cons₂ w h4
        · simp only [scan, hf, ho, Bool.not_true, Bool.false_eq_true, if_false, if_true]
          exact (List.Perm.cons w h5).trans List.perm_middle.symm
      · obtain ⟨new, h1, h2, h3, h4, h5, h6, h7, h8⟩ := ih (ctx.claim w) (sel ++ [w])
        have hs : scan ov ctx sel (w :: ws) = scan ov (ctx.claim w) (sel ++ [w]) ws := by
          simp [scan, hf, ho]
        have hw : ∀ s ∈ ctx.running, ov s w = false := by
          intro s hs2
          have := ho
          simp only [List.any_eq_true, not_exists, not_and, Bool.not_eq_true] at this
          exact this s hs2
        rw [hs]
        refine ⟨w :: new, by simp [h1], by rw [h2]; rfl, List.Sublist.cons₂ w h3,
          List.Sublist.cons _ h4, by simpa using List.Perm.cons w h5, ?_, ?_, ?_⟩
        · have := KisUpdaterContext.claim_freeSlots ctx w hf
          simp only [List.length_cons]
          omega
        · rw [List.pairwise_cons]
          exact ⟨fun v hv => h8 w ((claim_running ctx w w hf).2 (Or.inl rfl)) v hv, h7⟩
        · intro s hs2 v hv
          rcases List.mem_cons.1 hv with h | h
          · rw [h]
            exact hw s hs2
          · exact h8 s ((claim_running ctx w s hf).2 (Or.inr hs2)) v h
    · have hs : scan ov ctx sel (w :: ws) = ⟨ctx, sel, w :: ws⟩ := by simp [scan, hf]
      rw [hs]
      exact ⟨[], by simp, rfl, List.nil_sublist _, List.Sublist.refl _, by simp, by simp,
        List.Pairwise.nil, by simp⟩

/-- The greedy rule at one walker: after the scan of the walkers before it, it is selected when
the context has a free slot and no walker the context runs overlaps it, and else stays
pending. -/
theorem scan_rule (ov : KisBaseRectsWalker → KisBaseRectsWalker → Bool) (ctx : KisUpdaterContext)
    (pre post : List KisBaseRectsWalker) (w : KisBaseRectsWalker) :
    ((scan ov ctx [] pre).context.hasFreeSlot = true ∧
        (∀ s ∈ (scan ov ctx [] pre).context.running, ov s w = false) →
      ∃ more rest, (scan ov ctx [] (pre ++ w :: post)).selected =
          (scan ov ctx [] pre).selected ++ w :: more ∧
        (scan ov ctx [] (pre ++ w :: post)).pending = (scan ov ctx [] pre).pending ++ rest ∧
        more.Sublist post ∧ rest.Sublist post) ∧
    (¬ ((scan ov ctx [] pre).context.hasFreeSlot = true ∧
        (∀ s ∈ (scan ov ctx [] pre).context.running, ov s w = false)) →
      ∃ more rest, (scan ov ctx [] (pre ++ w :: post)).selected =
          (scan ov ctx [] pre).selected ++ more ∧
        (scan ov ctx [] (pre ++ w :: post)).pending =
          (scan ov ctx [] pre).pending ++ w :: rest ∧
        more.Sublist post ∧ rest.Sublist post) := by
  rw [scan_append]
  generalize scan ov ctx [] pre = r1
  constructor
  · rintro ⟨hf, ho⟩
    have hany : r1.context.running.any (fun s => ov s w) = false := by
      rw [List.any_eq_false]
      intro s hs
      simp [ho s hs]
    obtain ⟨new, h1, _, h3, h4, _⟩ := scan_spec ov post (r1.context.claim w) (r1.selected ++ [w])
    refine ⟨new, _, ?_, rfl, h3, ?_⟩
    · simp [scan, hf, hany, h1]
    · simpa [scan, hf, hany] using h4
  · intro hc
    by_cases hf : r1.context.hasFreeSlot = true
    · have hany : r1.context.running.any (fun s => ov s w) = true := by
        by_contra hn
        apply hc
        refine ⟨hf, fun s hs => ?_⟩
        simp only [List.any_eq_true, not_exists, not_and, Bool.not_eq_true] at hn
        exact hn s hs
      obtain ⟨new, h1, _, h3, h4, _⟩ := scan_spec ov post r1.context r1.selected
      exact ⟨new, _, by simp [scan, hf, hany, h1], by simp [scan, hf, hany], h3, h4⟩
    · exact ⟨[], post, by simp [scan, hf], by simp [scan, hf], List.nil_sublist _,
        List.Sublist.refl _⟩

/-- The walkers the context runs after the scan of a part of the queue: the ones it ran before
and the ones the scan selected. -/
theorem scan_running (ov : KisBaseRectsWalker → KisBaseRectsWalker → Bool)
    (ctx : KisUpdaterContext) (pre : List KisBaseRectsWalker) (s : KisBaseRectsWalker) :
    s ∈ (scan ov ctx [] pre).context.running ↔
      s ∈ ctx.running ∨ s ∈ (scan ov ctx [] pre).selected := by
  obtain ⟨new, h1, h2, _, _, _, h6, _⟩ := scan_spec ov pre ctx []
  rw [h2, h1, List.nil_append]
  exact fill_running new ctx h6 s

/-- Claim C8. `processQueue` on an unblocked queue scans the pending walkers from the head: a
walker is dispatched exactly when, after the scan of the walkers before it, the context still has
a free slot and `checksOverlap` is false against every walker already dispatched to the context,
that is every walker bound to a slot: the ones the context ran before the call and the ones
dispatched earlier in the scan; the dispatched walkers fill the free slots in queue order (the
first slots, for a context that was empty), are pairwise non-overlapping and overlap no walker
the context ran before, and the walkers not dispatched stay pending in their original relative
order. -/
theorem processQueue_greedy (ov : KisBaseRectsWalker → KisBaseRectsWalker → Bool)
    (q : KisSimpleUpdateQueue) (ctx : KisUpdaterContext) (hb : q.blocked = false) :
    ∃ dispatched pending,
      processQueue ov q ctx = ({ q with walkers := pending }, ctx.fill dispatched) ∧
      dispatched = (scan ov ctx [] q.walkers).selected ∧
      pending = (scan ov ctx [] q.walkers).pending ∧
      (∀ pre w post, q.walkers = pre ++ w :: post →
        (∀ s, s ∈ (scan ov ctx [] pre).context.running ↔
          s ∈ ctx.running ∨ s ∈ (scan ov ctx [] pre).selected) ∧
        ((scan ov ctx [] pre).context.hasFreeSlot = true ∧
            (∀ s ∈ (scan ov ctx [] pre).context.running, ov s w = false) →
          ∃ more rest, dispatched = (scan ov ctx [] pre).selected ++ w :: more ∧
            pending = (scan ov ctx [] pre).pending ++ rest ∧
            more.Sublist post ∧ rest.Sublist post) ∧
        (¬ ((scan ov ctx [] pre).context.hasFreeSlot = true ∧
            (∀ s ∈ (scan ov ctx [] pre).context.running, ov s w = false)) →
          ∃ more rest, dispatched = (scan ov ctx [] pre).selected ++ more ∧
            pending = (scan ov ctx [] pre).pending ++ w :: rest ∧
            more.Sublist post ∧ rest.Sublist post)) ∧
      dispatched.length ≤ ctx.freeSlots ∧
      (ctx.fill dispatched).slots.length = ctx.slots.length ∧
      (∀ s, s ∈ (ctx.fill dispatched).running ↔ s ∈ ctx.running ∨ s ∈ dispatched) ∧
      (∀ n, ctx = KisUpdaterContext.empty n →
        (ctx.fill dispatched).slots =
          dispatched.map some ++ List.replicate (n - dispatched.length) none) ∧
      dispatched.Pairwise (fun a b => ov a b = false) ∧
      (∀ s ∈ ctx.running, ∀ w ∈ dispatched, ov s w = false) ∧
      dispatched.Sublist q.walkers ∧ pending.Sublist q.walkers ∧
      q.walkers.Perm (dispatched ++ pending) := by
  obtain ⟨new, h1, h2, h3, h4, h5, h6, h7, h8⟩ := scan_spec ov q.walkers ctx []
  simp only [List.nil_append] at h1
  refine ⟨_, _, ?_, rfl, rfl, ?_, ?_, KisUpdaterContext.fill_slots_length _ ctx, ?_, ?_, ?_, ?_,
    ?_, h4, ?_⟩
  · simp [processQueue, hb, h2, h1]
  · intro pre w post hq
    rw [hq]
    exact ⟨scan_running ov ctx pre, scan_rule ov ctx pre post w⟩
  · rw [h1]; exact h6
  · rw [h1]; exact fill_running new ctx h6
  · intro n hn
    rw [h1, hn, KisUpdaterContext.fill_empty n new]
    rw [hn, KisUpdaterContext.empty_freeSlots] at h6
    exact h6
  · rw [h1]; exact h7
  · rw [h1]; exact h8
  · rw [h1]; exact h3
  · rw [h1]; exact h5

/-- Witness of C8 (scenario 1, `testJobProcessing`): the four walkers of the test and a context
with 2 slots give the slots [walker1, walker3] and the pending queue [walker2, walker4]. -/
theorem processQueue_greedy_witness :
    processQueue requestedRectsOverlap ⟨[walker1, walker2, walker3, walker4], false⟩
        (KisUpdaterContext.empty 2) =
      (⟨[walker2, walker4], false⟩, ⟨[some walker1, some walker3]⟩) := by
  obtain ⟨dispatched, pending, h, hd, hp, _⟩ :=
    processQueue_greedy requestedRectsOverlap ⟨[walker1, walker2, walker3, walker4], false⟩
      (KisUpdaterContext.empty 2) rfl
  have e1 : dispatched = [walker1, walker3] := by rw [hd]; decide
  have e2 : pending = [walker2, walker4] := by rw [hp]; decide
  rw [h, e1, e2]
  decide

/-- A context of three slots that runs walker2: `processQueue` skips walker1 and walker3, which
walker2 overlaps, binds the next free slot to walker4, and leaves walker1 and walker3
pending. -/
theorem processQueue_running_context :
    processQueue requestedRectsOverlap ⟨[walker1, walker3, walker4], false⟩
        ⟨[some walker2, none, none]⟩ =
      (⟨[walker1, walker3], false⟩, ⟨[some walker2, some walker4, none]⟩) := by
  decide

theorem performAll_addJob (ov : KisBaseRectsWalker → KisBaseRectsWalker → Bool)
    (ws : List KisBaseRectsWalker) :
    ∀ s : KisSimpleUpdateQueue × KisUpdaterContext,
      performAll ov s (ws.map Call.addJob) =
        ({ s.1 with walkers := s.1.walkers ++ ws }, s.2) := by
  induction ws with
  | nil => intro s; simp [performAll]
  | cons w ws ih =>
    intro s
    have := ih (perform ov s (Call.addJob w))
    simp only [performAll, List.map_cons, List.foldl_cons] at this ⊢
    rw [this]
    simp [perform, addJob]

/-- Claim C9. After `blockProcessing`, a sequence of `addJob` calls appends its walkers to the
pending queue in order, leaves the queue blocked and the context as it was (a `processQueue` in
that state changes nothing either), and the following `startProcessing` does what `processQueue`
does on the unblocked queue holding the old pending walkers followed by the added ones. -/
theorem blocked_addJob (ov : KisBaseRectsWalker → KisBaseRectsWalker → Bool)
    (q : KisSimpleUpdateQueue) (ctx : KisUpdaterContext) (ws : List KisBaseRectsWalker) :
    performAll ov (q, ctx) (Call.blockProcessing :: ws.map Call.addJob) =
      (⟨q.walkers ++ ws, true⟩, ctx) ∧
    perform ov (⟨q.walkers ++ ws, true⟩, ctx) Call.processQueue =
      (⟨q.walkers ++ ws, true⟩, ctx) ∧
    perform ov (⟨q.walkers ++ ws, true⟩, ctx) Call.startProcessing =
      processQueue ov ⟨q.walkers ++ ws, false⟩ ctx ∧
    performAll ov (q, ctx)
        (Call.blockProcessing :: ws.map Call.addJob ++ [Call.startProcessing]) =
      processQueue ov ⟨q.walkers ++ ws, false⟩ ctx := by
  have h1 : performAll ov (q, ctx) (Call.blockProcessing :: ws.map Call.addJob) =
      (⟨q.walkers ++ ws, true⟩, ctx) := by
    have := performAll_addJob ov ws (perform ov (q, ctx) Call.blockProcessing)
    simp only [performAll, List.foldl_cons] at this ⊢
    rw [this]
    simp [perform, blockProcessing]
  refine ⟨h1, by simp [perform, processQueue], by simp [perform, startProcessing], ?_⟩
  have h2 : performAll ov (q, ctx)
      (Call.blockProcessing :: ws.map Call.addJob ++ [Call.startProcessing]) =
      perform ov (performAll ov (q, ctx) (Call.blockProcessing :: ws.map Call.addJob))
        Call.startProcessing := by
    simp [performAll, List.foldl_append]
  rw [h2, h1]
  simp [perform, startProcessing]

/-- Scenario 2 (`testJobProcessing`, blocking part): with [walker2, walker4] pending and a
cleared context of 2 slots, blocking and adding the four walkers leaves both slots empty;
`startProcessing` then binds the slots to walker2 and walker4. -/
theorem blocked_addJob_witness :
    performAll requestedRectsOverlap (⟨[walker2, walker4], false⟩, KisUpdaterContext.empty 2)
        (Call.blockProcessing ::
          [walker1, walker2, walker3, walker4].map Call.addJob) =
      (⟨[walker2, walker4, walker1, walker2, walker3, walker4], true⟩,
        ⟨[none, none]⟩) ∧
    (performAll requestedRectsOverlap (⟨[walker2, walker4], false⟩, KisUpdaterContext.empty 2)
        (Call.blockProcessing ::
          [walker1, walker2, walker3, walker4].map Call.addJob ++ [Call.startProcessing])).2 =
      ⟨[some walker2, some walker4]⟩ := by
  obtain ⟨h1, _, _, h4⟩ := blocked_addJob requestedRectsOverlap ⟨[walker2, walker4], false⟩
    (KisUpdaterContext.empty 2) [walker1, walker2, walker3, walker4]
  refine ⟨by rw [h1]; rfl, ?_⟩
  rw [h4]
  decide

end KisSimpleUpdateQueue

namespace QRect

theorem united_contains_left (a b : QRect) (px py : Int) (h : a.containsPoint px py) :
    (a.united b).containsPoint px py := by
  unfold containsPoint at h
  have ha : a.isEmpty = false := by
    simp only [isEmpty, Bool.or_eq_false_iff, decide_eq_false_iff_not, not_le]
    constructor <;> omega
  unfold united
  rw [ha]
  simp only [Bool.false_eq_true, if_false]
  split_ifs with hb
  · exact h
  · simp only [containsPoint]
    omega

theorem united_contains_right (a b : QRect) (px py : Int) (h : b.containsPoint px py) :
    (a.united b).containsPoint px py := by
  unfold containsPoint at h
  have hb : b.isEmpty = false := by
    simp only [isEmpty, Bool.or_eq_false_iff, decide_eq_false_iff_not, not_le]
    constructor <;> omega
  unfold united
  rw [hb]
  simp only [Bool.false_eq_true, if_false]
  split_ifs with ha
  · exact h
  · simp only [containsPoint]
    omega

theorem united_least (a b r : QRect)
    (ha : ∀ px py, a.containsPoint px py → r.containsPoint px py)
    (hb : ∀ px py, b.containsPoint px py → r.containsPoint px py) (px py : Int)
    (h : (a.united b).containsPoint px py) : r.containsPoint px py := by
  unfold united at h
  split_ifs at h with h1 h2
  · exact hb px py h
  · exact ha px py h
  · simp only [isEmpty, Bool.or_eq_true, decide_eq_true_eq, not_or, not_le] at h1 h2
    have a1 := ha a.x a.y (by unfold containsPoint; omega)
    have a2 := ha (a.x + a.width - 1) (a.y + a.height - 1) (by unfold containsPoint; omega)
    have b1 := hb b.x b.y (by unfold containsPoint; omega)
    have b2 := hb (b.x + b.width - 1) (b.y + b.height - 1) (by unfold containsPoint; omega)
    unfold containsPoint at h a1 a2 b1 b2 ⊢
    simp only at h
    omega

end QRect

namespace KisSimpleUpdateQueue

theorem foldl_united_covers (ws : List KisBaseRectsWalker) :
    ∀ r0 : QRect,
      (∀ px py, r0.containsPoint px py →
        (ws.foldl (fun r v => r.united v.requestedRect) r0).containsPoint px py) ∧
      (∀ w ∈ ws, ∀ px py, w.requestedRect.containsPoint px py →
        (ws.foldl (fun r v => r.united v.requestedRect) r0).containsPoint px py) := by
  induction ws with
  | nil => intro r0; simp
  | cons v vs ih =>
    intro r0
    obtain ⟨h1, h2⟩ := ih (r0.united v.requestedRect)
    refine ⟨fun px py h => h1 px py (QRect.united_contains_left _ _ _ _ h), ?_⟩
    intro w hw px py h
    rcases List.mem_cons.1 hw with rfl | hw
    · exact h1 px py (QRect.united_contains_right _ _ _ _ h)
    · exact h2 w hw px py h

theorem foldl_united_least (ws : List KisBaseRectsWalker) (rect : QRect) :
    ∀ r0 : QRect, (∀ px py, r0.containsPoint px py → rect.containsPoint px py) →
      (∀ w ∈ ws, ∀ px py, w.requestedRect.containsPoint px py → rect.containsPoint px py) →
      ∀ px py, (ws.foldl (fun r v => r.united v.requestedRect) r0).containsPoint px py →
        rect.containsPoint px py := by
  induction ws with
  | nil => intro r0 h0 _ px py h; exact h0 px py h
  | cons v vs ih =>
    intro r0 h0 hall
    apply ih (r0.united v.requestedRect)
    · exact QRect.united_least _ _ _ h0 (hall v (List.mem_cons_self _ _))
    · exact fun w hw => hall w (List.mem_cons_of_mem _ hw)

/-- The rectangle of a group covers the requested rectangle of each member. -/
theorem groupRect_covers (g : List KisBaseRectsWalker) (w : KisBaseRectsWalker) (hw : w ∈ g)
    (px py : Int) (h : w.requestedRect.containsPoint px py) :
    (groupRect g).containsPoint px py := by
  cases g with
  | nil => simp at hw
  | cons v vs =>
    obtain ⟨h1, h2⟩ := foldl_united_covers vs v.requestedRect
    rcases List.mem_cons.1 hw with rfl | hw
    · exact h1 px py h
    · exact h2 w hw px py h

/-- The rectangle of a group lies within every rectangle that covers all members. -/
theorem groupRect_least (g : List KisBaseRectsWalker) (rect : QRect)
    (hall : ∀ w ∈ g, ∀ px py, w.requestedRect.containsPoint px py → rect.containsPoint px py)
    (px py : Int) (h : (groupRect g).containsPoint px py) : rect.containsPoint px py := by
  cases g with
  | nil =>
    simp only [groupRect, QRect.containsPoint] at h
    omega
  | cons v vs =>
    exact foldl_united_least vs rect v.requestedRect (hall v (List.mem_cons_self _ _))
      (fun w hw => hall w (List.mem_cons_of_mem _ hw)) px py h

theorem touches_comm (a b : QRect) : touches a b = touches b a := by
  rw [Bool.eq_iff_iff]
  simp only [touches, QRect.intersects, QRect.adjacent, QRect.isEmpty, Bool.or_eq_true,
    Bool.and_eq_true, Bool.not_eq_true', Bool.or_eq_false_iff, decide_eq_true_eq,
    decide_eq_false_iff_not]
  constructor <;> intro h <;> omega

/-- Rectangles that cover two rectangles which overlap or are adjacent overlap or are adjacent
themselves. -/
theorem touches_mono (a b c d : QRect)
    (hac : ∀ px py, a.containsPoint px py → c.containsPoint px py)
    (hbd : ∀ px py, b.containsPoint px py → d.containsPoint px py)
    (h : touches a b = true) : touches c d = true := by
  simp only [touches, QRect.intersects, QRect.adjacent, QRect.isEmpty, Bool.or_eq_true,
    Bool.and_eq_true, Bool.not_eq_true', Bool.or_eq_false_iff, decide_eq_true_eq,
    decide_eq_false_iff_not] at h ⊢
  have ha : 0 < a.width ∧ 0 < a.height := by omega
  have hb : 0 < b.width ∧ 0 < b.height := by omega
  have a1 := hac a.x a.y (by unfold QRect.containsPoint; omega)
  have a2 := hac (a.x + a.width - 1) (a.y + a.height - 1) (by unfold QRect.containsPoint; omega)
  have b1 := hbd b.x b.y (by unfold QRect.containsPoint; omega)
  have b2 := hbd (b.x + b.width - 1) (b.y + b.height - 1) (by unfold QRect.containsPoint; omega)
  unfold QRect.containsPoint at a1 a2 b1 b2
  omega

theorem absorbFirst_none (g : List KisBaseRectsWalker) (hs : List (List KisBaseRectsWalker)) :
    absorbFirst g hs = none ↔ ∀ h ∈ hs, touches (groupRect g) (groupRect h) = false := by
  induction hs with
  | nil => simp [absorbFirst]
  | cons h hs ih =>
    by_cases ht : touches (groupRect g) (groupRect h) = true
    · simp [absorbFirst, ht]
    · have hf : touches (groupRect g) (groupRect h) = false := by simpa using ht
      cases hr : absorbFirst g hs with
      | none =>
        have := ih.1 hr
        simp only [absorbFirst, hf, Bool.false_eq_true, if_false, hr, List.mem_cons,
          forall_eq_or_imp, true_and, true_iff]
        exact this
      | some r =>
        have hne : ¬ ∀ h ∈ hs, touches (groupRect g) (groupRect h) = false := by
          intro hall
          have := ih.2 hall
          simp [hr] at this
        simp only [absorbFirst, hf, Bool.false_eq_true, if_false, hr, List.mem_cons,
          forall_eq_or_imp, true_and]
        constructor
        · intro h0
          simp at h0
        · intro hall
          exact absurd hall hne

theorem absorbFirst_some (g : List KisBaseRectsWalker) (hs : List (List KisBaseRectsWalker)) :
    ∀ m rest, absorbFirst g hs = some (m, rest) →
      ∃ mid h post, hs = mid ++ h :: post ∧ m = g ++ h ∧ rest = mid ++ post ∧
        touches (groupRect g) (groupRect h) = true := by
  induction hs with
  | nil => intro m rest h; simp [absorbFirst] at h
  | cons h hs ih =>
    intro m rest hr
    by_cases ht : touches (groupRect g) (groupRect h) = true
    · simp only [absorbFirst, ht, if_true, Option.some.injEq, Prod.mk.injEq] at hr
      exact ⟨[], h, hs, rfl, hr.1.symm, by simp [hr.2], ht⟩
    · have hf : touches (groupRect g) (groupRect h) = false := by simpa using ht
      cases hr2 : absorbFirst g hs with
      | none => simp [absorbFirst, hf, hr2] at hr
      | some r =>
        obtain ⟨m1, rest1⟩ := r
        simp only [absorbFirst, hf, Bool.false_eq_true, if_false, hr2, Option.some.injEq,
          Prod.mk.injEq] at hr
        obtain ⟨mid, h2, post, e1, e2, e3, e4⟩ := ih m1 rest1 hr2
        exact ⟨h :: mid, h2, post, by simp [e1], hr.1 ▸ e2, by rw [← hr.2, e3]; rfl, e4⟩

/-- No merge is left exactly when no group touches a later one. -/
theorem mergeStep_none (gs : List (List KisBaseRectsWalker)) :
    mergeStep gs = none ↔
      gs.Pairwise (fun g h => touches (groupRect g) (groupRect h) = false) := by
  induction gs with
  | nil => simp [mergeStep]
  | cons g gs ih =>
    rw [List.pairwise_cons]
    cases ha : absorbFirst g gs with
    | some r =>
      have hne : ¬ ∀ h ∈ gs, touches (groupRect g) (groupRect h) = false := by
        intro hall
        have := (absorbFirst_none g gs).2 hall
        simp [ha] at this
      simp only [mergeStep, ha]
      constructor
      · intro h0
        simp at h0
      · intro hall
        exact absurd hall.1 hne
    | none =>
      have hall := (absorbFirst_none g gs).1 ha
      cases hm : mergeStep gs with
      | none =>
        simp only [mergeStep, ha, hm, true_iff]
        exact ⟨hall, ih.1 hm⟩
      | some gs1 =>
        have hne : ¬ gs.Pairwise (fun g h => touches (groupRect g) (groupRect h) = false) := by
          intro hp
          have := ih.2 hp
          simp [hm] at this
        simp only [mergeStep, ha, hm]
        constructor
        · intro h0
          simp at h0
        · intro hp
          exact absurd hp.2 hne

/-- One merge puts a later group behind the members of an earlier group that touches it. -/
theorem mergeStep_some (gs : List (List KisBaseRectsWalker)) :
    ∀ gs1, mergeStep gs = some gs1 →
      ∃ pre g mid h post, gs = pre ++ g :: (mid ++ h :: post) ∧
        gs1 = pre ++ (g ++ h) :: (mid ++ post) ∧
        touches (groupRect g) (groupRect h) = true := by
  induction gs with
  | nil => intro gs1 h; simp [mergeStep] at h
  | cons g gs ih =>
    intro gs1 hr
    cases ha : absorbFirst g gs with
    | some r =>
      obtain ⟨m, rest⟩ := r
      simp only [mergeStep, ha, Option.some.injEq] at hr
      obtain ⟨mid, h, post, e1, e2, e3, e4⟩ := absorbFirst_some g gs m rest ha
      exact ⟨[], g, mid, h, post, by simp [e1], by simp [← hr, e2, e3], e4⟩
    | none =>
      cases hm : mergeStep gs with
      | none => simp [mergeStep, ha, hm] at hr
      | some gs2 =>
        simp only [mergeStep, ha, hm, Option.some.injEq] at hr
        obtain ⟨pre, g0, mid, h, post, e1, e2, e3⟩ := ih gs2 hm
        exact ⟨g :: pre, g0, mid, h, post, by simp [e1], by simp [← hr, e2], e3⟩

theorem Coalesced.ne_nil (g : List KisBaseRectsWalker) (h : Coalesced g) : g ≠ [] := by
  induction h with
  | single w => simp
  | merge g h _ _ _ ih1 _ =>
    intro he
    exact ih1 (List.append_eq_nil.1 he).1

theorem heads_append (xs ys : List (List KisBaseRectsWalker)) :
    heads (xs ++ ys) = heads xs ++ heads ys := by
  simp [heads, List.filterMap_append]

theorem heads_cons (w : KisBaseRectsWalker) (g : List KisBaseRectsWalker)
    (gs : List (List KisBaseRectsWalker)) : heads ((w :: g) :: gs) = w :: heads gs := by
  simp [heads, List.filterMap_cons]

/-- What one merge keeps: the groups stay groups, their members and number aside from the
merged pair, and the first members of the groups stay in order. -/
theorem mergeStep_keeps (gs gs1 : List (List KisBaseRectsWalker))
    (hstep : mergeStep gs = some gs1) (hco : ∀ g ∈ gs, Coalesced g) :
    (∀ g ∈ gs1, Coalesced g) ∧ gs1.flatten.Perm gs.flatten ∧
      (heads gs1).Sublist (heads gs) ∧ gs1.length + 1 = gs.length := by
  obtain ⟨pre, g, mid, h, post, e1, e2, ht⟩ := mergeStep_some gs gs1 hstep
  subst e1 e2
  have hg : Coalesced g := hco g (by simp)
  have hh : Coalesced h := hco h (by simp)
  refine ⟨?_, ?_, ?_, ?_⟩
  · intro x hx
    simp only [List.mem_append, List.mem_cons] at hx
    rcases hx with hx | hx | hx | hx
    · exact hco x (by simp [hx])
    · rw [hx]
      exact Coalesced.merge g h hg hh ht
    · exact hco x (by simp [hx])
    · exact hco x (by simp [hx])
  · simp only [List.flatten_append, List.flatten_cons, List.append_assoc]
    refine List.Perm.append_left _ (List.Perm.append_left _ ?_)
    rw [← List.append_assoc, ← List.append_assoc]
    exact List.Perm.append_right _ List.perm_append_comm
  · obtain ⟨a, as, rfl⟩ := List.exists_cons_of_ne_nil (Coalesced.ne_nil g hg)
    obtain ⟨b, bs, rfl⟩ := List.exists_cons_of_ne_nil (Coalesced.ne_nil h hh)
    simp only [heads_append, heads_cons, List.cons_append]
    exact List.Sublist.append (List.Sublist.refl _)
      (List.Sublist.cons₂ a (List.Sublist.append (List.Sublist.refl _)
        (List.Sublist.cons b (List.Sublist.refl _))))
  · simp only [List.length_append, List.length_cons]
    omega

theorem mergeAll_keeps (n : Nat) :
    ∀ gs : List (List KisBaseRectsWalker), (∀ g ∈ gs, Coalesced g) →
      (∀ g ∈ mergeAll n gs, Coalesced g) ∧ (mergeAll n gs).flatten.Perm gs.flatten ∧
        (heads (mergeAll n gs)).Sublist (heads gs) ∧ (mergeAll n gs).length ≤ gs.length ∧
        (gs.length ≤ n → mergeStep (mergeAll n gs) = none) := by
  induction n with
  | zero =>
    intro gs hco
    refine ⟨hco, List.Perm.refl _, List.Sublist.refl _, le_refl _, fun h => ?_⟩
    have : gs = [] := List.length_eq_zero.1 (Nat.le_zero.1 h)
    rw [this]
    rfl
  | succ n ih =>
    intro gs hco
    cases hm : mergeStep gs with
    | none =>
      have e : mergeAll (n + 1) gs = gs := by simp [mergeAll, hm]
      rw [e]
      exact ⟨hco, List.Perm.refl _, List.Sublist.refl _, le_refl _, fun _ => hm⟩
    | some gs1 =>
      have e : mergeAll (n + 1) gs = mergeAll n gs1 := by simp [mergeAll, hm]
      obtain ⟨k1, k2, k3, k4⟩ := mergeStep_keeps gs gs1 hm hco
      obtain ⟨i1, i2, i3, i4, i5⟩ := ih gs1 k1
      rw [e]
      exact ⟨i1, i2.trans k2, i3.trans k3, by omega, fun h => i5 (by omega)⟩

theorem flatten_singletons (ws : List KisBaseRectsWalker) :
    (ws.map (fun w => [w])).flatten = ws := by
  induction ws with
  | nil => rfl
  | cons w ws ih => simp [ih]

theorem heads_singletons (ws : List KisBaseRectsWalker) :
    heads (ws.map (fun w => [w])) = ws := by
  induction ws with
  | nil => rfl
  | cons w ws ih =>
    rw [List.map_cons, heads_cons, ih]

/-- The groups of `coalesce`: formed by merges of touching groups only, a partition of the
pending walkers, their first members in queue order, and no two of them touching. -/
theorem coalesce_spec (ws : List KisBaseRectsWalker) :
    (∀ g ∈ coalesce ws, Coalesced g) ∧ (coalesce ws).flatten.Perm ws ∧
      (heads (coalesce ws)).Sublist ws ∧ (coalesce ws).length ≤ ws.length ∧
      (coalesce ws).Pairwise (fun g h => touches (groupRect g) (groupRect h) = false) := by
  obtain ⟨h1, h2, h3, h4, h5⟩ := mergeAll_keeps ws.length (ws.map (fun w => [w]))
    (by
      intro g hg
      obtain ⟨w, _, rfl⟩ := List.mem_map.1 hg
      exact Coalesced.single w)
  rw [flatten_singletons] at h2
  rw [heads_singletons] at h3
  rw [List.length_map] at h4 h5
  exact ⟨h1, h2, h3, h4, (mergeStep_none _).1 (h5 (le_refl _))⟩

theorem singles_sublist_heads (gs : List (List KisBaseRectsWalker)) :
    (gs.filter (fun g => decide (g.length = 1))).flatten.Sublist (heads gs) := by
  induction gs with
  | nil => simp [heads]
  | cons g gs ih =>
    cases g with
    | nil => simpa [heads] using ih
    | cons w t =>
      cases t with
      | nil =>
        rw [heads_cons]
        simpa using ih
      | cons v t2 =>
        rw [heads_cons]
        simpa using List.Sublist.cons w ih

/-- Pending walkers whose rectangles overlap or are adjacent end in the same group. -/
theorem coalesce_joins (ws : List KisBaseRectsWalker) (a b : KisBaseRectsWalker)
    (ha : a ∈ ws) (hb : b ∈ ws) (ht : touches a.requestedRect b.requestedRect = true) :
    ∃ g ∈ coalesce ws, a ∈ g ∧ b ∈ g := by
  obtain ⟨_, h2, _, _, h5⟩ := coalesce_spec ws
  obtain ⟨g1, hg1, ha1⟩ := List.mem_flatten.1 (h2.symm.subset ha)
  obtain ⟨g2, hg2, hb2⟩ := List.mem_flatten.1 (h2.symm.subset hb)
  by_cases he : g1 = g2
  · exact ⟨g1, hg1, ha1, he ▸ hb2⟩
  · have hsymm : Symmetric
        (fun g h : List KisBaseRectsWalker => touches (groupRect g) (groupRect h) = false) := by
      intro x y hxy
      rw [touches_comm]
      exact hxy
    have hno := h5.forall hsymm hg1 hg2 he
    have hyes := touches_mono a.requestedRect b.requestedRect (groupRect g1) (groupRect g2)
      (fun px py h => groupRect_covers g1 a ha1 px py h)
      (fun px py h => groupRect_covers g2 b hb2 px py h) ht
    rw [hyes] at hno
    exact absurd hno (by simp)

/-- Claim C10. `optimize` replaces the pending walkers by one rebuilt walker per group.  The
groups partition the pending walkers and are formed by merging groups whose bounding
rectangles overlap or are adjacent, starting from the single walkers.  Every two pending
walkers whose requested rectangles overlap or are adjacent are in the same group, and no two
walkers of the result overlap or are adjacent.  The requested rectangle of the rebuilt walker
is the bounding rectangle of its group (it covers every member and lies within every rectangle
that does), a walker left alone is kept as it is, the rebuilt walkers stand in the queue order
of the first members of their groups, the walkers left alone keep their relative order, every
original rectangle is covered by a walker of the result, and the queue does not get longer. -/
theorem optimize_coalesces (q : KisSimpleUpdateQueue) :
    ∃ groups : List (List KisBaseRectsWalker),
      (optimize q).walkers = groups.map rebuild ∧
      (optimize q).blocked = q.blocked ∧
      groups.flatten.Perm q.walkers ∧
      (∀ g ∈ groups, Coalesced g ∧
        (∀ w ∈ g, ∀ px py, w.requestedRect.containsPoint px py →
          (rebuild g).requestedRect.containsPoint px py) ∧
        (∀ rect : QRect,
          (∀ w ∈ g, ∀ px py, w.requestedRect.containsPoint px py → rect.containsPoint px py) →
          ∀ px py, (rebuild g).requestedRect.containsPoint px py → rect.containsPoint px py) ∧
        (∀ w, g = [w] → rebuild g = w)) ∧
      (∀ a ∈ q.walkers, ∀ b ∈ q.walkers,
        touches a.requestedRect b.requestedRect = true → ∃ g ∈ groups, a ∈ g ∧ b ∈ g) ∧
      (optimize q).walkers.Pairwise
        (fun a b => touches a.requestedRect b.requestedRect = false) ∧
      (heads groups).Sublist q.walkers ∧
      (groups.filter (fun g => decide (g.length = 1))).flatten.Sublist q.walkers ∧
      (∀ w ∈ q.walkers, ∃ m ∈ (optimize q).walkers, ∀ px py,
        w.requestedRect.containsPoint px py → m.requestedRect.containsPoint px py) ∧
      (optimize q).walkers.length ≤ q.walkers.length := by
  obtain ⟨h1, h2, h3, h4, h5⟩ := coalesce_spec q.walkers
  refine ⟨coalesce q.walkers, rfl, rfl, h2, ?_, ?_, ?_, h3,
    (singles_sublist_heads _).trans h3, ?_, by simpa [optimize] using h4⟩
  · intro g hg
    refine ⟨h1 g hg, ?_, ?_, ?_⟩
    · exact fun w hw px py h => groupRect_covers g w hw px py h
    · exact fun rect hall px py h => groupRect_least g rect hall px py h
    · intro w hw
      rw [hw]
      rfl
  · exact fun a ha b hb ht => coalesce_joins q.walkers a b ha hb ht
  · simp only [optimize, List.pairwise_map]
    exact h5
  · intro w hw
    have hmem : w ∈ (coalesce q.walkers).flatten := h2.symm.subset hw
    obtain ⟨g, hg, hwg⟩ := List.mem_flatten.1 hmem
    exact ⟨rebuild g, List.mem_map_of_mem _ hg, fun px py h => groupRect_covers g w hwg px py h⟩

/-- Scenario 3 (`testOptimization`): the four walkers of the test become a queue of two, the
first in the place of walker1 with requested rectangle (0,0,100,100), the second walker4. -/
theorem optimize_coalesces_witness :
    optimize ⟨[walker1, walker2, walker3, walker4], false⟩ =
        ⟨[⟨⟨0, 0, 100, 100⟩⟩, walker4], false⟩ ∧
      (optimize ⟨[walker1, walker2, walker3, walker4], false⟩).walkers.Pairwise
        (fun a b => touches a.requestedRect b.requestedRect = false) ∧
      (optimize ⟨[walker1, walker2, walker3, walker4], false⟩).walkers.length ≤ 4 := by
  obtain ⟨_, _, _, _, _, _, hpair, _, _, _, hlen⟩ :=
    optimize_coalesces ⟨[walker1, walker2, walker3, walker4], false⟩
  exact ⟨by decide, hpair, hlen⟩

/-- Merging goes on until no two walkers touch: of the rectangles (0,0,10,10), (20,0,10,10) and
(5,0,20,10) the first two are apart, the third overlaps both, and `optimize` leaves one walker
with the bounding rectangle (0,0,30,10). -/
theorem optimize_bridging_walker :
    optimize ⟨[⟨⟨0, 0, 10, 10⟩⟩, ⟨⟨20, 0, 10, 10⟩⟩, ⟨⟨5, 0, 20, 10⟩⟩], false⟩ =
      ⟨[⟨⟨0, 0, 30, 10⟩⟩], false⟩ := by
  decide

end KisSimpleUpdateQueue

/-! ### The Bezier segment: coefficients, control targets, null tangents -/

namespace KisToolFreehandHelper

/-- Claim C12. `paintBezierSegment` with non-null tangents whose lengths v1, v2 are non-zero:
with similarity = max(0.5, min(v1/v2, v2/v1)) and coeff = 0.8 * (1 - max(0, similarity - 0.8)),
the emitted curve has, when v1 > v2, control1 = pos1*(1 - coeff) + coeff*target1 and
control2 = pos2*(1 - coeff*similarity) + coeff*similarity*target2, and otherwise (v1 < v2, and
also on a tie) control2 = pos2*(1 - coeff) + coeff*target2 and
control1 = pos1*(1 - coeff*similarity) + coeff*similarity*target1. -/
theorem bezier_coefficients (qt : Qt) (d : Private) (pi1 pi2 : KisPaintInformation)
    (t1 t2 : QPointF) (p : PainterInfo) (rest : List PainterInfo) (v1 v2 sim coeff : ℚ)
    (target1 target2 : QPointF)
    (hp : d.painterInfos = p :: rest) (hn1 : t1.isNull = false) (hn2 : t2.isNull = false)
    (hv1 : v1 = qt.lineLength ⟨QPointF.zero, t1⟩) (hv2 : v2 = qt.lineLength ⟨QPointF.zero, t2⟩)
    (h1 : v1 ≠ 0) (h2 : v2 ≠ 0)
    (hsim : sim = max (1 / 2) (min (v1 / v2) (v2 / v1)))
    (hcoeff : coeff = (8 / 10) * (1 - max 0 (sim - 8 / 10)))
    (ht1 : target1 = (controlTargets qt pi1.pos pi2.pos t1 t2).1)
    (ht2 : target2 = (controlTargets qt pi1.pos pi2.pos t1 t2).2) :
    ∃ c1 c2, paintBezierSegment qt d pi1 pi2 t1 t2 =
        .ok ({ d with hasPaintAtLeastOnce := true }, [Job.curve p pi1 c1 c2 pi2]) ∧
      (v1 > v2 →
        c1 = ⟨pi1.pos.x * (1 - coeff) + coeff * target1.x,
              pi1.pos.y * (1 - coeff) + coeff * target1.y⟩ ∧
        c2 = ⟨pi2.pos.x * (1 - coeff * sim) + coeff * sim * target2.x,
              pi2.pos.y * (1 - coeff * sim) + coeff * sim * target2.y⟩) ∧
      (v1 ≤ v2 →
        c2 = ⟨pi2.pos.x * (1 - coeff) + coeff * target2.x,
              pi2.pos.y * (1 - coeff) + coeff * target2.y⟩ ∧
        c1 = ⟨pi1.pos.x * (1 - coeff * sim) + coeff * sim * target1.x,
              pi1.pos.y * (1 - coeff * sim) + coeff * sim * target1.y⟩) := by
  have hv : velocities qt t1 t2 = (v1, v2) := by
    simp [velocities, ← hv1, ← hv2, h1, h2]
  have hs : similarity v1 v2 = sim := by
    rw [hsim, similarity, max_comm]
  have hc : coeffOf sim = coeff := by rw [hcoeff, coeffOf]
  refine ⟨(bezierControls qt pi1.pos pi2.pos t1 t2).1, (bezierControls qt pi1.pos pi2.pos t1 t2).2,
    ?_, ?_, ?_⟩
  · simp [paintBezierSegment, hn1, hn2, paintBezierCurve, hp]
  · intro hgt
    simp only [bezierControls, hv, hs, hc, hgt, if_true, ← ht1, ← ht2, QPointF.add, QPointF.smul,
      QPointF.mk.injEq]
    refine ⟨⟨?_, ?_⟩, ⟨?_, ?_⟩⟩ <;> ring
  · intro hle
    have hng : ¬ v1 > v2 := not_lt.2 hle
    simp only [bezierControls, hv, hs, hc, hng, if_false, ← ht1, ← ht2, QPointF.add, QPointF.smul,
      QPointF.mk.injEq]
    refine ⟨⟨?_, ?_⟩, ⟨?_, ?_⟩⟩ <;> ring

theorem ratSqrt_one : ratSqrt 1 = 1 := by simp [ratSqrt]

theorem ratSqrt_four : ratSqrt 4 = 2 := by
  have h : Nat.sqrt 4 = 2 := by norm_num
  simp [ratSqrt, h]

theorem controlTargets_collinear :
    controlTargets Qt.exact ⟨0, 0⟩ ⟨10, 0⟩ ⟨2, 0⟩ ⟨1, 0⟩ = (⟨5, 0⟩, ⟨5, 0⟩) := by
  simp [controlTargets, Qt.exact, lineIntersectExact, QPointF.add, QPointF.sub, QPointF.smul]
  norm_num

/-- Witness of C12: end points (0,0) and (10,0), tangents (2,0) and (1,0): v1 = 2 > v2 = 1,
similarity 0.5, coeff 0.8, both targets (5,0); control1 = (4,0) with the full coeff and
control2 = (8,0) with coeff*similarity = 0.4. -/
theorem bezier_coefficients_witness :
    paintBezierSegment Qt.exact (twoSampleState SmoothingType.SIMPLE_SMOOTHING) (sampleAt 0 0 0)
        (sampleAt 10 0 10) ⟨2, 0⟩ ⟨1, 0⟩ =
      .ok ({ twoSampleState SmoothingType.SIMPLE_SMOOTHING with hasPaintAtLeastOnce := true },
        [Job.curve ⟨⟨⟨0, 0⟩, 0⟩⟩ (sampleAt 0 0 0) ⟨4, 0⟩ ⟨8, 0⟩ (sampleAt 10 0 10)]) := by
  obtain ⟨c1, c2, h, hgt, _⟩ :=
    bezier_coefficients Qt.exact (twoSampleState SmoothingType.SIMPLE_SMOOTHING) (sampleAt 0 0 0)
      (sampleAt 10 0 10) ⟨2, 0⟩ ⟨1, 0⟩ ⟨⟨⟨0, 0⟩, 0⟩⟩ [] 2 1 (1 / 2) (8 / 10) ⟨5, 0⟩ ⟨5, 0⟩
      rfl (by simp [QPointF.isNull]) (by simp [QPointF.isNull])
      (by norm_num [Qt.exact, QPointF.zero, ratSqrt_four])
      (by simp [Qt.exact, QPointF.zero, ratSqrt_one])
      (by norm_num) (by norm_num) (by norm_num) (by norm_num)
      (by simp only [sampleAt]; rw [controlTargets_collinear])
      (by simp only [sampleAt]; rw [controlTargets_collinear])
  obtain ⟨e1, e2⟩ := hgt (by norm_num)
  rw [h, e1, e2]
  norm_num [sampleAt]

theorem lineIntersectExact_noIntersection (l m : QLineF) :
    (lineIntersectExact l m).1 = IntersectType.NoIntersection ↔
      (l.p2.y - l.p1.y) * (m.p1.x - m.p2.x) - (l.p2.x - l.p1.x) * (m.p1.y - m.p2.y) = 0 := by
  unfold lineIntersectExact
  simp only [QPointF.sub]
  split_ifs with h0 h1 h2 <;> simp [h0]

/-- Claim C13. With D1 = pi1.pos + tangent1 and D2 = pi2.pos - tangent2, when the intersection of
line (D1,D2) with line (pi1.pos,pi2.pos) is not bounded: if the lines (pi1.pos,D1) and
(pi2.pos,D2) do not intersect (they are parallel), or the Manhattan length of their
intersection point exceeds 1e6, both control targets are the midpoint 0.5*(pi1.pos + pi2.pos);
otherwise both are that intersection point.  For the documented `QLineF::intersect`, no
intersection means that the cross product of the two directions is zero. -/
theorem control_targets_fallback (qt : Qt) (p1 p2 t1 t2 D1 D2 pt : QPointF)
    (hD1 : D1 = ⟨p1.x + t1.x, p1.y + t1.y⟩) (hD2 : D2 = ⟨p2.x - t2.x, p2.y - t2.y⟩)
    (hnb : (qt.lineIntersect ⟨D1, D2⟩ ⟨p1, p2⟩).1 ≠ IntersectType.BoundedIntersection)
    (hpt : pt = (qt.lineIntersect ⟨p1, D1⟩ ⟨p2, D2⟩).2) :
    ((qt.lineIntersect ⟨p1, D1⟩ ⟨p2, D2⟩).1 = IntersectType.NoIntersection ∨
        |pt.x| + |pt.y| > 1000000 →
      controlTargets qt p1 p2 t1 t2 =
        (⟨1 / 2 * (p1.x + p2.x), 1 / 2 * (p1.y + p2.y)⟩,
          ⟨1 / 2 * (p1.x + p2.x), 1 / 2 * (p1.y + p2.y)⟩)) ∧
    (¬ ((qt.lineIntersect ⟨p1, D1⟩ ⟨p2, D2⟩).1 = IntersectType.NoIntersection ∨
        |pt.x| + |pt.y| > 1000000) →
      controlTargets qt p1 p2 t1 t2 = (pt, pt)) ∧
    ((lineIntersectExact ⟨p1, D1⟩ ⟨p2, D2⟩).1 = IntersectType.NoIntersection ↔
      t1.y * t2.x - t1.x * t2.y = 0) := by
  subst hD1 hD2 hpt
  refine ⟨fun h => ?_, fun h => ?_, ?_⟩
  · simp only [controlTargets, QPointF.add, QPointF.sub, hnb, if_false, QPointF.manhattanLength,
      maxSanePoint, h, if_true, QPointF.smul]
  · simp only [controlTargets, QPointF.add, QPointF.sub, hnb, if_false, QPointF.manhattanLength,
      maxSanePoint, h]
  · rw [lineIntersectExact_noIntersection]
    simp only
    constructor <;> intro h <;> linarith

/-- Witness of C13: end points (0,0), (10,0) with tangents (1,1), (1,-1): D1 = (1,1), D2 = (9,1);
line (D1,D2) is parallel to the chord, the lines through D1 and D2 meet at (5,5), which is both
control targets. -/
theorem control_targets_fallback_witness :
    controlTargets Qt.exact ⟨0, 0⟩ ⟨10, 0⟩ ⟨1, 1⟩ ⟨1, -1⟩ = (⟨5, 5⟩, ⟨5, 5⟩) := by
  have hpt : (Qt.exact.lineIntersect ⟨⟨0, 0⟩, ⟨1, 1⟩⟩ ⟨⟨10, 0⟩, ⟨9, 1⟩⟩) =
      (IntersectType.UnboundedIntersection, ⟨5, 5⟩) := by
    simp [Qt.exact, lineIntersectExact, QPointF.add, QPointF.sub, QPointF.smul]
    norm_num
  have h := (control_targets_fallback Qt.exact ⟨0, 0⟩ ⟨10, 0⟩ ⟨1, 1⟩ ⟨1, -1⟩ ⟨1, 1⟩ ⟨9, 1⟩ ⟨5, 5⟩
    (by norm_num) (by norm_num)
    (by simp [Qt.exact, lineIntersectExact, QPointF.sub])
    (by rw [hpt])).2.1
  apply h
  rw [hpt]
  norm_num
  decide

/-- Claim C14 as amended.  A null tangent makes `paintBezierSegment` return at once: no job is
emitted and the state is unchanged, so the segment is dropped and the clamp is not reached;
`paint` still returns and shifts its samples.  The clamp of both velocities to 1e-6 applies to
non-null tangents of which one has computed length 0, and then one curve job is emitted. -/
theorem null_tangent_skips (qt : Qt) (d : Private) (pi1 pi2 raw : KisPaintInformation)
    (t1 t2 : QPointF) (p : PainterInfo) (rest : List PainterInfo)
    (hp : d.painterInfos = p :: rest) :
    (t1.isNull = true ∨ t2.isNull = true →
      paintBezierSegment qt d pi1 pi2 t1 t2 = .ok (d, [])) ∧
    (d.haveTangent = true →
      (d.smoothingOptions.smoothingType = SmoothingType.SIMPLE_SMOOTHING ∨
        d.smoothingOptions.smoothingType = SmoothingType.WEIGHTED_SMOOTHING) →
      (d.previousTangent.isNull = true ∨
        (guardedTangent (smoothSample qt d raw).2 d.olderPaintInformation).isNull = true) →
      ∃ d1, paint qt d raw = .ok (d1, []) ∧
        d1.olderPaintInformation = d.previousPaintInformation ∧
        d1.previousPaintInformation = (smoothSample qt d raw).2 ∧
        d1.painterInfos = d.painterInfos) ∧
    (t1.isNull = false → t2.isNull = false →
      (qt.lineLength ⟨QPointF.zero, t1⟩ = 0 ∨ qt.lineLength ⟨QPointF.zero, t2⟩ = 0) →
      velocities qt t1 t2 = (1 / 1000000, 1 / 1000000) ∧
      ∃ c1 c2, paintBezierSegment qt d pi1 pi2 t1 t2 =
        .ok ({ d with hasPaintAtLeastOnce := true }, [Job.curve p pi1 c1 c2 pi2])) := by
  refine ⟨fun h => ?_, fun hT hm hn => ?_, fun h1 h2 h0 => ⟨?_, ?_⟩⟩
  · have : (t1.isNull || t2.isNull) = true := by
      rcases h with h | h <;> simp [h]
    simp [paintBezierSegment, this]
  · obtain ⟨d1, e1, e2, e3, _, _, e6, _⟩ := paint_haveTangent qt d raw p rest hm hT hp
    have : (d.previousTangent.isNull ||
        (guardedTangent (smoothSample qt d raw).2 d.olderPaintInformation).isNull) = true := by
      rcases hn with h | h <;> simp [h]
    rw [this] at e1
    exact ⟨d1, by simpa using e1, e2, e3, e6⟩
  · simp [velocities, h0]
  · exact ⟨(bezierControls qt pi1.pos pi2.pos t1 t2).1, (bezierControls qt pi1.pos pi2.pos t1 t2).2,
      by simp [paintBezierSegment, h1, h2, paintBezierCurve, hp]⟩

/-- Counterexample to C14 as stated: simple mode, older (0,0), previous (10,0), and a new sample
back at (0,0) at 20 ms: the new tangent ((0,0) - (0,0)) / 20 is null, and `paint` emits no job
for the segment from (0,0) to (10,0); only the samples are shifted. -/
theorem null_tangent_drops_segment :
    guardedTangent (sampleAt 0 0 20) (sampleAt 0 0 0) = ⟨0, 0⟩ ∧
    paint Qt.exact (twoSampleState SmoothingType.SIMPLE_SMOOTHING) (sampleAt 0 0 20) =
      .ok ({ twoSampleState SmoothingType.SIMPLE_SMOOTHING with
              previousTangent := ⟨0, 0⟩
              olderPaintInformation := sampleAt 10 0 10
              previousPaintInformation := sampleAt 0 0 20 }, []) := by
  have hg : guardedTangent (sampleAt 0 0 20) (sampleAt 0 0 0) = ⟨0, 0⟩ := by
    norm_num [guardedTangent, sampleAt, QPointF.sub, QPointF.divq]
  refine ⟨hg, ?_⟩
  have hs : smoothSample Qt.exact (twoSampleState SmoothingType.SIMPLE_SMOOTHING)
      (sampleAt 0 0 20) = (twoSampleState SmoothingType.SIMPLE_SMOOTHING, sampleAt 0 0 20) :=
    smoothSample_of_not_weighted _ _ _ (by simp [twoSampleState, idleState, optionsOf])
  have ho : (twoSampleState SmoothingType.SIMPLE_SMOOTHING).olderPaintInformation =
      sampleAt 0 0 0 := rfl
  unfold paint
  rw [hs]
  simp only [paintSmoothed, ho, hg]
  simp [twoSampleState, idleState, optionsOf, paintBezierSegment, QPointF.isNull]

/-- Witness of C14 as amended: with the null tangent (0,0) as second tangent,
`paintBezierSegment` returns the state unchanged and emits nothing. -/
theorem null_tangent_skips_witness :
    paintBezierSegment Qt.exact (twoSampleState SmoothingType.SIMPLE_SMOOTHING) (sampleAt 0 0 0)
        (sampleAt 10 0 10) ⟨1, 0⟩ ⟨0, 0⟩ =
      .ok (twoSampleState SmoothingType.SIMPLE_SMOOTHING, []) :=
  (null_tangent_skips Qt.exact (twoSampleState SmoothingType.SIMPLE_SMOOTHING) (sampleAt 0 0 0)
    (sampleAt 10 0 10) (sampleAt 0 0 20) ⟨1, 0⟩ ⟨0, 0⟩ ⟨⟨⟨0, 0⟩, 0⟩⟩ [] rfl).1
    (Or.inr (by simp [QPointF.isNull]))

end KisToolFreehandHelper

/-! ### What the calls leave unchanged -/

namespace KisToolFreehandHelper

theorem paintBezierSegment_fields (qt : Qt) (d d1 : Private) (a b : KisPaintInformation)
    (t1 t2 : QPointF) (js : List Job) (h : paintBezierSegment qt d a b t1 t2 = .ok (d1, js)) :
    d1.history = d.history ∧ d1.distanceHistory = d.distanceHistory ∧
      d1.lastOutlinePos = d.lastOutlinePos ∧ d1.haveTangent = d.haveTangent := by
  obtain ⟨he, _⟩ := paintBezierSegment_ok qt d d1 a b t1 t2 js h
  rw [he]
  exact ⟨rfl, rfl, rfl, rfl⟩

theorem paintSmoothed_fields (qt : Qt) (d d1 : Private) (info : KisPaintInformation)
    (js : List Job) (h : paintSmoothed qt d info = .ok (d1, js)) :
    d1.history = d.history ∧ d1.distanceHistory = d.distanceHistory ∧
      d1.lastOutlinePos = d.lastOutlinePos := by
  unfold paintSmoothed at h
  split_ifs at h with hm hT
  · simp only [Except.ok.injEq, Prod.mk.injEq] at h
    obtain ⟨rfl, rfl⟩ := h
    exact ⟨rfl, rfl, rfl⟩
  · cases hb : paintBezierSegment qt d d.olderPaintInformation d.previousPaintInformation
        d.previousTangent (guardedTangent info d.olderPaintInformation) with
    | error f => simp [hb] at h
    | ok r =>
      obtain ⟨e, js1⟩ := r
      simp only [hb, Except.ok.injEq, Prod.mk.injEq] at h
      obtain ⟨rfl, rfl⟩ := h
      obtain ⟨h1, h2, h3, _⟩ := paintBezierSegment_fields qt d e _ _ _ _ js1 hb
      exact ⟨h1, h2, h3⟩
  · unfold paintLine at h
    cases hp : d.painterInfos with
    | nil => simp [hp] at h
    | cons p ps =>
      simp only [hp, Except.ok.injEq, Prod.mk.injEq] at h
      obtain ⟨rfl, rfl⟩ := h
      exact ⟨rfl, rfl, rfl⟩

/-- The smoothing part of `paint` appends one entry to each history, or leaves both alone. -/
theorem smoothSample_lengths (qt : Qt) (d : Private) (info : KisPaintInformation) :
    ((smoothSample qt d info).1.history.length = d.history.length + 1 ∧
        (smoothSample qt d info).1.distanceHistory.length = d.distanceHistory.length + 1) ∨
      ((smoothSample qt d info).1.history = d.history ∧
        (smoothSample qt d info).1.distanceHistory = d.distanceHistory) := by
  unfold smoothSample
  split_ifs with hw
  · left
    simp only [weightedSmoothing]
    split_ifs <;> simp
  · right
    exact ⟨rfl, rfl⟩

theorem paint_lengths (qt : Qt) (d d1 : Private) (info : KisPaintInformation) (js : List Job)
    (h : paint qt d info = .ok (d1, js))
    (hd : d.history.length = d.distanceHistory.length) :
    d1.history.length = d1.distanceHistory.length ∧ d1.lastOutlinePos = d.lastOutlinePos := by
  unfold paint at h
  obtain ⟨h1, h2, h3⟩ := paintSmoothed_fields qt _ d1 _ js h
  have hf := smoothSample_frame qt d info
  refine ⟨?_, by rw [h3, hf]⟩
  rw [h1, h2]
  rcases smoothSample_lengths qt d info with ⟨a, b⟩ | ⟨a, b⟩
  · rw [a, b, hd]
  · rw [a, b, hd]

theorem finishStroke_fields (qt : Qt) (d d1 : Private) (js : List Job)
    (h : finishStroke qt d = .ok (d1, js)) :
    d1.history = d.history ∧ d1.distanceHistory = d.distanceHistory ∧
      d1.lastOutlinePos = d.lastOutlinePos := by
  unfold finishStroke at h
  split_ifs at h with hT
  · simp only at h
    split_ifs at h with hz
    obtain ⟨h1, h2, h3, _⟩ := paintBezierSegment_fields qt _ d1 _ _ _ _ js h
    exact ⟨h1, h2, h3⟩
  · simp only [Except.ok.injEq, Prod.mk.injEq] at h
    obtain ⟨rfl, rfl⟩ := h
    exact ⟨rfl, rfl, rfl⟩

theorem paintAt_fields (d d1 : Private) (pi : KisPaintInformation) (js : List Job)
    (h : paintAt d pi = .ok (d1, js)) :
    d1.history = d.history ∧ d1.distanceHistory = d.distanceHistory ∧
      d1.lastOutlinePos = d.lastOutlinePos ∧ d1.smoothingOptions = d.smoothingOptions := by
  unfold paintAt at h
  cases hp : d.painterInfos with
  | nil => simp [hp] at h
  | cons p ps =>
    simp only [hp, Except.ok.injEq, Prod.mk.injEq] at h
    obtain ⟨rfl, rfl⟩ := h
    exact ⟨rfl, rfl, rfl, rfl⟩

theorem doAirbrushing_fields (d d1 : Private) (js : List Job)
    (h : doAirbrushing d = .ok (d1, js)) :
    d1.history = d.history ∧ d1.distanceHistory = d.distanceHistory ∧
      d1.lastOutlinePos = d.lastOutlinePos := by
  unfold doAirbrushing at h
  split_ifs at h with hp
  · obtain ⟨h1, h2, h3, _⟩ := paintAt_fields d d1 _ js h
    exact ⟨h1, h2, h3⟩
  · simp only [Except.ok.injEq, Prod.mk.injEq] at h
    obtain ⟨rfl, rfl⟩ := h
    exact ⟨rfl, rfl, rfl⟩

theorem endPaint_fields (qt : Qt) (d d1 : Private) (js : List Job)
    (h : endPaint qt d = .ok (d1, js)) :
    d1.history = d.history ∧ d1.distanceHistory = d.distanceHistory ∧
      d1.lastOutlinePos = d.lastOutlinePos ∧ d1.smoothingOptions = d.smoothingOptions := by
  unfold endPaint at h
  split_ifs at h with h1 h2
  · cases hr : paintAt d d.previousPaintInformation with
    | error f => simp [hr] at h
    | ok r =>
      obtain ⟨e, js1⟩ := r
      simp only [hr, Except.ok.injEq, Prod.mk.injEq] at h
      obtain ⟨rfl, rfl⟩ := h
      exact paintAt_fields d e _ js1 hr
  · cases hr : finishStroke qt d with
    | error f => simp [hr] at h
    | ok r =>
      obtain ⟨e, js1⟩ := r
      simp only [hr, Except.ok.injEq, Prod.mk.injEq] at h
      obtain ⟨rfl, rfl⟩ := h
      obtain ⟨a, b, c⟩ := finishStroke_fields qt d e js1 hr
      exact ⟨a, b, c, (finishStroke_ok qt d e js1 hr).2.1⟩
  · simp only [Except.ok.injEq, Prod.mk.injEq] at h
    obtain ⟨rfl, rfl⟩ := h
    exact ⟨rfl, rfl, rfl, rfl⟩

/-- The two appended lists are the ones the weighted smoothing block stores (the last sample
possibly rewritten). -/
theorem weightedSmoothing_histories (qt : Qt) (d : Private) (info : KisPaintInformation) :
    (weightedSmoothing qt d info).1.distanceHistory = appendedDistanceHistory qt d info ∧
      (weightedSmoothing qt d info).1.history.dropLast = d.history ∧
      (weightedSmoothing qt d info).1.history.getLast? = some (weightedSmoothing qt d info).2 := by
  simp only [weightedSmoothing, appendedDistanceHistory]
  split_ifs <;> simp

theorem call_lengths (qt : Qt) (d d1 : Private) (c : HelperCall) (jobs : List Job)
    (hd : d.history.length = d.distanceHistory.length) (h : call qt d c = .ok (d1, jobs)) :
    d1.history.length = d1.distanceHistory.length := by
  cases c with
  | initPaint start air =>
    simp only [call, Except.ok.injEq, Prod.mk.injEq] at h
    rw [← h.1]
    rfl
  | paint info => exact (paint_lengths qt d d1 info jobs h hd).1
  | endPaint =>
    obtain ⟨a, b, _⟩ := endPaint_fields qt d d1 jobs h
    rw [a, b, hd]
  | setSmoothness o =>
    simp only [call, Except.ok.injEq, Prod.mk.injEq] at h
    rw [← h.1]
    exact hd
  | paintOpOutline pos hover =>
    simp only [call, Except.ok.injEq, Prod.mk.injEq] at h
    rw [← h.1]
    simp only [paintOpOutline]
    split <;> exact hd
  | timeout =>
    obtain ⟨a, b, _⟩ := finishStroke_fields qt d d1 jobs h
    rw [a, b, hd]
  | airbrush =>
    obtain ⟨a, b, _⟩ := doAirbrushing_fields d d1 jobs h
    rw [a, b, hd]

theorem callAll_lengths (qt : Qt) (cs : List HelperCall) :
    ∀ (d dN : Private) (jobs : List Job), d.history.length = d.distanceHistory.length →
      callAll qt d cs = .ok (dN, jobs) → dN.history.length = dN.distanceHistory.length := by
  induction cs with
  | nil =>
    intro d dN jobs hd h
    simp only [callAll, Except.ok.injEq, Prod.mk.injEq] at h
    rw [← h.1]
    exact hd
  | cons c cs ih =>
    intro d dN jobs hd h
    simp only [callAll] at h
    cases hs : call qt d c with
    | error f => simp [hs] at h
    | ok r =>
      obtain ⟨d1, js1⟩ := r
      cases hr : callAll qt d1 cs with
      | error f => simp [hs, hr] at h
      | ok r2 =>
        obtain ⟨d2, js2⟩ := r2
        simp only [hs, hr, Except.ok.injEq, Prod.mk.injEq] at h
        obtain ⟨rfl, rfl⟩ := h
        exact ih d1 d2 js2 (call_lengths qt d d1 c js1 hd hs) hr

/-- Claim C11. `history.size() == distanceHistory.size()` holds in the state the constructor
leaves, is preserved by every call (initPaint, paint in every mode and for every smoothness
distance, endPaint, setSmoothness, paintOpOutline, and the two timer slots), hence holds after
every sequence of calls; and in every such state the condition of the Q_ASSERT on the two sizes
holds where `paint` evaluates it, for every sample. -/
theorem history_sizes_equal (qt : Qt) :
    (∀ b1 b2 info opts, (constructed b1 b2 info opts).history.length =
      (constructed b1 b2 info opts).distanceHistory.length) ∧
    (∀ d c d1 jobs, d.history.length = d.distanceHistory.length →
      call qt d c = .ok (d1, jobs) → d1.history.length = d1.distanceHistory.length) ∧
    (∀ cs b1 b2 info opts dN jobs,
      callAll qt (constructed b1 b2 info opts) cs = .ok (dN, jobs) →
      dN.history.length = dN.distanceHistory.length ∧
        ∀ sample, historySizesAssert qt dN sample) := by
  refine ⟨fun _ _ _ _ => rfl, fun d c d1 jobs hd h => call_lengths qt d d1 c jobs hd h, ?_⟩
  intro cs b1 b2 info opts dN jobs h
  have hl := callAll_lengths qt cs _ dN jobs rfl h
  refine ⟨hl, fun sample => ?_⟩
  simp [historySizesAssert, appendedHistory, appendedDistanceHistory, hl]

/-! ### setSmoothness, paintOpOutline and the timer slots after endPaint -/

theorem call_smoothingOptions (qt : Qt) (d d1 : Private) (c : HelperCall) (jobs : List Job)
    (hc : ∀ o, c ≠ HelperCall.setSmoothness o) (h : call qt d c = .ok (d1, jobs)) :
    d1.smoothingOptions = d.smoothingOptions := by
  cases c with
  | initPaint start air =>
    simp only [call, Except.ok.injEq, Prod.mk.injEq] at h
    rw [← h.1]
    rfl
  | paint info => exact (paint_ok qt d d1 info jobs h).2.1
  | endPaint => exact (endPaint_fields qt d d1 jobs h).2.2.2
  | setSmoothness o => exact absurd rfl (hc o)
  | paintOpOutline pos hover =>
    simp only [call, Except.ok.injEq, Prod.mk.injEq] at h
    rw [← h.1]
    simp only [paintOpOutline]
    split <;> rfl
  | timeout => exact (finishStroke_ok qt d d1 jobs h).2.1
  | airbrush => exact (doAirbrushing_ok d d1 jobs h).2.1

theorem callAll_smoothingOptions (qt : Qt) (cs : List HelperCall) :
    ∀ (d dN : Private) (jobs : List Job), (∀ o, HelperCall.setSmoothness o ∉ cs) →
      callAll qt d cs = .ok (dN, jobs) → dN.smoothingOptions = d.smoothingOptions := by
  induction cs with
  | nil =>
    intro d dN jobs _ h
    simp only [callAll, Except.ok.injEq, Prod.mk.injEq] at h
    rw [← h.1]
  | cons c cs ih =>
    intro d dN jobs hn h
    simp only [callAll] at h
    cases hs : call qt d c with
    | error f => simp [hs] at h
    | ok r =>
      obtain ⟨d1, js1⟩ := r
      cases hr : callAll qt d1 cs with
      | error f => simp [hs, hr] at h
      | ok r2 =>
        obtain ⟨d2, js2⟩ := r2
        simp only [hs, hr, Except.ok.injEq, Prod.mk.injEq] at h
        obtain ⟨rfl, rfl⟩ := h
        rw [ih d1 d2 js2 (fun o ho => hn o (List.mem_cons_of_mem _ ho)) hr]
        exact call_smoothingOptions qt d d1 c js1
          (fun o ho => hn o (ho ▸ List.mem_cons_self _ _)) hs

/-- Claim C17 as amended.  `setSmoothness` replaces the smoothing options at once, touches no
other member and emits nothing; the calls that follow, those of an ongoing stroke included, run
as from the state with the new options; and no other call changes the options, so they stay in
force for the rest of the stroke and for the later strokes. -/
theorem setSmoothness_immediate (qt : Qt) (d : Private) (opts : KisSmoothingOptions) :
    call qt d (HelperCall.setSmoothness opts) = .ok ({ d with smoothingOptions := opts }, []) ∧
    (∀ cs, callAll qt d (HelperCall.setSmoothness opts :: cs) =
      callAll qt { d with smoothingOptions := opts } cs) ∧
    (∀ cs dN jobs, (∀ o, HelperCall.setSmoothness o ∉ cs) →
      callAll qt d (HelperCall.setSmoothness opts :: cs) = .ok (dN, jobs) →
      dN.smoothingOptions = opts) := by
  have h2 : ∀ cs, callAll qt d (HelperCall.setSmoothness opts :: cs) =
      callAll qt { d with smoothingOptions := opts } cs := by
    intro cs
    simp only [callAll, call, setSmoothness]
    cases callAll qt { d with smoothingOptions := opts } cs with
    | error f => rfl
    | ok r => simp
  refine ⟨rfl, h2, ?_⟩
  intro cs dN jobs hn h
  rw [h2] at h
  exact callAll_smoothingOptions qt cs _ dN jobs hn h

/-- Counterexample to C17 as stated: a stroke begun in mode none at (0,0) with one sample at
(10,0).  With `setSmoothness(simple)` called between initPaint and paint, the stroke emits one
dab at (10,0); with the same call made only after endPaint it emits one line from (0,0) to
(10,0). -/
theorem setSmoothness_changes_stroke :
    jobsOf (callAll Qt.exact (idleState (optionsOf SmoothingType.NO_SMOOTHING))
        [HelperCall.initPaint (sampleAt 0 0 0) false,
          HelperCall.setSmoothness (optionsOf SmoothingType.SIMPLE_SMOOTHING),
          HelperCall.paint (sampleAt 10 0 10), HelperCall.endPaint]) =
      [Job.dab ⟨⟨⟨0, 0⟩, 0⟩⟩ (sampleAt 10 0 10)] ∧
    jobsOf (callAll Qt.exact (idleState (optionsOf SmoothingType.NO_SMOOTHING))
        [HelperCall.initPaint (sampleAt 0 0 0) false, HelperCall.paint (sampleAt 10 0 10),
          HelperCall.endPaint,
          HelperCall.setSmoothness (optionsOf SmoothingType.SIMPLE_SMOOTHING)]) =
      [Job.line ⟨⟨⟨0, 0⟩, 0⟩⟩ (sampleAt 0 0 0) (sampleAt 10 0 10)] := by
  constructor
  · simp [callAll, call, initPaint, setSmoothness, paint, smoothSample, paintSmoothed, endPaint,
      paintAt, idleState, optionsOf, createPainters, jobsOf]
    exact ⟨rfl, rfl⟩
  · simp [callAll, call, initPaint, setSmoothness, paint, smoothSample, paintSmoothed, paintLine,
      endPaint, idleState, optionsOf, createPainters, jobsOf]
    exact ⟨rfl, rfl⟩

/-- Witness of C17 as amended: in the stroke above the state after setSmoothness(simple),
paint and endPaint still carries the simple options. -/
theorem setSmoothness_immediate_witness :
    ∃ dN jobs,
      callAll Qt.exact (initPaint (idleState (optionsOf SmoothingType.NO_SMOOTHING))
          (sampleAt 0 0 0) false)
        [HelperCall.setSmoothness (optionsOf SmoothingType.SIMPLE_SMOOTHING),
          HelperCall.paint (sampleAt 10 0 10), HelperCall.endPaint] = .ok (dN, jobs) ∧
      dN.smoothingOptions = optionsOf SmoothingType.SIMPLE_SMOOTHING := by
  have h : callAll Qt.exact (initPaint (idleState (optionsOf SmoothingType.NO_SMOOTHING))
        (sampleAt 0 0 0) false)
      [HelperCall.setSmoothness (optionsOf SmoothingType.SIMPLE_SMOOTHING),
        HelperCall.paint (sampleAt 10 0 10), HelperCall.endPaint] =
      .ok ({ twoSampleState SmoothingType.SIMPLE_SMOOTHING with
              hasPaintAtLeastOnce := true
              strokeTimeoutTimer := false
              painterInfos := [] },
        [Job.dab ⟨⟨⟨0, 0⟩, 0⟩⟩ (sampleAt 10 0 10)]) := by
    have hg : guardedTangent (sampleAt 10 0 10) (sampleAt 0 0 0) = ⟨1, 0⟩ := by
      norm_num [guardedTangent, sampleAt, QPointF.sub, QPointF.divq]
    simp [callAll, call, initPaint, setSmoothness, paint, smoothSample, paintSmoothed, endPaint,
      paintAt, idleState, optionsOf, createPainters, twoSampleState, hg, QPointF.zero]
    exact ⟨rfl, rfl⟩
  exact ⟨_, _, h, (setSmoothness_immediate Qt.exact
    (initPaint (idleState (optionsOf SmoothingType.NO_SMOOTHING)) (sampleAt 0 0 0) false)
    (optionsOf SmoothingType.SIMPLE_SMOOTHING)).2.2
    [HelperCall.paint (sampleAt 10 0 10), HelperCall.endPaint] _ _ (by simp) h⟩

/-- Claim C19 as amended.  `paintOpOutline` changes no member but the outline position history,
through which it pushes the saved cursor position: when the position is within 7 of the stored
second point on some axis the whole state is unchanged; when it is more than 7 away on both axes
the history becomes (old second, position) and the state differs from the one before. -/
theorem paintOpOutline_effect (d : Private) (pos : QPointF) (hover : KisPaintInformation) :
    (paintOpOutline d pos hover).1 =
      { d with lastOutlinePos := (d.lastOutlinePos.pushThroughHistory pos).2 } ∧
    (¬ (|pos.x - d.lastOutlinePos.m_second.x| > 7 ∧ |pos.y - d.lastOutlinePos.m_second.y| > 7) →
      (paintOpOutline d pos hover).1 = d) ∧
    ((|pos.x - d.lastOutlinePos.m_second.x| > 7 ∧ |pos.y - d.lastOutlinePos.m_second.y| > 7) →
      (paintOpOutline d pos hover).1.lastOutlinePos = ⟨d.lastOutlinePos.m_second, pos⟩ ∧
        (paintOpOutline d pos hover).1 ≠ d) := by
  have h1 : (paintOpOutline d pos hover).1 =
      { d with lastOutlinePos := (d.lastOutlinePos.pushThroughHistory pos).2 } := by
    simp only [paintOpOutline]
    split <;> rfl
  refine ⟨h1, fun hn => ?_, fun hs => ?_⟩
  · rw [h1, (PositionHistory.pushThroughHistory_spec_aux d.lastOutlinePos pos).2 hn]
  · rw [h1, (PositionHistory.pushThroughHistory_spec_aux d.lastOutlinePos pos).1 hs]
    refine ⟨rfl, fun heq => ?_⟩
    have h2 := congrArg (fun e : Private => e.lastOutlinePos.m_second.x) heq
    simp only at h2
    have h3 := hs.1
    rw [h2] at h3
    simp at h3
    linarith

/-- Counterexample to C19 as stated: on a helper outside any stroke with a default constructed
position history, `paintOpOutline` at (10,10) turns the position history ((0,0),(0,0)) into
((0,0),(10,10)). -/
theorem paintOpOutline_changes_history :
    (idleState (optionsOf SmoothingType.NO_SMOOTHING)).lastOutlinePos = ⟨⟨0, 0⟩, ⟨0, 0⟩⟩ ∧
    (paintOpOutline (idleState (optionsOf SmoothingType.NO_SMOOTHING)) ⟨10, 10⟩
        (sampleAt 10 10 0)).1.lastOutlinePos = ⟨⟨0, 0⟩, ⟨10, 10⟩⟩ ∧
    (paintOpOutline (idleState (optionsOf SmoothingType.NO_SMOOTHING)) ⟨10, 10⟩
        (sampleAt 10 10 0)).1 ≠ idleState (optionsOf SmoothingType.NO_SMOOTHING) := by
  have h : (paintOpOutline (idleState (optionsOf SmoothingType.NO_SMOOTHING)) ⟨10, 10⟩
      (sampleAt 10 10 0)).1.lastOutlinePos = ⟨⟨0, 0⟩, ⟨10, 10⟩⟩ := by
    norm_num [paintOpOutline, idleState, PositionHistory.pushThroughHistory,
      PositionHistory.swaps, PositionHistory.init, PositionHistory.pointSwapThreshold,
      QPointF.zero]
  refine ⟨rfl, h, fun heq => ?_⟩
  rw [heq] at h
  simp [idleState, PositionHistory.init, QPointF.zero] at h

/-- Witness of C19 as amended: with the position history ((0,0),(0,0)), a call at (3,30) moves
by more than 7 on one axis only and leaves the whole state unchanged. -/
theorem paintOpOutline_effect_witness :
    (paintOpOutline (idleState (optionsOf SmoothingType.NO_SMOOTHING)) ⟨3, 30⟩
        (sampleAt 3 30 0)).1 = idleState (optionsOf SmoothingType.NO_SMOOTHING) :=
  (paintOpOutline_effect (idleState (optionsOf SmoothingType.NO_SMOOTHING)) ⟨3, 30⟩
    (sampleAt 3 30 0)).2.1
    (by norm_num [idleState, PositionHistory.init, QPointF.zero])

/-- The airbrushing slot is cancelled by an empty painter list. -/
theorem doAirbrushing_cancelled (d : Private) (h : d.painterInfos = []) :
    doAirbrushing d = .ok (d, []) := by
  simp [doAirbrushing, h]

/-- The timeout slot does not look at the painter list: with a tangent at hand, two non-null
tangents and different timestamps it reaches `painterInfos.first()` on the empty list. -/
theorem finishStroke_not_cancelled (qt : Qt) (d : Private) (h : d.painterInfos = [])
    (hT : d.haveTangent = true) (h1 : d.previousTangent.isNull = false)
    (hdt : d.previousPaintInformation.currentTime - d.olderPaintInformation.currentTime ≠ 0)
    (h2 : (QPointF.divq (d.previousPaintInformation.pos.sub d.olderPaintInformation.pos)
      ((d.previousPaintInformation.currentTime - d.olderPaintInformation.currentTime : Int) : ℚ)
      ).isNull = false) :
    finishStroke qt d = .error Fault.emptyPainterList := by
  simp only [finishStroke, hT, if_true, hdt, if_false, paintBezierSegment, h1, h2, Bool.or_self,
    Bool.false_eq_true, paintBezierCurve, h]

/-- Claim C20 fails for the timeout slot.  Simple mode, initPaint at (0,0) and one paint at
(10,0), 10 ms later: `endPaint` takes the dab branch, which leaves haveTangent set, and empties
the painter list.  A tick of the airbrushing timer that still fires is cancelled, but a pending
stroke timeout runs `finishStroke`, which computes the tangent (1,0) and calls
`painterInfos.first()` on the empty list. -/
theorem finishStroke_after_endPaint :
    endPaint Qt.exact (twoSampleState SmoothingType.SIMPLE_SMOOTHING) =
      .ok ({ twoSampleState SmoothingType.SIMPLE_SMOOTHING with
              hasPaintAtLeastOnce := true
              strokeTimeoutTimer := false
              painterInfos := [] },
        [Job.dab ⟨⟨⟨0, 0⟩, 0⟩⟩ (sampleAt 10 0 10)]) ∧
    doAirbrushing { twoSampleState SmoothingType.SIMPLE_SMOOTHING with
        hasPaintAtLeastOnce := true
        strokeTimeoutTimer := false
        painterInfos := [] } =
      .ok ({ twoSampleState SmoothingType.SIMPLE_SMOOTHING with
              hasPaintAtLeastOnce := true
              strokeTimeoutTimer := false
              painterInfos := [] }, []) ∧
    finishStroke Qt.exact { twoSampleState SmoothingType.SIMPLE_SMOOTHING with
        hasPaintAtLeastOnce := true
        strokeTimeoutTimer := false
        painterInfos := [] } = .error Fault.emptyPainterList := by
  refine ⟨?_, doAirbrushing_cancelled _ rfl, ?_⟩
  · simp [endPaint, paintAt, twoSampleState, idleState]
  · apply finishStroke_not_cancelled _ _ rfl rfl
    · simp [twoSampleState, idleState, QPointF.isNull]
    · simp [twoSampleState, idleState, sampleAt]
    · norm_num [twoSampleState, idleState, sampleAt, QPointF.isNull, QPointF.divq, QPointF.sub]

end KisToolFreehandHelper

/-! ### KisCanvas -/

namespace KisCanvas

/-- Claim C18. `tabletEvent` normalises the pressure as raw/255 and emits exactly one event: a
left-button press iff pressure >= PRESSURE_THRESHOLD and the stored pressure is below it, a
left-button release iff pressure < PRESSURE_THRESHOLD and the stored pressure is not below it,
and a move in every other case; the event carries the normalised pressure, and afterwards the
stored pressure is the normalised pressure. -/
theorem tabletEvent_edges (τ : ℚ) (c : KisCanvas) (e : QTabletEvent) :
    ∃ ev, tabletEvent τ c e = (⟨(e.pressure : ℚ) / 255⟩, [ev]) ∧
      (ev.isPress = true ↔ (e.pressure : ℚ) / 255 ≥ τ ∧ c.m_lastPressure < τ) ∧
      (ev.isRelease = true ↔ (e.pressure : ℚ) / 255 < τ ∧ c.m_lastPressure ≥ τ) ∧
      (ev.isMove = true ↔
        ¬ ((e.pressure : ℚ) / 255 ≥ τ ∧ c.m_lastPressure < τ) ∧
        ¬ ((e.pressure : ℚ) / 255 < τ ∧ c.m_lastPressure ≥ τ)) ∧
      (ev.isPress = true → ev = KisEvent.buttonPress (inputDevice e.device) e.pos e.globalPos
        ((e.pressure : ℚ) / 255) e.xTilt e.yTilt ButtonState.LeftButton ButtonState.NoButton) ∧
      (ev.isRelease = true → ev = KisEvent.buttonRelease (inputDevice e.device) e.pos
        e.globalPos ((e.pressure : ℚ) / 255) e.xTilt e.yTilt ButtonState.LeftButton
        ButtonState.NoButton) ∧
      (ev.isMove = true → ev = KisEvent.move (inputDevice e.device) e.pos e.globalPos
        ((e.pressure : ℚ) / 255) e.xTilt e.yTilt ButtonState.NoButton) := by
  by_cases h1 : (e.pressure : ℚ) / 255 ≥ τ ∧ c.m_lastPressure < τ
  · refine ⟨KisEvent.buttonPress (inputDevice e.device) e.pos e.globalPos
      ((e.pressure : ℚ) / 255) e.xTilt e.yTilt ButtonState.LeftButton ButtonState.NoButton,
      by simp [tabletEvent, h1], ?_⟩
    have h2 : ¬ ((e.pressure : ℚ) / 255 < τ ∧ c.m_lastPressure ≥ τ) := fun h =>
      absurd h.1 (not_lt.2 h1.1)
    simp [KisEvent.isPress, KisEvent.isRelease, KisEvent.isMove, h1, h2]
  · by_cases h2 : (e.pressure : ℚ) / 255 < τ ∧ c.m_lastPressure ≥ τ
    · refine ⟨KisEvent.buttonRelease (inputDevice e.device) e.pos e.globalPos
        ((e.pressure : ℚ) / 255) e.xTilt e.yTilt ButtonState.LeftButton ButtonState.NoButton,
        by simp [tabletEvent, h1, h2], ?_⟩
      simp [KisEvent.isPress, KisEvent.isRelease, KisEvent.isMove, h1, h2]
    · refine ⟨KisEvent.move (inputDevice e.device) e.pos e.globalPos
        ((e.pressure : ℚ) / 255) e.xTilt e.yTilt ButtonState.NoButton,
        by simp [tabletEvent, h1, h2], ?_⟩
      simp [KisEvent.isPress, KisEvent.isRelease, KisEvent.isMove, h1, h2]

/-- Witness of C18: threshold 5/255, stored pressure 0, a stylus event with raw pressure 128:
a rising edge, so one left-button press with pressure 128/255. -/
theorem tabletEvent_edges_witness :
    tabletEvent (5 / 255) init ⟨TabletDevice.Stylus, (3, 4), (30, 40), 128, 0, 0⟩ =
      (⟨128 / 255⟩, [KisEvent.buttonPress enumInputDevice.INPUT_DEVICE_STYLUS (3, 4) (30, 40)
        (128 / 255) 0 0 ButtonState.LeftButton ButtonState.NoButton]) := by
  obtain ⟨ev, h, hp, _, _, he, _⟩ :=
    tabletEvent_edges (5 / 255) init ⟨TabletDevice.Stylus, (3, 4), (30, 40), 128, 0, 0⟩
  have hpress : ev.isPress = true := hp.2 (by norm_num [init])
  rw [h, he hpress]
  norm_num [inputDevice]

end KisCanvas

/-! ### The weighted smoothing kernel -/

namespace KisToolFreehandHelper

theorem accumulatedDistance_step (opts : KisSmoothingOptions)
    (history : List KisPaintInformation) (distanceHistory : List ℚ) (sigma : ℚ) (i : Nat)
    (hi : i < history.length) :
    accumulatedDistance opts history distanceHistory sigma i =
      accumulatedDistance opts history distanceHistory sigma (i + 1) +
        adjustedDistance opts history distanceHistory sigma i := by
  unfold accumulatedDistance
  rw [Finset.sum_eq_sum_Ico_succ_bot hi, add_comm]

/-- One step of the loop at an entry `i` that is not the newest one. -/
theorem smoothLoop_succ (qt : Qt) (opts : KisSmoothingOptions)
    (history : List KisPaintInformation) (distanceHistory : List ℚ) (sigma gw gw2 : ℚ)
    (hs : gw2 ≠ 0) (i : Nat) (acc : SmoothAcc) (hi : i + 1 < history.length) :
    smoothLoop qt opts history distanceHistory sigma gw gw2 (i + 1) acc =
      if ratioExceeds acc.baseRate
          (gw * qt.exp (-(acc.distanceSum +
              adjustedDistance opts history distanceHistory sigma i) *
            (acc.distanceSum + adjustedDistance opts history distanceHistory sigma i) /
            (2 * gw2))) 100 then
        { acc with
          distanceSum :=
            acc.distanceSum + adjustedDistance opts history distanceHistory sigma i }
      else
        smoothLoop qt opts history distanceHistory sigma gw gw2 i
          { distanceSum :=
              acc.distanceSum + adjustedDistance opts history distanceHistory sigma i
            scaleSum := acc.scaleSum + gw * qt.exp (-(acc.distanceSum +
                adjustedDistance opts history distanceHistory sigma i) *
              (acc.distanceSum + adjustedDistance opts history distanceHistory sigma i) /
              (2 * gw2))
            pressure :=
              if opts.smoothPressure then
                acc.pressure + gw * qt.exp (-(acc.distanceSum +
                    adjustedDistance opts history distanceHistory sigma i) *
                  (acc.distanceSum + adjustedDistance opts history distanceHistory sigma i) /
                  (2 * gw2)) * (history.getD i default).pressure
              else acc.pressure
            baseRate := acc.baseRate
            x := acc.x + gw * qt.exp (-(acc.distanceSum +
                adjustedDistance opts history distanceHistory sigma i) *
              (acc.distanceSum + adjustedDistance opts history distanceHistory sigma i) /
              (2 * gw2)) * (history.getD i default).pos.x
            y := acc.y + gw * qt.exp (-(acc.distanceSum +
                adjustedDistance opts history distanceHistory sigma i) *
              (acc.distanceSum + adjustedDistance opts history distanceHistory sigma i) /
              (2 * gw2)) * (history.getD i default).pos.y } := by
  have hnew : decide (history.length - i = 1) = false := by
    simp only [decide_eq_false_iff_not]
    omega
  rw [smoothLoop]
  simp only [ne_eq, hs, not_false_eq_true, if_true, hnew, Bool.false_eq_true, if_false,
    Bool.not_false, Bool.true_and]

/-- The loop below the newest entry: from index `k` down it adds the weighted entries of
`visitedBelow` to the sums and keeps `baseRate`. -/
theorem smoothLoop_below (qt : Qt) (opts : KisSmoothingOptions)
    (history : List KisPaintInformation) (distanceHistory : List ℚ) (sigma : ℚ)
    (hs : sigma * sigma ≠ 0) :
    ∀ (k : Nat) (acc : SmoothAcc), k < history.length →
      acc.distanceSum = accumulatedDistance opts history distanceHistory sigma k →
      (smoothLoop qt opts history distanceHistory sigma (1 / (qt.sqrt (2 * M_PI) * sigma))
          (sigma * sigma) k acc).scaleSum =
        acc.scaleSum + ((visitedBelow (kernelWeight qt opts history distanceHistory sigma)
          acc.baseRate k).map (kernelWeight qt opts history distanceHistory sigma)).sum ∧
      (smoothLoop qt opts history distanceHistory sigma (1 / (qt.sqrt (2 * M_PI) * sigma))
          (sigma * sigma) k acc).x =
        acc.x + ((visitedBelow (kernelWeight qt opts history distanceHistory sigma)
          acc.baseRate k).map (fun i => kernelWeight qt opts history distanceHistory sigma i *
            (history.getD i default).pos.x)).sum ∧
      (smoothLoop qt opts history distanceHistory sigma (1 / (qt.sqrt (2 * M_PI) * sigma))
          (sigma * sigma) k acc).y =
        acc.y + ((visitedBelow (kernelWeight qt opts history distanceHistory sigma)
          acc.baseRate k).map (fun i => kernelWeight qt opts history distanceHistory sigma i *
            (history.getD i default).pos.y)).sum ∧
      (smoothLoop qt opts history distanceHistory sigma (1 / (qt.sqrt (2 * M_PI) * sigma))
          (sigma * sigma) k acc).pressure =
        (if opts.smoothPressure then
          acc.pressure + ((visitedBelow (kernelWeight qt opts history distanceHistory sigma)
            acc.baseRate k).map (fun i => kernelWeight qt opts history distanceHistory sigma i *
              (history.getD i default).pressure)).sum
        else acc.pressure) ∧
      (smoothLoop qt opts history distanceHistory sigma (1 / (qt.sqrt (2 * M_PI) * sigma))
          (sigma * sigma) k acc).baseRate = acc.baseRate := by
  intro k
  induction k with
  | zero =>
    intro acc _ _
    simp [smoothLoop, visitedBelow]
  | succ i ih =>
    intro acc hk hd
    have hi : i < history.length := by omega
    have hD : acc.distanceSum + adjustedDistance opts history distanceHistory sigma i =
        accumulatedDistance opts history distanceHistory sigma i := by
      rw [hd, accumulatedDistance_step opts history distanceHistory sigma i hi]
    rw [smoothLoop_succ qt opts history distanceHistory sigma _ _ hs i acc hk, hD]
    have hw : 1 / (qt.sqrt (2 * M_PI) * sigma) *
        qt.exp (-(accumulatedDistance opts history distanceHistory sigma i) *
          (accumulatedDistance opts history distanceHistory sigma i) / (2 * (sigma * sigma))) =
        kernelWeight qt opts history distanceHistory sigma i := rfl
    rw [hw]
    by_cases hbrk : ratioExceeds acc.baseRate
        (kernelWeight qt opts history distanceHistory sigma i) 100 = true
    · simp only [hbrk, if_true, visitedBelow, List.map_nil, List.sum_nil, add_zero]
      refine ⟨trivial, trivial, trivial, ?_, trivial⟩
      split_ifs <;> rfl
    · have hbrk2 : ratioExceeds acc.baseRate
          (kernelWeight qt opts history distanceHistory sigma i) 100 = false := by
        simpa using hbrk
      simp only [hbrk2, Bool.false_eq_true, if_false, visitedBelow, List.map_cons,
        List.sum_cons]
      obtain ⟨h1, h2, h3, h4, h5⟩ := ih
        { distanceSum := accumulatedDistance opts history distanceHistory sigma i
          scaleSum := acc.scaleSum + kernelWeight qt opts history distanceHistory sigma i
          pressure :=
            if opts.smoothPressure then
              acc.pressure + kernelWeight qt opts history distanceHistory sigma i *
                (history.getD i default).pressure
            else acc.pressure
          baseRate := acc.baseRate
          x := acc.x + kernelWeight qt opts history distanceHistory sigma i *
            (history.getD i default).pos.x
          y := acc.y + kernelWeight qt opts history distanceHistory sigma i *
            (history.getD i default).pos.y } hi rfl
      rw [h1, h2, h3, h4, h5]
      refine ⟨by ring, by ring, by ring, ?_, rfl⟩
      split_ifs <;> ring

/-- The whole loop, started with all variables 0, on a non-empty history: the sums run over
`kernelIndices`, and `baseRate` is the weight of the newest entry. -/
theorem smoothLoop_full (qt : Qt) (opts : KisSmoothingOptions)
    (history : List KisPaintInformation) (distanceHistory : List ℚ) (sigma : ℚ)
    (hs : sigma * sigma ≠ 0) (m : Nat) (hm : history.length = m + 1) :
    (smoothLoop qt opts history distanceHistory sigma (1 / (qt.sqrt (2 * M_PI) * sigma))
        (sigma * sigma) history.length ⟨0, 0, 0, 0, 0, 0⟩).scaleSum =
      ((kernelIndices (kernelWeight qt opts history distanceHistory sigma) history.length).map
        (kernelWeight qt opts history distanceHistory sigma)).sum ∧
    (smoothLoop qt opts history distanceHistory sigma (1 / (qt.sqrt (2 * M_PI) * sigma))
        (sigma * sigma) history.length ⟨0, 0, 0, 0, 0, 0⟩).x =
      ((kernelIndices (kernelWeight qt opts history distanceHistory sigma) history.length).map
        (fun i => kernelWeight qt opts history distanceHistory sigma i *
          (history.getD i default).pos.x)).sum ∧
    (smoothLoop qt opts history distanceHistory sigma (1 / (qt.sqrt (2 * M_PI) * sigma))
        (sigma * sigma) history.length ⟨0, 0, 0, 0, 0, 0⟩).y =
      ((kernelIndices (kernelWeight qt opts history distanceHistory sigma) history.length).map
        (fun i => kernelWeight qt opts history distanceHistory sigma i *
          (history.getD i default).pos.y)).sum ∧
    (smoothLoop qt opts history distanceHistory sigma (1 / (qt.sqrt (2 * M_PI) * sigma))
        (sigma * sigma) history.length ⟨0, 0, 0, 0, 0, 0⟩).pressure =
      (if opts.smoothPressure then
        ((kernelIndices (kernelWeight qt opts history distanceHistory sigma)
          history.length).map
          (fun i => kernelWeight qt opts history distanceHistory sigma i *
            (history.getD i default).pressure)).sum
      else 0) ∧
    (smoothLoop qt opts history distanceHistory sigma (1 / (qt.sqrt (2 * M_PI) * sigma))
        (sigma * sigma) history.length ⟨0, 0, 0, 0, 0, 0⟩).baseRate =
      kernelWeight qt opts history distanceHistory sigma (history.length - 1) := by
  have hD : (0 : ℚ) + adjustedDistance opts history distanceHistory sigma m =
      accumulatedDistance opts history distanceHistory sigma m := by
    have := accumulatedDistance_step opts history distanceHistory sigma m (by omega)
    rw [this]
    simp [accumulatedDistance, hm]
  have hnew : decide (history.length - m = 1) = true := by
    simp only [decide_eq_true_eq]
    omega
  have hw : 1 / (qt.sqrt (2 * M_PI) * sigma) *
      qt.exp (-(accumulatedDistance opts history distanceHistory sigma m) *
        (accumulatedDistance opts history distanceHistory sigma m) / (2 * (sigma * sigma))) =
      kernelWeight qt opts history distanceHistory sigma m := rfl
  have hstep : smoothLoop qt opts history distanceHistory sigma
      (1 / (qt.sqrt (2 * M_PI) * sigma)) (sigma * sigma) (m + 1) ⟨0, 0, 0, 0, 0, 0⟩ =
      smoothLoop qt opts history distanceHistory sigma
        (1 / (qt.sqrt (2 * M_PI) * sigma)) (sigma * sigma) m
        { distanceSum := accumulatedDistance opts history distanceHistory sigma m
          scaleSum := 0 + kernelWeight qt opts history distanceHistory sigma m
          pressure :=
            if opts.smoothPressure then
              0 + kernelWeight qt opts history distanceHistory sigma m *
                (history.getD m default).pressure
            else 0
          baseRate := kernelWeight qt opts history distanceHistory sigma m
          x := 0 + kernelWeight qt opts history distanceHistory sigma m *
            (history.getD m default).pos.x
          y := 0 + kernelWeight qt opts history distanceHistory sigma m *
            (history.getD m default).pos.y } := by
    rw [smoothLoop]
    simp only [ne_eq, hs, not_false_eq_true, if_true, hnew, Bool.not_true, Bool.false_and,
      Bool.false_eq_true, if_false, hD, hw]
  obtain ⟨h1, h2, h3, h4, h5⟩ := smoothLoop_below qt opts history distanceHistory sigma hs m
    { distanceSum := accumulatedDistance opts history distanceHistory sigma m
      scaleSum := 0 + kernelWeight qt opts history distanceHistory sigma m
      pressure :=
        if opts.smoothPressure then
          0 + kernelWeight qt opts history distanceHistory sigma m *
            (history.getD m default).pressure
        else 0
      baseRate := kernelWeight qt opts history distanceHistory sigma m
      x := 0 + kernelWeight qt opts history distanceHistory sigma m *
        (history.getD m default).pos.x
      y := 0 + kernelWeight qt opts history distanceHistory sigma m *
        (history.getD m default).pos.y } (by omega) rfl
  rw [hm, hstep, h1, h2, h3, h4, h5]
  simp only [kernelIndices, List.map_cons, List.sum_cons, zero_add, Nat.add_sub_cancel]
  refine ⟨trivial, trivial, trivial, ?_, trivial⟩
  split_ifs <;> simp

theorem kernelWeight_eq_formula (qt : Qt) (opts : KisSmoothingOptions)
    (history : List KisPaintInformation) (distanceHistory : List ℚ) (sigma : ℚ) :
    kernelWeight qt opts history distanceHistory sigma =
      fun i => kernelFormula qt sigma (accumulatedDistance opts history distanceHistory sigma i) := by
  funext i
  unfold kernelWeight kernelFormula
  congr 2
  · ring
  · ring

theorem ratioExceeds_iff (a b : ℚ) (hb : 0 < b) :
    ratioExceeds a b 100 = true ↔ b < a / 100 := by
  have hb0 : b ≠ 0 := ne_of_gt hb
  simp only [ratioExceeds, hb0, if_false, decide_eq_true_eq, gt_iff_lt]
  rw [lt_div_iff₀ hb, lt_div_iff₀ (by norm_num : (0 : ℚ) < 100)]
  constructor <;> intro h <;> linarith

/-- The values `smoothedValues` returns, in closed form. -/
theorem smoothedValues_closed (qt : Qt) (opts : KisSmoothingOptions)
    (history : List KisPaintInformation) (distanceHistory : List ℚ)
    (hd : opts.smoothnessDistance ≠ 0) (hh : history ≠ [])
    (hS : kernelScale qt opts history distanceHistory (opts.smoothnessDistance / 3) ≠ 0) :
    ((smoothedValues qt opts history distanceHistory).1,
        (smoothedValues qt opts history distanceHistory).2.1) =
      kernelMean qt opts history distanceHistory (opts.smoothnessDistance / 3) := by
  have hs : opts.smoothnessDistance / 3 * (opts.smoothnessDistance / 3) ≠ 0 := by
    have : opts.smoothnessDistance / 3 ≠ 0 := div_ne_zero hd (by norm_num)
    exact mul_ne_zero this this
  obtain ⟨m, hm⟩ : ∃ m, history.length = m + 1 :=
    ⟨history.length - 1, by
      have := List.length_pos.2 hh
      omega⟩
  obtain ⟨h1, h2, h3, _, _⟩ := smoothLoop_full qt opts history distanceHistory
    (opts.smoothnessDistance / 3) hs m hm
  rw [kernelWeight_eq_formula] at h1 h2 h3
  have hS2 : (smoothLoop qt opts history distanceHistory (opts.smoothnessDistance / 3)
      (1 / (qt.sqrt (2 * M_PI) * (opts.smoothnessDistance / 3)))
      (opts.smoothnessDistance / 3 * (opts.smoothnessDistance / 3)) history.length
      ⟨0, 0, 0, 0, 0, 0⟩).scaleSum ≠ 0 := by
    rw [h1]
    exact hS
  simp only [smoothedValues, ne_eq, hS2, not_false_eq_true, if_true, kernelMean]
  rw [h1, h2, h3]

end KisToolFreehandHelper

theorem ratSqrt_pos (q : ℚ) (hq : 0 < q) : 0 < ratSqrt q := by
  unfold ratSqrt
  rw [if_neg (not_le.2 hq)]
  have hn : 0 < q.num.natAbs := Int.natAbs_pos.2 (ne_of_gt (Rat.num_pos.2 hq))
  have hs : 0 < Nat.sqrt (q.num.natAbs * q.den) := Nat.sqrt_pos.2 (Nat.mul_pos hn q.den_pos)
  have hd : (0 : ℚ) < (q.den : ℚ) := by exact_mod_cast q.den_pos
  have hs2 : (0 : ℚ) < (Nat.sqrt (q.num.natAbs * q.den) : ℚ) := by exact_mod_cast hs
  exact div_pos hs2 hd

theorem sqrt_two_pi_pos : 0 < Qt.exact.sqrt (2 * M_PI) :=
  ratSqrt_pos _ (by norm_num [M_PI])

namespace KisToolFreehandHelper

theorem ratioExceeds_scale (K a b bound : ℚ) (hK : 0 < K) :
    ratioExceeds (K * a) (K * b) bound = ratioExceeds a b bound := by
  unfold ratioExceeds
  by_cases hb : b = 0
  · subst hb
    simp [mul_pos_iff_of_pos_left hK]
  · have hKb : K * b ≠ 0 := mul_ne_zero (ne_of_gt hK) hb
    rw [if_neg hb, if_neg hKb, mul_div_mul_left _ _ (ne_of_gt hK)]

theorem sum_four (a b c d : ℚ) : [a, b, c, d].sum = a + (b + (c + (d + 0))) := by
  simp only [List.sum_cons, List.sum_nil]

theorem accumulatedDistance_four (opts : KisSmoothingOptions) (x0 y0 x1 y1 x2 y2 x3 y3 : ℚ)
    (t0 t1 t2 t3 : Int) (δ s : ℚ) :
    accumulatedDistance opts [sampleAt x0 y0 t0, sampleAt x1 y1 t1, sampleAt x2 y2 t2,
      sampleAt x3 y3 t3] [δ, δ, δ, δ] s 3 = δ ∧
    accumulatedDistance opts [sampleAt x0 y0 t0, sampleAt x1 y1 t1, sampleAt x2 y2 t2,
      sampleAt x3 y3 t3] [δ, δ, δ, δ] s 2 = 2 * δ ∧
    accumulatedDistance opts [sampleAt x0 y0 t0, sampleAt x1 y1 t1, sampleAt x2 y2 t2,
      sampleAt x3 y3 t3] [δ, δ, δ, δ] s 1 = 3 * δ ∧
    accumulatedDistance opts [sampleAt x0 y0 t0, sampleAt x1 y1 t1, sampleAt x2 y2 t2,
      sampleAt x3 y3 t3] [δ, δ, δ, δ] s 0 = 4 * δ := by
  refine ⟨?_, ?_, ?_, ?_⟩ <;>
  simp [accumulatedDistance, Finset.sum_Ico_eq_sum_range, Finset.sum_range_succ,
    adjustedDistance, sampleAt] <;> ring

/-- The weighted mean and the sum of the weights for four samples at full pressure whose
distances are all δ, with the library instance `Qt.exact`: e1 .. e4 are the values of the
exponential for the newest entry back to the oldest one, none of which breaks the loop. -/
theorem kernelMean_four (opts : KisSmoothingOptions) (x0 y0 x1 y1 x2 y2 x3 y3 : ℚ)
    (t0 t1 t2 t3 : Int) (δ s e1 e2 e3 e4 : ℚ) (hs : 0 < s)
    (h1 : ratExp (-(δ ^ 2) / (2 * s ^ 2)) = e1)
    (h2 : ratExp (-((2 * δ) ^ 2) / (2 * s ^ 2)) = e2)
    (h3 : ratExp (-((3 * δ) ^ 2) / (2 * s ^ 2)) = e3)
    (h4 : ratExp (-((4 * δ) ^ 2) / (2 * s ^ 2)) = e4)
    (r2 : ratioExceeds e1 e2 100 = false) (r3 : ratioExceeds e1 e3 100 = false)
    (r4 : ratioExceeds e1 e4 100 = false) :
    kernelMean Qt.exact opts [sampleAt x0 y0 t0, sampleAt x1 y1 t1, sampleAt x2 y2 t2,
        sampleAt x3 y3 t3] [δ, δ, δ, δ] s =
      ((e1 * x3 + e2 * x2 + e3 * x1 + e4 * x0) / (e1 + e2 + e3 + e4),
        (e1 * y3 + e2 * y2 + e3 * y1 + e4 * y0) / (e1 + e2 + e3 + e4)) ∧
    kernelScale Qt.exact opts [sampleAt x0 y0 t0, sampleAt x1 y1 t1, sampleAt x2 y2 t2,
        sampleAt x3 y3 t3] [δ, δ, δ, δ] s =
      1 / (s * Qt.exact.sqrt (2 * M_PI)) * (e1 + e2 + e3 + e4) := by
  obtain ⟨a3, a2, a1, a0⟩ := accumulatedDistance_four opts x0 y0 x1 y1 x2 y2 x3 y3 t0 t1 t2 t3 δ s
  have hc := sqrt_two_pi_pos
  have hexp : Qt.exact.exp = ratExp := rfl
  have hlen : [sampleAt x0 y0 t0, sampleAt x1 y1 t1, sampleAt x2 y2 t2,
      sampleAt x3 y3 t3].length = 4 := rfl
  simp only [kernelMean, kernelScale, kernelIndices, visitedBelow, kernelFormula, hlen,
    a3, a2, a1, a0, hexp, h1, h2, h3, h4]
  generalize Qt.exact.sqrt (2 * M_PI) = c at hc
  have hK : 0 < 1 / (s * c) := by positivity
  have hK0 : 1 / (s * c) ≠ 0 := ne_of_gt hK
  simp only [ratioExceeds_scale _ _ _ _ hK, r2, r3, r4, Bool.false_eq_true, if_false]
  simp only [List.map_cons, List.map_nil]
  simp only [a3, a2, a1, a0, h1, h2, h3, h4]
  generalize 1 / (s * c) = K at hK hK0
  simp only [sampleAt, List.getD_cons_zero, List.getD_cons_succ]
  rw [sum_four, sum_four, sum_four]
  have hden : K * e1 + (K * e2 + (K * e3 + (K * e4 + 0))) = K * (e1 + e2 + e3 + e4) := by ring
  have hx : K * e1 * x3 + (K * e2 * x2 + (K * e3 * x1 + (K * e4 * x0 + 0))) =
      K * (e1 * x3 + e2 * x2 + e3 * x1 + e4 * x0) := by ring
  have hy : K * e1 * y3 + (K * e2 * y2 + (K * e3 * y1 + (K * e4 * y0 + 0))) =
      K * (e1 * y3 + e2 * y2 + e3 * y1 + e4 * y0) := by ring
  rw [hden, hx, hy, mul_div_mul_left _ _ hK0, mul_div_mul_left _ _ hK0]
  exact ⟨rfl, rfl⟩

theorem ratExp_values :
    ratExp (-(5 ^ 2) / (2 * 5 ^ 2)) = 8 / 13 ∧ ratExp (-((2 * 5) ^ 2) / (2 * 5 ^ 2)) = 1 / 5 ∧
    ratExp (-((3 * 5) ^ 2) / (2 * 5 ^ 2)) = 8 / 125 ∧
    ratExp (-((4 * 5) ^ 2) / (2 * 5 ^ 2)) = 1 / 41 ∧
    ratExp (-(5 ^ 2) / (2 * 15 ^ 2)) = 648 / 685 ∧
    ratExp (-((2 * 5) ^ 2) / (2 * 15 ^ 2)) = 81 / 101 ∧
    ratExp (-((3 * 5) ^ 2) / (2 * 15 ^ 2)) = 8 / 13 ∧
    ratExp (-((4 * 5) ^ 2) / (2 * 15 ^ 2)) = 81 / 185 ∧
    ratExp (-(1 ^ 2) / (2 * 1 ^ 2)) = 8 / 13 ∧ ratExp (-((2 * 1) ^ 2) / (2 * 1 ^ 2)) = 1 / 5 ∧
    ratExp (-((3 * 1) ^ 2) / (2 * 1 ^ 2)) = 8 / 125 ∧
    ratExp (-((4 * 1) ^ 2) / (2 * 1 ^ 2)) = 1 / 41 := by
  refine ⟨?_, ?_, ?_, ?_, ?_, ?_, ?_, ?_, ?_, ?_, ?_, ?_⟩ <;> norm_num [ratExp]

theorem ratioExceeds_values :
    ratioExceeds (8 / 13 : ℚ) (1 / 5) 100 = false ∧
    ratioExceeds (8 / 13 : ℚ) (8 / 125) 100 = false ∧
    ratioExceeds (8 / 13 : ℚ) (1 / 41) 100 = false ∧
    ratioExceeds (648 / 685 : ℚ) (81 / 101) 100 = false ∧
    ratioExceeds (648 / 685 : ℚ) (8 / 13) 100 = false ∧
    ratioExceeds (648 / 685 : ℚ) (81 / 185) 100 = false := by
  refine ⟨?_, ?_, ?_, ?_, ?_, ?_⟩ <;> norm_num [ratioExceeds]

/-- The kernel on `diagonalHistory` for the parameter 5, a third of the distance 15. -/
theorem diagonal_kernel_third (d : ℚ) :
    kernelMean Qt.exact (weightedOptions d) diagonalHistory [5, 5, 5, 5] 5 =
      (321192 / 30107, 428256 / 30107) ∧
    kernelScale Qt.exact (weightedOptions d) diagonalHistory [5, 5, 5, 5] 5 ≠ 0 := by
  obtain ⟨e1, e2, e3, e4, -⟩ := ratExp_values
  obtain ⟨r2, r3, r4, -⟩ := ratioExceeds_values
  obtain ⟨hm, hk⟩ := kernelMean_four (weightedOptions d) 3 4 6 8 9 12 12 16 1 2 3 4 5 5 _ _ _ _
    (by norm_num) e1 e2 e3 e4 r2 r3 r4
  refine ⟨?_, ?_⟩
  · rw [diagonalHistory, hm]
    norm_num
  · rw [diagonalHistory, hk]
    have hc := sqrt_two_pi_pos
    have : 0 < 1 / (5 * Qt.exact.sqrt (2 * M_PI)) * (8 / 13 + 1 / 5 + 8 / 125 + 1 / 41) := by
      positivity
    exact ne_of_gt this

/-- The kernel on `diagonalHistory` for the parameter 15, the distance itself. -/
theorem diagonal_kernel_distance (d : ℚ) :
    kernelMean Qt.exact (weightedOptions d) diagonalHistory [5, 5, 5, 5] 15 =
      (392272032 / 46608947, 523029376 / 46608947) := by
  obtain ⟨-, -, -, -, e1, e2, e3, e4, -⟩ := ratExp_values
  obtain ⟨-, -, -, r2, r3, r4⟩ := ratioExceeds_values
  obtain ⟨hm, -⟩ := kernelMean_four (weightedOptions d) 3 4 6 8 9 12 12 16 1 2 3 4 5 15 _ _ _ _
    (by norm_num) e1 e2 e3 e4 r2 r3 r4
  rw [diagonalHistory, hm]
  norm_num

/-- Claim C16 as amended.  On a non-empty history (more than three entries in `paint`) and with
smoothness distance d ≠ 0, the loop of the weighted smoothing uses, for entry i, the weight
(1/(s*sqrt(2*pi))) * exp(-D_i^2/(2*s^2)) with s = d/3, one third of the configured distance,
D_i being the sum of the adjusted distances from the newest entry back to entry i: `baseRate`
is that weight for the newest entry and `scaleSum` the sum of the weights over the entries
from the newest one back to, and excluding, the first one with baseRate / w_i > 100 (for a
positive weight: w_i below 1/100 of the newest weight); when that sum is not zero the smoothed
position is the sum of w_i*pos_i over these entries divided by it. -/
theorem weighted_kernel (qt : Qt) (opts : KisSmoothingOptions)
    (history : List KisPaintInformation) (distanceHistory : List ℚ)
    (hd : opts.smoothnessDistance ≠ 0) (hh : history ≠ []) :
    (smoothAccumulators qt opts history distanceHistory).baseRate =
      kernelFormula qt (opts.smoothnessDistance / 3)
        (accumulatedDistance opts history distanceHistory (opts.smoothnessDistance / 3)
          (history.length - 1)) ∧
    (smoothAccumulators qt opts history distanceHistory).scaleSum =
      kernelScale qt opts history distanceHistory (opts.smoothnessDistance / 3) ∧
    (kernelScale qt opts history distanceHistory (opts.smoothnessDistance / 3) ≠ 0 →
      ((smoothedValues qt opts history distanceHistory).1,
          (smoothedValues qt opts history distanceHistory).2.1) =
        kernelMean qt opts history distanceHistory (opts.smoothnessDistance / 3)) ∧
    (∀ a b : ℚ, 0 < b → (ratioExceeds a b 100 = true ↔ b < a / 100)) := by
  have hs : opts.smoothnessDistance / 3 * (opts.smoothnessDistance / 3) ≠ 0 := by
    have : opts.smoothnessDistance / 3 ≠ 0 := div_ne_zero hd (by norm_num)
    exact mul_ne_zero this this
  obtain ⟨m, hm⟩ : ∃ m, history.length = m + 1 :=
    ⟨history.length - 1, by
      have := List.length_pos.2 hh
      omega⟩
  obtain ⟨h1, _, _, _, h5⟩ := smoothLoop_full qt opts history distanceHistory
    (opts.smoothnessDistance / 3) hs m hm
  rw [kernelWeight_eq_formula] at h1 h5
  exact ⟨h5, h1, fun hS => smoothedValues_closed qt opts history distanceHistory hd hh hS,
    fun a b hb => ratioExceeds_iff a b hb⟩

/-- Witness of C16 as amended: smoothness distance 15 and the four samples (3,4), (6,8), (9,12),
(12,16), a step of 5 apart.  The kernel parameter is 5; the exponential takes the values 8/13,
1/5, 8/125 and 1/41, no entry breaks the loop, and the smoothed position is
(321192/30107, 428256/30107). -/
theorem weighted_kernel_witness :
    (weightedOptions 15).smoothnessDistance ≠ 0 ∧ diagonalHistory ≠ [] ∧
    kernelScale Qt.exact (weightedOptions 15) diagonalHistory [5, 5, 5, 5] 5 ≠ 0 ∧
    ((smoothedValues Qt.exact (weightedOptions 15) diagonalHistory [5, 5, 5, 5]).1,
        (smoothedValues Qt.exact (weightedOptions 15) diagonalHistory [5, 5, 5, 5]).2.1) =
      (321192 / 30107, 428256 / 30107) := by
  have h1 : (weightedOptions 15).smoothnessDistance ≠ 0 := by norm_num [weightedOptions]
  have h2 : diagonalHistory ≠ [] := by simp [diagonalHistory]
  have e : (weightedOptions 15).smoothnessDistance / 3 = 5 := by norm_num [weightedOptions]
  have h := (weighted_kernel Qt.exact (weightedOptions 15) diagonalHistory [5, 5, 5, 5]
    h1 h2).2.2.1
  rw [e] at h
  obtain ⟨hm, hk⟩ := diagonal_kernel_third 15
  exact ⟨h1, h2, hk, (h hk).trans hm⟩

/-- Counterexample to C16 as stated: with the configured smoothness distance 15 and the history
(3,4), (6,8), (9,12), (12,16) the code computes the position (321192/30107, 428256/30107),
about (10.67, 14.22), the mean for the kernel parameter 5; the formula with s = 15, the
configured distance, gives (392272032/46608947, 523029376/46608947), about (8.42, 11.22). -/
theorem weighted_kernel_not_distance :
    ((smoothedValues Qt.exact (weightedOptions 15) diagonalHistory [5, 5, 5, 5]).1,
        (smoothedValues Qt.exact (weightedOptions 15) diagonalHistory [5, 5, 5, 5]).2.1) =
      (321192 / 30107, 428256 / 30107) ∧
    kernelMean Qt.exact (weightedOptions 15) diagonalHistory [5, 5, 5, 5]
        (weightedOptions 15).smoothnessDistance =
      (392272032 / 46608947, 523029376 / 46608947) ∧
    ((smoothedValues Qt.exact (weightedOptions 15) diagonalHistory [5, 5, 5, 5]).1,
        (smoothedValues Qt.exact (weightedOptions 15) diagonalHistory [5, 5, 5, 5]).2.1) ≠
      kernelMean Qt.exact (weightedOptions 15) diagonalHistory [5, 5, 5, 5]
        (weightedOptions 15).smoothnessDistance := by
  have h1 : (weightedOptions 15).smoothnessDistance ≠ 0 := by norm_num [weightedOptions]
  have h2 : diagonalHistory ≠ [] := by simp [diagonalHistory]
  have e : (weightedOptions 15).smoothnessDistance / 3 = 5 := by norm_num [weightedOptions]
  have e15 : (weightedOptions 15).smoothnessDistance = 15 := rfl
  obtain ⟨hm, hk⟩ := diagonal_kernel_third 15
  have hcode := smoothedValues_closed Qt.exact (weightedOptions 15) diagonalHistory [5, 5, 5, 5]
    h1 h2 (by rw [e]; exact hk)
  rw [e, hm] at hcode
  have hspec := diagonal_kernel_distance 15
  rw [e15]
  refine ⟨hcode, hspec, ?_⟩
  rw [hcode, hspec]
  norm_num

/-! ### The rewrite of the sample by the weighted smoothing -/

theorem weightedSmoothing_short (qt : Qt) (d : Private) (info : KisPaintInformation)
    (h : (appendedHistory d info).length ≤ 3) :
    weightedSmoothing qt d info =
      ({ d with history := appendedHistory d info
                distanceHistory := appendedDistanceHistory qt d info }, info) := by
  have hn : ¬ (d.history ++ [info]).length > 3 := by
    simpa [appendedHistory] using h
  simp only [weightedSmoothing, hn, if_false, appendedHistory, appendedDistanceHistory]

theorem weightedSmoothing_long (qt : Qt) (d : Private) (info : KisPaintInformation)
    (h : 3 < (appendedHistory d info).length) :
    weightedSmoothing qt d info =
      if ((smoothedValues qt d.smoothingOptions (appendedHistory d info)
            (appendedDistanceHistory qt d info)).1 ≠ 0 ∧
          (smoothedValues qt d.smoothingOptions (appendedHistory d info)
            (appendedDistanceHistory qt d info)).2.1 ≠ 0) ∨
        ((smoothedValues qt d.smoothingOptions (appendedHistory d info)
            (appendedDistanceHistory qt d info)).1 = info.pos.x ∧
          (smoothedValues qt d.smoothingOptions (appendedHistory d info)
            (appendedDistanceHistory qt d info)).2.1 = info.pos.y) then
        ({ d with
            history := d.history ++
              [{ info with
                  pos := ⟨(smoothedValues qt d.smoothingOptions (appendedHistory d info)
                      (appendedDistanceHistory qt d info)).1,
                    (smoothedValues qt d.smoothingOptions (appendedHistory d info)
                      (appendedDistanceHistory qt d info)).2.1⟩
                  pressure :=
                    if d.smoothingOptions.smoothPressure then
                      (smoothedValues qt d.smoothingOptions (appendedHistory d info)
                        (appendedDistanceHistory qt d info)).2.2
                    else info.pressure }]
            distanceHistory := appendedDistanceHistory qt d info },
          { info with
            pos := ⟨(smoothedValues qt d.smoothingOptions (appendedHistory d info)
                (appendedDistanceHistory qt d info)).1,
              (smoothedValues qt d.smoothingOptions (appendedHistory d info)
                (appendedDistanceHistory qt d info)).2.1⟩
            pressure :=
              if d.smoothingOptions.smoothPressure then
                (smoothedValues qt d.smoothingOptions (appendedHistory d info)
                  (appendedDistanceHistory qt d info)).2.2
              else info.pressure })
      else
        ({ d with history := appendedHistory d info
                  distanceHistory := appendedDistanceHistory qt d info }, info) := by
  have hn : (d.history ++ [info]).length > 3 := by
    simpa [appendedHistory] using h
  simp only [weightedSmoothing, hn, if_true, appendedHistory, appendedDistanceHistory,
    List.dropLast_concat]
  split_ifs <;> rfl

theorem smoothAccumulators_closed (qt : Qt) (opts : KisSmoothingOptions)
    (history : List KisPaintInformation) (distanceHistory : List ℚ)
    (hd : opts.smoothnessDistance ≠ 0) (hh : history ≠ []) :
    (smoothAccumulators qt opts history distanceHistory).baseRate =
      kernelFormula qt (opts.smoothnessDistance / 3)
        (accumulatedDistance opts history distanceHistory (opts.smoothnessDistance / 3)
          (history.length - 1)) ∧
    (smoothAccumulators qt opts history distanceHistory).scaleSum =
      kernelScale qt opts history distanceHistory (opts.smoothnessDistance / 3) := by
  have hs : opts.smoothnessDistance / 3 * (opts.smoothnessDistance / 3) ≠ 0 := by
    have : opts.smoothnessDistance / 3 ≠ 0 := div_ne_zero hd (by norm_num)
    exact mul_ne_zero this this
  obtain ⟨m, hm⟩ : ∃ m, history.length = m + 1 :=
    ⟨history.length - 1, by
      have := List.length_pos.2 hh
      omega⟩
  obtain ⟨h1, _, _, _, h5⟩ := smoothLoop_full qt opts history distanceHistory
    (opts.smoothnessDistance / 3) hs m hm
  rw [kernelWeight_eq_formula] at h1 h5
  exact ⟨h5, h1⟩

theorem triple_eta (t : ℚ × ℚ × ℚ) : t = (t.1, t.2.1, t.2.2) := rfl

theorem ratSqrt_twentyfive : ratSqrt 25 = 5 := by
  have h : Nat.sqrt 25 = 5 := by norm_num
  simp [ratSqrt, h]

theorem appended_diagonal :
    appendedHistory diagonalStroke (sampleAt 12 16 4) = diagonalHistory ∧
    appendedDistanceHistory Qt.exact diagonalStroke (sampleAt 12 16 4) = [5, 5, 5, 5] := by
  refine ⟨rfl, ?_⟩
  simp [appendedDistanceHistory, diagonalStroke, idleState, sampleAt, Qt.exact, QPointF.sub]
  norm_num [ratSqrt_twentyfive]

theorem appended_axis :
    appendedHistory axisStroke (sampleAt 4 0 4) = axisHistory ∧
    appendedDistanceHistory Qt.exact axisStroke (sampleAt 4 0 4) = [1, 1, 1, 1] := by
  refine ⟨rfl, ?_⟩
  simp [appendedDistanceHistory, axisStroke, idleState, sampleAt, Qt.exact, QPointF.sub]
  norm_num [ratSqrt_one]

/-- The kernel on `axisHistory` for the parameter 1, a third of the distance 3. -/
theorem axis_kernel (d : ℚ) :
    kernelMean Qt.exact (weightedOptions d) axisHistory [1, 1, 1, 1] 1 = (107064 / 30107, 0) ∧
    kernelScale Qt.exact (weightedOptions d) axisHistory [1, 1, 1, 1] 1 ≠ 0 := by
  obtain ⟨-, -, -, -, -, -, -, -, e1, e2, e3, e4⟩ := ratExp_values
  obtain ⟨r2, r3, r4, -⟩ := ratioExceeds_values
  obtain ⟨hm, hk⟩ := kernelMean_four (weightedOptions d) 1 0 2 0 3 0 4 0 1 2 3 4 1 1 _ _ _ _
    (by norm_num) e1 e2 e3 e4 r2 r3 r4
  refine ⟨?_, ?_⟩
  · rw [axisHistory, hm]
    norm_num
  · rw [axisHistory, hk]
    have hc := sqrt_two_pi_pos
    have : 0 < 1 / (1 * Qt.exact.sqrt (2 * M_PI)) * (8 / 13 + 1 / 5 + 8 / 125 + 1 / 41) := by
      positivity
    exact ne_of_gt this

/-- Claim C15 as amended.  In weighted mode with smoothness distance > 0, with (x, y, p) the
smoothed values computed from the histories after the two appends: while the history holds at
most 3 entries after the append, the smoothing passes the sample on unchanged; once it holds
more than 3, the sample is rewritten (position (x, y), and pressure p when smoothPressure is
set) and the last history entry overwritten with it exactly when x and y are both non-zero or
(x, y) is the position of the sample; in every other case, which includes every smoothed
position with a zero coordinate that differs from the sample, the raw sample is retained. -/
theorem weighted_rewrite (qt : Qt) (d : Private) (info : KisPaintInformation) (x y p : ℚ)
    (hw : d.smoothingOptions.smoothingType = SmoothingType.WEIGHTED_SMOOTHING)
    (hd : d.smoothingOptions.smoothnessDistance > 0)
    (hv : smoothedValues qt d.smoothingOptions (appendedHistory d info)
      (appendedDistanceHistory qt d info) = (x, y, p)) :
    ((appendedHistory d info).length ≤ 3 →
      smoothSample qt d info =
        ({ d with history := appendedHistory d info
                  distanceHistory := appendedDistanceHistory qt d info }, info)) ∧
    (3 < (appendedHistory d info).length →
      (x ≠ 0 ∧ y ≠ 0) ∨ (x = info.pos.x ∧ y = info.pos.y) →
      smoothSample qt d info =
        ({ d with
            history := d.history ++
              [{ info with
                  pos := ⟨x, y⟩
                  pressure := if d.smoothingOptions.smoothPressure then p else info.pressure }]
            distanceHistory := appendedDistanceHistory qt d info },
          { info with
            pos := ⟨x, y⟩
            pressure := if d.smoothingOptions.smoothPressure then p else info.pressure })) ∧
    (3 < (appendedHistory d info).length →
      ¬ ((x ≠ 0 ∧ y ≠ 0) ∨ (x = info.pos.x ∧ y = info.pos.y)) →
      smoothSample qt d info =
        ({ d with history := appendedHistory d info
                  distanceHistory := appendedDistanceHistory qt d info }, info)) := by
  have hs : smoothSample qt d info = weightedSmoothing qt d info := by
    simp only [smoothSample, hw, hd, and_self, if_true]
  refine ⟨fun h => ?_, fun h hg => ?_, fun h hg => ?_⟩
  · rw [hs, weightedSmoothing_short qt d info h]
  · rw [hs, weightedSmoothing_long qt d info h, hv]
    exact if_pos hg
  · rw [hs, weightedSmoothing_long qt d info h, hv]
    exact if_neg hg

/-- Witness of C15 as amended: the weighted stroke with distance 15 through (3,4), (6,8), (9,12)
and then (12,16).  The history holds four entries, the smoothed position
(321192/30107, 428256/30107) has no zero coordinate, and the sample and the last history entry
are rewritten to it; the pressure stays 1. -/
theorem weighted_rewrite_witness :
    diagonalStroke.smoothingOptions.smoothingType = SmoothingType.WEIGHTED_SMOOTHING ∧
    diagonalStroke.smoothingOptions.smoothnessDistance > 0 ∧
    3 < (appendedHistory diagonalStroke (sampleAt 12 16 4)).length ∧
    smoothSample Qt.exact diagonalStroke (sampleAt 12 16 4) =
      ({ diagonalStroke with
          history := [sampleAt 3 4 1, sampleAt 6 8 2, sampleAt 9 12 3,
            ⟨⟨321192 / 30107, 428256 / 30107⟩, 1, 0, 0, 4⟩]
          distanceHistory := [5, 5, 5, 5] },
        ⟨⟨321192 / 30107, 428256 / 30107⟩, 1, 0, 0, 4⟩) := by
  have hw : diagonalStroke.smoothingOptions.smoothingType =
      SmoothingType.WEIGHTED_SMOOTHING := rfl
  have hd : diagonalStroke.smoothingOptions.smoothnessDistance > 0 := by
    norm_num [diagonalStroke, idleState, weightedOptions]
  have hl : 3 < (appendedHistory diagonalStroke (sampleAt 12 16 4)).length := by
    simp [appendedHistory, diagonalStroke]
  obtain ⟨hH, hD⟩ := appended_diagonal
  have ho : diagonalStroke.smoothingOptions = weightedOptions 15 := rfl
  have e : (weightedOptions 15).smoothnessDistance / 3 = 5 := by norm_num [weightedOptions]
  obtain ⟨hm, hk⟩ := diagonal_kernel_third 15
  have hcode := smoothedValues_closed Qt.exact (weightedOptions 15) diagonalHistory [5, 5, 5, 5]
    (by norm_num [weightedOptions]) (by simp [diagonalHistory]) (by rw [e]; exact hk)
  rw [e, hm, Prod.mk.injEq] at hcode
  obtain ⟨hx, hy⟩ := hcode
  have hv := triple_eta (smoothedValues Qt.exact (weightedOptions 15) diagonalHistory
    [5, 5, 5, 5])
  rw [hx, hy] at hv
  rw [← hH, ← hD, ← ho] at hv
  have h := (weighted_rewrite Qt.exact diagonalStroke (sampleAt 12 16 4)
    (321192 / 30107) (428256 / 30107) _ hw hd hv).2.1 hl (Or.inl ⟨by norm_num, by norm_num⟩)
  refine ⟨hw, hd, hl, ?_⟩
  rw [h, hD]
  simp [diagonalStroke, idleState, weightedOptions, sampleAt]

/-- Counterexample to C15 as stated: the weighted stroke with distance 3 along the x axis
through (1,0), (2,0), (3,0) and then (4,0).  The kernel did not degenerate (scaleSum is not
zero) and the smoothed position is (107064/30107, 0), about (3.56, 0); its y is 0 and it
differs from the sample, so the raw sample (4,0) is retained and appended unchanged. -/
theorem weighted_axis_sample_retained :
    (smoothAccumulators Qt.exact (weightedOptions 3) axisHistory [1, 1, 1, 1]).scaleSum ≠ 0 ∧
    ((smoothedValues Qt.exact (weightedOptions 3) axisHistory [1, 1, 1, 1]).1,
        (smoothedValues Qt.exact (weightedOptions 3) axisHistory [1, 1, 1, 1]).2.1) =
      (107064 / 30107, 0) ∧
    smoothSample Qt.exact axisStroke (sampleAt 4 0 4) =
      ({ axisStroke with history := axisHistory, distanceHistory := [1, 1, 1, 1] },
        sampleAt 4 0 4) := by
  have h1 : (weightedOptions 3).smoothnessDistance ≠ 0 := by norm_num [weightedOptions]
  have h2 : axisHistory ≠ [] := by simp [axisHistory]
  have e : (weightedOptions 3).smoothnessDistance / 3 = 1 := by norm_num [weightedOptions]
  obtain ⟨hm, hk⟩ := axis_kernel 3
  obtain ⟨hH, hD⟩ := appended_axis
  have ho : axisStroke.smoothingOptions = weightedOptions 3 := rfl
  have hl : 3 < (appendedHistory axisStroke (sampleAt 4 0 4)).length := by
    simp [appendedHistory, axisStroke]
  have hscale := (smoothAccumulators_closed Qt.exact (weightedOptions 3) axisHistory
    [1, 1, 1, 1] h1 h2).2
  rw [e] at hscale
  have hcode := smoothedValues_closed Qt.exact (weightedOptions 3) axisHistory [1, 1, 1, 1]
    h1 h2 (by rw [e]; exact hk)
  rw [e, hm] at hcode
  refine ⟨by rw [hscale]; exact hk, hcode, ?_⟩
  rw [Prod.mk.injEq] at hcode
  obtain ⟨hx, hy⟩ := hcode
  have hs : smoothSample Qt.exact axisStroke (sampleAt 4 0 4) =
      weightedSmoothing Qt.exact axisStroke (sampleAt 4 0 4) := by
    simp [smoothSample, axisStroke, idleState, weightedOptions]
  rw [hs, weightedSmoothing_long Qt.exact axisStroke (sampleAt 4 0 4) hl, hH, hD, ho, hx, hy]
  rw [if_neg]
  · rfl
  · norm_num [sampleAt]

theorem paint_weighted_short (qt : Qt) (d : Private) (info : KisPaintInformation)
    (hw : d.smoothingOptions.smoothingType = SmoothingType.WEIGHTED_SMOOTHING)
    (hd : d.smoothingOptions.smoothnessDistance > 0)
    (h : (appendedHistory d info).length ≤ 3) :
    paint qt d info =
      paintSmoothed qt { d with history := appendedHistory d info
                                distanceHistory := appendedDistanceHistory qt d info } info := by
  have hs : smoothSample qt d info = weightedSmoothing qt d info := by
    simp only [smoothSample, hw, hd, and_self, if_true]
  unfold paint
  rw [hs, weightedSmoothing_short qt d info h]

/-- The state `axisStroke` is the state of the helper after the calls its description names; the
two `paint` calls that have a tangent at hand emit one curve each. -/
theorem axisStroke_reached :
    callAll Qt.exact (idleState (weightedOptions 3))
        [HelperCall.initPaint (sampleAt 0 0 0) false, HelperCall.paint (sampleAt 1 0 1),
          HelperCall.paint (sampleAt 2 0 2), HelperCall.paint (sampleAt 3 0 3)] =
      .ok (axisStroke,
        [Job.curve ⟨⟨⟨0, 0⟩, 0⟩⟩ (sampleAt 0 0 0) ⟨8 / 25, 0⟩ ⟨17 / 25, 0⟩ (sampleAt 1 0 1),
          Job.curve ⟨⟨⟨0, 0⟩, 0⟩⟩ (sampleAt 1 0 1) ⟨33 / 25, 0⟩ ⟨42 / 25, 0⟩ (sampleAt 2 0 2)]) := by
  have p1 : paint Qt.exact (initPaint (idleState (weightedOptions 3)) (sampleAt 0 0 0) false)
      (sampleAt 1 0 1) = .ok ({ axisStroke with
        hasPaintAtLeastOnce := false
        previousPaintInformation := sampleAt 1 0 1
        olderPaintInformation := sampleAt 0 0 0
        history := [sampleAt 1 0 1]
        distanceHistory := [1] }, []) := by
    rw [paint_weighted_short _ _ _ rfl (by norm_num [initPaint, idleState, weightedOptions])
      (by simp [appendedHistory, initPaint])]
    have hg : guardedTangent (sampleAt 1 0 1) (sampleAt 0 0 0) = ⟨1, 0⟩ := by
      norm_num [guardedTangent, sampleAt, QPointF.sub, QPointF.divq]
    have hv : Qt.exact.vector2DLength ((⟨1, 0⟩ : QPointF).sub (⟨0, 0⟩ : QPointF)) = 1 := by
      norm_num [Qt.exact, QPointF.sub, ratSqrt_one]
    simp only [sampleAt] at hg ⊢
    simp [paintSmoothed, initPaint, idleState, weightedOptions, axisStroke, createPainters,
      appendedHistory, appendedDistanceHistory, sampleAt, hg, hv, QPointF.zero]
  have hc1 : bezierControls Qt.exact (⟨0, 0⟩ : QPointF) (⟨1, 0⟩ : QPointF) ⟨1, 0⟩ ⟨1, 0⟩ = (⟨8 / 25, 0⟩, ⟨17 / 25, 0⟩) := by
    simp [bezierControls, controlTargets, velocities, similarity, coeffOf, Qt.exact,
      lineIntersectExact, QPointF.add, QPointF.sub, QPointF.smul, QPointF.zero, ratSqrt_one]
    norm_num [ratSqrt_one]
  have hc2 : bezierControls Qt.exact (⟨1, 0⟩ : QPointF) (⟨2, 0⟩ : QPointF) ⟨1, 0⟩ ⟨1, 0⟩ = (⟨33 / 25, 0⟩, ⟨42 / 25, 0⟩) := by
    simp [bezierControls, controlTargets, velocities, similarity, coeffOf, Qt.exact,
      lineIntersectExact, QPointF.add, QPointF.sub, QPointF.smul, QPointF.zero, ratSqrt_one]
    norm_num [ratSqrt_one]
  have p2 : paint Qt.exact { axisStroke with
        hasPaintAtLeastOnce := false
        previousPaintInformation := sampleAt 1 0 1
        olderPaintInformation := sampleAt 0 0 0
        history := [sampleAt 1 0 1]
        distanceHistory := [1] }
      (sampleAt 2 0 2) = .ok ({ axisStroke with
        previousPaintInformation := sampleAt 2 0 2
        olderPaintInformation := sampleAt 1 0 1
        history := [sampleAt 1 0 1, sampleAt 2 0 2]
        distanceHistory := [1, 1] },
        [Job.curve ⟨⟨⟨0, 0⟩, 0⟩⟩ (sampleAt 0 0 0) ⟨8 / 25, 0⟩ ⟨17 / 25, 0⟩ (sampleAt 1 0 1)]) := by
    rw [paint_weighted_short _ _ _ rfl (by norm_num [axisStroke, idleState, weightedOptions])
      (by simp [appendedHistory])]
    have hg : guardedTangent (sampleAt 2 0 2) (sampleAt 0 0 0) = ⟨1, 0⟩ := by
      norm_num [guardedTangent, sampleAt, QPointF.sub, QPointF.divq]
    have hv : Qt.exact.vector2DLength ((⟨2, 0⟩ : QPointF).sub (⟨1, 0⟩ : QPointF)) = 1 := by
      norm_num [Qt.exact, QPointF.sub, ratSqrt_one]
    simp only [sampleAt] at hg hc1 ⊢
    simp [paintSmoothed, paintBezierSegment, paintBezierCurve, idleState, weightedOptions,
      axisStroke, appendedHistory, appendedDistanceHistory, QPointF.isNull, sampleAt, hg, hv, hc1]
  have p3 : paint Qt.exact { axisStroke with
        previousPaintInformation := sampleAt 2 0 2
        olderPaintInformation := sampleAt 1 0 1
        history := [sampleAt 1 0 1, sampleAt 2 0 2]
        distanceHistory := [1, 1] }
      (sampleAt 3 0 3) = .ok (axisStroke,
        [Job.curve ⟨⟨⟨0, 0⟩, 0⟩⟩ (sampleAt 1 0 1) ⟨33 / 25, 0⟩ ⟨42 / 25, 0⟩ (sampleAt 2 0 2)]) := by
    rw [paint_weighted_short _ _ _ rfl (by norm_num [axisStroke, idleState, weightedOptions])
      (by simp [appendedHistory])]
    have hg : guardedTangent (sampleAt 3 0 3) (sampleAt 1 0 1) = ⟨1, 0⟩ := by
      norm_num [guardedTangent, sampleAt, QPointF.sub, QPointF.divq]
    have hv : Qt.exact.vector2DLength ((⟨3, 0⟩ : QPointF).sub (⟨2, 0⟩ : QPointF)) = 1 := by
      norm_num [Qt.exact, QPointF.sub, ratSqrt_one]
    simp only [sampleAt] at hg hc2 ⊢
    simp [paintSmoothed, paintBezierSegment, paintBezierCurve, idleState, weightedOptions,
      axisStroke, appendedHistory, appendedDistanceHistory, QPointF.isNull, sampleAt, hg, hv, hc2]
  simp only [callAll, call, p1, p2, p3, List.nil_append, List.append_nil, List.cons_append]

/-- The state `diagonalStroke` is the state of the helper after the calls its description names; the
two `paint` calls that have a tangent at hand emit one curve each. -/
theorem diagonalStroke_reached :
    callAll Qt.exact (idleState (weightedOptions 15))
        [HelperCall.initPaint (sampleAt 0 0 0) false, HelperCall.paint (sampleAt 3 4 1),
          HelperCall.paint (sampleAt 6 8 2), HelperCall.paint (sampleAt 9 12 3)] =
      .ok (diagonalStroke,
        [Job.curve ⟨⟨⟨0, 0⟩, 0⟩⟩ (sampleAt 0 0 0) ⟨24 / 25, 32 / 25⟩ ⟨51 / 25, 68 / 25⟩ (sampleAt 3 4 1),
          Job.curve ⟨⟨⟨0, 0⟩, 0⟩⟩ (sampleAt 3 4 1) ⟨99 / 25, 132 / 25⟩ ⟨126 / 25, 168 / 25⟩ (sampleAt 6 8 2)]) := by
  have p1 : paint Qt.exact (initPaint (idleState (weightedOptions 15)) (sampleAt 0 0 0) false)
      (sampleAt 3 4 1) = .ok ({ diagonalStroke with
        hasPaintAtLeastOnce := false
        previousPaintInformation := sampleAt 3 4 1
        olderPaintInformation := sampleAt 0 0 0
        history := [sampleAt 3 4 1]
        distanceHistory := [5] }, []) := by
    rw [paint_weighted_short _ _ _ rfl (by norm_num [initPaint, idleState, weightedOptions])
      (by simp [appendedHistory, initPaint])]
    have hg : guardedTangent (sampleAt 3 4 1) (sampleAt 0 0 0) = ⟨3, 4⟩ := by
      norm_num [guardedTangent, sampleAt, QPointF.sub, QPointF.divq]
    have hv : Qt.exact.vector2DLength ((⟨3, 4⟩ : QPointF).sub (⟨0, 0⟩ : QPointF)) = 5 := by
      norm_num [Qt.exact, QPointF.sub, ratSqrt_twentyfive]
    simp only [sampleAt] at hg ⊢
    simp [paintSmoothed, initPaint, idleState, weightedOptions, diagonalStroke, createPainters,
      appendedHistory, appendedDistanceHistory, sampleAt, hg, hv, QPointF.zero]
  have hc1 : bezierControls Qt.exact (⟨0, 0⟩ : QPointF) (⟨3, 4⟩ : QPointF) ⟨3, 4⟩ ⟨3, 4⟩ = (⟨24 / 25, 32 / 25⟩, ⟨51 / 25, 68 / 25⟩) := by
    simp [bezierControls, controlTargets, velocities, similarity, coeffOf, Qt.exact,
      lineIntersectExact, QPointF.add, QPointF.sub, QPointF.smul, QPointF.zero, ratSqrt_twentyfive]
    norm_num [ratSqrt_twentyfive]
  have hc2 : bezierControls Qt.exact (⟨3, 4⟩ : QPointF) (⟨6, 8⟩ : QPointF) ⟨3, 4⟩ ⟨3, 4⟩ = (⟨99 / 25, 132 / 25⟩, ⟨126 / 25, 168 / 25⟩) := by
    simp [bezierControls, controlTargets, velocities, similarity, coeffOf, Qt.exact,
      lineIntersectExact, QPointF.add, QPointF.sub, QPointF.smul, QPointF.zero, ratSqrt_twentyfive]
    norm_num [ratSqrt_twentyfive]
  have p2 : paint Qt.exact { diagonalStroke with
        hasPaintAtLeastOnce := false
        previousPaintInformation := sampleAt 3 4 1
        olderPaintInformation := sampleAt 0 0 0
        history := [sampleAt 3 4 1]
        distanceHistory := [5] }
      (sampleAt 6 8 2) = .ok ({ diagonalStroke with
        previousPaintInformation := sampleAt 6 8 2
        olderPaintInformation := sampleAt 3 4 1
        history := [sampleAt 3 4 1, sampleAt 6 8 2]
        distanceHistory := [5, 5] },
        [Job.curve ⟨⟨⟨0, 0⟩, 0⟩⟩ (sampleAt 0 0 0) ⟨24 / 25, 32 / 25⟩ ⟨51 / 25, 68 / 25⟩ (sampleAt 3 4 1)]) := by
    rw [paint_weighted_short _ _ _ rfl (by norm_num [diagonalStroke, idleState, weightedOptions])
      (by simp [appendedHistory])]
    have hg : guardedTangent (sampleAt 6 8 2) (sampleAt 0 0 0) = ⟨3, 4⟩ := by
      norm_num [guardedTangent, sampleAt, QPointF.sub, QPointF.divq]
    have hv : Qt.exact.vector2DLength ((⟨6, 8⟩ : QPointF).sub (⟨3, 4⟩ : QPointF)) = 5 := by
      norm_num [Qt.exact, QPointF.sub, ratSqrt_twentyfive]
    simp only [sampleAt] at hg hc1 ⊢
    simp [paintSmoothed, paintBezierSegment, paintBezierCurve, idleState, weightedOptions,
      diagonalStroke, appendedHistory, appendedDistanceHistory, QPointF.isNull, sampleAt, hg, hv, hc1]
  have p3 : paint Qt.exact { diagonalStroke with
        previousPaintInformation := sampleAt 6 8 2
        olderPaintInformation := sampleAt 3 4 1
        history := [sampleAt 3 4 1, sampleAt 6 8 2]
        distanceHistory := [5, 5] }
      (sampleAt 9 12 3) = .ok (diagonalStroke,
        [Job.curve ⟨⟨⟨0, 0⟩, 0⟩⟩ (sampleAt 3 4 1) ⟨99 / 25, 132 / 25⟩ ⟨126 / 25, 168 / 25⟩ (sampleAt 6 8 2)]) := by
    rw [paint_weighted_short _ _ _ rfl (by norm_num [diagonalStroke, idleState, weightedOptions])
      (by simp [appendedHistory])]
    have hg : guardedTangent (sampleAt 9 12 3) (sampleAt 3 4 1) = ⟨3, 4⟩ := by
      norm_num [guardedTangent, sampleAt, QPointF.sub, QPointF.divq]
    have hv : Qt.exact.vector2DLength ((⟨9, 12⟩ : QPointF).sub (⟨6, 8⟩ : QPointF)) = 5 := by
      norm_num [Qt.exact, QPointF.sub, ratSqrt_twentyfive]
    simp only [sampleAt] at hg hc2 ⊢
    simp [paintSmoothed, paintBezierSegment, paintBezierCurve, idleState, weightedOptions,
      diagonalStroke, appendedHistory, appendedDistanceHistory, QPointF.isNull, sampleAt, hg, hv, hc2]
  simp only [callAll, call, p1, p2, p3, List.nil_append, List.append_nil, List.cons_append]

end KisToolFreehandHelper

/-! ### KisCanvas: alternation of press and release -/

namespace KisCanvas

theorem tabletEvents_cons (τ : ℚ) (c : KisCanvas) (e : QTabletEvent) (es : List QTabletEvent) :
    (tabletEvents τ c (e :: es)).2 =
      (tabletEvent τ c e).2 ++ (tabletEvents τ (tabletEvent τ c e).1 es).2 := rfl

/-- From any state of the canvas the press and release events alternate, and the first one is
a press when the stored pressure is below the threshold and a release otherwise. -/
theorem buttonEvents_alternate (τ : ℚ) (es : List QTabletEvent) :
    ∀ c : KisCanvas,
      List.Chain' (fun a b => (a.isPress = true ∧ b.isRelease = true) ∨
          (a.isRelease = true ∧ b.isPress = true)) (buttonEvents (tabletEvents τ c es).2) ∧
      ∀ ev, (buttonEvents (tabletEvents τ c es).2).head? = some ev →
        (c.m_lastPressure < τ → ev.isPress = true) ∧
        (τ ≤ c.m_lastPressure → ev.isRelease = true) := by
  induction es with
  | nil =>
    intro c
    simp [tabletEvents, buttonEvents]
  | cons e es ih =>
    intro c
    obtain ⟨hchain, hhead⟩ := ih (tabletEvent τ c e).1
    have hstate : (tabletEvent τ c e).1.m_lastPressure = (e.pressure : ℚ) / 255 := rfl
    rw [tabletEvents_cons]
    by_cases h1 : (e.pressure : ℚ) / 255 ≥ τ ∧ c.m_lastPressure < τ
    · have hev : (tabletEvent τ c e).2 =
          [KisEvent.buttonPress (inputDevice e.device) e.pos e.globalPos
            ((e.pressure : ℚ) / 255) e.xTilt e.yTilt ButtonState.LeftButton
            ButtonState.NoButton] := by
        simp [tabletEvent, h1]
      rw [hev]
      simp only [buttonEvents, List.singleton_append, List.filter_cons, KisEvent.isMove,
        Bool.not_false, if_true] at hchain hhead ⊢
      refine ⟨?_, ?_⟩
      · rw [List.chain'_cons']
        refine ⟨fun y hy => Or.inl ⟨rfl, (hhead y hy).2 ?_⟩, hchain⟩
        rw [hstate]
        exact h1.1
      · intro ev hev2
        simp only [List.head?_cons, Option.some.injEq] at hev2
        subst hev2
        exact ⟨fun _ => rfl, fun h => absurd h1.2 (not_lt.2 h)⟩
    · by_cases h2 : (e.pressure : ℚ) / 255 < τ ∧ c.m_lastPressure ≥ τ
      · have hev : (tabletEvent τ c e).2 =
            [KisEvent.buttonRelease (inputDevice e.device) e.pos e.globalPos
              ((e.pressure : ℚ) / 255) e.xTilt e.yTilt ButtonState.LeftButton
              ButtonState.NoButton] := by
          simp [tabletEvent, h1, h2]
        rw [hev]
        simp only [buttonEvents, List.singleton_append, List.filter_cons, KisEvent.isMove,
          Bool.not_false, if_true] at hchain hhead ⊢
        refine ⟨?_, ?_⟩
        · rw [List.chain'_cons']
          refine ⟨fun y hy => Or.inr ⟨rfl, (hhead y hy).1 ?_⟩, hchain⟩
          rw [hstate]
          exact h2.1
        · intro ev hev2
          simp only [List.head?_cons, Option.some.injEq] at hev2
          subst hev2
          exact ⟨fun h => absurd h (not_lt.2 h2.2), fun _ => rfl⟩
      · have hev : (tabletEvent τ c e).2 =
            [KisEvent.move (inputDevice e.device) e.pos e.globalPos
              ((e.pressure : ℚ) / 255) e.xTilt e.yTilt ButtonState.NoButton] := by
          simp [tabletEvent, h1, h2]
        rw [hev]
        simp only [buttonEvents, List.singleton_append, List.filter_cons, KisEvent.isMove,
          Bool.not_true, Bool.false_eq_true, if_false] at hchain hhead ⊢
        refine ⟨hchain, fun ev hev2 => ⟨fun h => (hhead ev hev2).1 ?_, fun h =>
          (hhead ev hev2).2 ?_⟩⟩
        · rw [hstate]
          by_contra hn
          exact h1 ⟨not_lt.1 hn, h⟩
        · rw [hstate]
          by_contra hn
          exact h2 ⟨not_le.1 hn, h⟩

/-- Claim C23. For every sequence of tablet events delivered to a freshly constructed canvas
(stored pressure 0) with PRESSURE_THRESHOLD > 0, the button press and release events that
`tabletEvent` emits strictly alternate and the first of them is a press: of two successive
ones, one is a press and the other a release. -/
theorem press_release_alternate (τ : ℚ) (hτ : 0 < τ) (es : List QTabletEvent) :
    List.Chain' (fun a b => (a.isPress = true ∧ b.isRelease = true) ∨
        (a.isRelease = true ∧ b.isPress = true)) (buttonEvents (tabletEvents τ init es).2) ∧
    ∀ ev, (buttonEvents (tabletEvents τ init es).2).head? = some ev → ev.isPress = true :=
  ⟨(buttonEvents_alternate τ es init).1,
    fun ev hev => ((buttonEvents_alternate τ es init).2 ev hev).1 hτ⟩

/-- Witness of C23: threshold 1/2 and the raw pressures 0, 200, 255, 100, 0, 255 on a fresh
canvas.  The events emitted are move, press, move, release, move, press; the button events are
press (200/255), release (100/255), press (1). -/
theorem press_release_alternate_witness :
    (0 : ℚ) < 1 / 2 ∧
    buttonEvents (tabletEvents (1 / 2) init
        [stylusAt 0, stylusAt 200, stylusAt 255, stylusAt 100, stylusAt 0, stylusAt 255]).2 =
      [KisEvent.buttonPress enumInputDevice.INPUT_DEVICE_STYLUS (0, 0) (0, 0) (200 / 255) 0 0
          ButtonState.LeftButton ButtonState.NoButton,
        KisEvent.buttonRelease enumInputDevice.INPUT_DEVICE_STYLUS (0, 0) (0, 0) (100 / 255) 0 0
          ButtonState.LeftButton ButtonState.NoButton,
        KisEvent.buttonPress enumInputDevice.INPUT_DEVICE_STYLUS (0, 0) (0, 0) 1 0 0
          ButtonState.LeftButton ButtonState.NoButton] ∧
    (List.Chain' (fun a b => (a.isPress = true ∧ b.isRelease = true) ∨
        (a.isRelease = true ∧ b.isPress = true))
        (buttonEvents (tabletEvents (1 / 2) init
          [stylusAt 0, stylusAt 200, stylusAt 255, stylusAt 100, stylusAt 0, stylusAt 255]).2) ∧
      ∀ ev, (buttonEvents (tabletEvents (1 / 2) init
          [stylusAt 0, stylusAt 200, stylusAt 255, stylusAt 100, stylusAt 0,
            stylusAt 255]).2).head? = some ev → ev.isPress = true) := by
  refine ⟨by norm_num, ?_, press_release_alternate (1 / 2) (by norm_num) _⟩
  norm_num [tabletEvents, tabletEvent, buttonEvents, stylusAt, init, inputDevice,
    KisEvent.isMove]

end KisCanvas

/-! ### Bounds on the blend factors of the Bezier segment -/

namespace KisToolFreehandHelper

end KisToolFreehandHelper

/-! ### The weighted mean stays within the history -/

namespace KisToolFreehandHelper

theorem kernelFormula_pos (qt : Qt) (hsqrt : 0 < qt.sqrt (2 * M_PI)) (hexp : ∀ q, 0 < qt.exp q)
    (s : ℚ) (hs : 0 < s) (D : ℚ) : 0 < kernelFormula qt s D := by
  unfold kernelFormula
  have h1 : 0 < 1 / (s * qt.sqrt (2 * M_PI)) := by positivity
  exact mul_pos h1 (hexp _)

theorem visitedBelow_lt (w : Nat → ℚ) (baseRate : ℚ) (k : Nat) :
    ∀ i ∈ visitedBelow w baseRate k, i < k := by
  induction k with
  | zero => simp [visitedBelow]
  | succ k ih =>
    intro i hi
    unfold visitedBelow at hi
    split_ifs at hi
    · simp at hi
    · rcases List.mem_cons.1 hi with h | h
      · omega
      · exact Nat.lt_succ_of_lt (ih i h)

theorem kernelIndices_lt (w : Nat → ℚ) (n : Nat) : ∀ i ∈ kernelIndices w n, i < n := by
  cases n with
  | zero => simp [kernelIndices]
  | succ m =>
    intro i hi
    unfold kernelIndices at hi
    rcases List.mem_cons.1 hi with h | h
    · omega
    · exact Nat.lt_succ_of_lt (visitedBelow_lt w _ m i h)

theorem kernelIndices_ne_nil (w : Nat → ℚ) (n : Nat) (hn : n ≠ 0) : kernelIndices w n ≠ [] := by
  cases n with
  | zero => exact absurd rfl hn
  | succ m => simp [kernelIndices]

/-- A mean with positive weights lies between any bounds of the values. -/
theorem weighted_mean_bounds (w v : Nat → ℚ) (lo hi : ℚ) (l : List Nat) (hl : l ≠ [])
    (hw : ∀ i ∈ l, 0 < w i) (hv : ∀ i ∈ l, lo ≤ v i ∧ v i ≤ hi) :
    0 < (l.map w).sum ∧
    lo ≤ (l.map (fun i => w i * v i)).sum / (l.map w).sum ∧
    (l.map (fun i => w i * v i)).sum / (l.map w).sum ≤ hi := by
  have key : ∀ l : List Nat, (∀ i ∈ l, 0 < w i) → (∀ i ∈ l, lo ≤ v i ∧ v i ≤ hi) →
      0 ≤ (l.map w).sum ∧ lo * (l.map w).sum ≤ (l.map (fun i => w i * v i)).sum ∧
      (l.map (fun i => w i * v i)).sum ≤ hi * (l.map w).sum := by
    intro l
    induction l with
    | nil => intro _ _; simp
    | cons a t ih =>
      intro hw hv
      obtain ⟨h0, h1, h2⟩ := ih (fun i hi => hw i (List.mem_cons_of_mem _ hi))
        (fun i hi => hv i (List.mem_cons_of_mem _ hi))
      have hwa := hw a (List.mem_cons_self _ _)
      obtain ⟨hva1, hva2⟩ := hv a (List.mem_cons_self _ _)
      simp only [List.map_cons, List.sum_cons]
      refine ⟨by linarith, ?_, ?_⟩
      · nlinarith
      · nlinarith
  cases l with
  | nil => exact absurd rfl hl
  | cons a t =>
    obtain ⟨h0, _, _⟩ := key t (fun i hi => hw i (List.mem_cons_of_mem _ hi))
      (fun i hi => hv i (List.mem_cons_of_mem _ hi))
    have hwa := hw a (List.mem_cons_self _ _)
    have hpos : 0 < ((a :: t).map w).sum := by
      simp only [List.map_cons, List.sum_cons]
      linarith
    obtain ⟨_, h1, h2⟩ := key (a :: t) hw hv
    refine ⟨hpos, ?_, ?_⟩
    · rw [le_div_iff₀ hpos]
      exact h1
    · rw [div_le_iff₀ hpos]
      exact h2

theorem getD_mem (history : List KisPaintInformation) (i : Nat) (hi : i < history.length) :
    history.getD i default ∈ history := by
  rw [List.getD_eq_getElem _ _ hi]
  exact List.getElem_mem hi

theorem smoothedValues_pressure_closed (qt : Qt) (opts : KisSmoothingOptions)
    (history : List KisPaintInformation) (distanceHistory : List ℚ)
    (hd : opts.smoothnessDistance ≠ 0) (hh : history ≠ [])
    (hS : kernelScale qt opts history distanceHistory (opts.smoothnessDistance / 3) ≠ 0)
    (hsp : opts.smoothPressure = true) :
    (smoothedValues qt opts history distanceHistory).2.2 =
      ((kernelIndices
        (fun i => kernelFormula qt (opts.smoothnessDistance / 3)
          (accumulatedDistance opts history distanceHistory (opts.smoothnessDistance / 3) i))
        history.length).map
        (fun i => kernelFormula qt (opts.smoothnessDistance / 3)
            (accumulatedDistance opts history distanceHistory (opts.smoothnessDistance / 3) i) *
          (history.getD i default).pressure)).sum /
      kernelScale qt opts history distanceHistory (opts.smoothnessDistance / 3) := by
  have hs : opts.smoothnessDistance / 3 * (opts.smoothnessDistance / 3) ≠ 0 := by
    have : opts.smoothnessDistance / 3 ≠ 0 := div_ne_zero hd (by norm_num)
    exact mul_ne_zero this this
  obtain ⟨m, hm⟩ : ∃ m, history.length = m + 1 :=
    ⟨history.length - 1, by
      have := List.length_pos.2 hh
      omega⟩
  obtain ⟨h1, _, _, h4, _⟩ := smoothLoop_full qt opts history distanceHistory
    (opts.smoothnessDistance / 3) hs m hm
  rw [kernelWeight_eq_formula] at h1 h4
  have hS2 : (smoothLoop qt opts history distanceHistory (opts.smoothnessDistance / 3)
      (1 / (qt.sqrt (2 * M_PI) * (opts.smoothnessDistance / 3)))
      (opts.smoothnessDistance / 3 * (opts.smoothnessDistance / 3)) history.length
      ⟨0, 0, 0, 0, 0, 0⟩).scaleSum ≠ 0 := by
    rw [h1]
    exact hS
  simp only [smoothedValues, ne_eq, hS2, not_false_eq_true, if_true, hsp, kernelScale]
  rw [h1, h4]
  simp only [hsp, if_true]

theorem smoothedValues_in_range (qt : Qt) (opts : KisSmoothingOptions)
    (history : List KisPaintInformation) (distanceHistory : List ℚ)
    (hsqrt : 0 < qt.sqrt (2 * M_PI)) (hexp : ∀ q, 0 < qt.exp q)
    (hd : 0 < opts.smoothnessDistance) (hh : history ≠ []) :
    0 < kernelScale qt opts history distanceHistory (opts.smoothnessDistance / 3) ∧
    (∀ lo hi : ℚ, (∀ e ∈ history, lo ≤ e.pos.x ∧ e.pos.x ≤ hi) →
      lo ≤ (smoothedValues qt opts history distanceHistory).1 ∧
        (smoothedValues qt opts history distanceHistory).1 ≤ hi) ∧
    (∀ lo hi : ℚ, (∀ e ∈ history, lo ≤ e.pos.y ∧ e.pos.y ≤ hi) →
      lo ≤ (smoothedValues qt opts history distanceHistory).2.1 ∧
        (smoothedValues qt opts history distanceHistory).2.1 ≤ hi) ∧
    (opts.smoothPressure = true →
      ∀ lo hi : ℚ, (∀ e ∈ history, lo ≤ e.pressure ∧ e.pressure ≤ hi) →
        lo ≤ (smoothedValues qt opts history distanceHistory).2.2 ∧
          (smoothedValues qt opts history distanceHistory).2.2 ≤ hi) := by
  have hs : 0 < opts.smoothnessDistance / 3 := by positivity
  have hne : kernelIndices
      (fun i => kernelFormula qt (opts.smoothnessDistance / 3)
        (accumulatedDistance opts history distanceHistory (opts.smoothnessDistance / 3) i))
      history.length ≠ [] :=
    kernelIndices_ne_nil _ _ (fun h => hh (List.length_eq_zero.1 h))
  have hwpos : ∀ i ∈ kernelIndices
      (fun i => kernelFormula qt (opts.smoothnessDistance / 3)
        (accumulatedDistance opts history distanceHistory (opts.smoothnessDistance / 3) i))
      history.length,
      0 < (fun i => kernelFormula qt (opts.smoothnessDistance / 3)
        (accumulatedDistance opts history distanceHistory (opts.smoothnessDistance / 3) i)) i :=
    fun i _ => kernelFormula_pos qt hsqrt hexp _ hs _
  have hmem : ∀ i ∈ kernelIndices
      (fun i => kernelFormula qt (opts.smoothnessDistance / 3)
        (accumulatedDistance opts history distanceHistory (opts.smoothnessDistance / 3) i))
      history.length, history.getD i default ∈ history :=
    fun i hi => getD_mem history i (kernelIndices_lt _ _ i hi)
  have hscale : 0 < kernelScale qt opts history distanceHistory
      (opts.smoothnessDistance / 3) :=
    (weighted_mean_bounds _ (fun _ => 0) 0 0 _ hne hwpos (fun _ _ => ⟨le_refl _, le_refl _⟩)).1
  have hS := ne_of_gt hscale
  have hclosed := smoothedValues_closed qt opts history distanceHistory (ne_of_gt hd) hh hS
  simp only [kernelMean, Prod.mk.injEq] at hclosed
  obtain ⟨hx, hy⟩ := hclosed
  refine ⟨hscale, fun lo hi hb => ?_, fun lo hi hb => ?_, fun hsp lo hi hb => ?_⟩
  · rw [hx]
    exact (weighted_mean_bounds _ (fun i => (history.getD i default).pos.x) lo hi _ hne hwpos
      (fun i hi => hb _ (hmem i hi))).2
  · rw [hy]
    exact (weighted_mean_bounds _ (fun i => (history.getD i default).pos.y) lo hi _ hne hwpos
      (fun i hi => hb _ (hmem i hi))).2
  · rw [smoothedValues_pressure_closed qt opts history distanceHistory (ne_of_gt hd) hh hS hsp]
    exact (weighted_mean_bounds _ (fun i => (history.getD i default).pressure) lo hi _ hne hwpos
      (fun i hi => hb _ (hmem i hi))).2

theorem smoothSample_long_cases (qt : Qt) (d : Private) (info : KisPaintInformation)
    (hw : d.smoothingOptions.smoothingType = SmoothingType.WEIGHTED_SMOOTHING)
    (hd : d.smoothingOptions.smoothnessDistance > 0)
    (hl : 3 < (appendedHistory d info).length) :
    (smoothSample qt d info).2 = info ∨
    (smoothSample qt d info).2 =
      { info with
        pos := ⟨(smoothedValues qt d.smoothingOptions (appendedHistory d info)
            (appendedDistanceHistory qt d info)).1,
          (smoothedValues qt d.smoothingOptions (appendedHistory d info)
            (appendedDistanceHistory qt d info)).2.1⟩
        pressure :=
          if d.smoothingOptions.smoothPressure then
            (smoothedValues qt d.smoothingOptions (appendedHistory d info)
              (appendedDistanceHistory qt d info)).2.2
          else info.pressure } := by
  have hs : smoothSample qt d info = weightedSmoothing qt d info := by
    simp only [smoothSample, hw, hd, and_self, if_true]
  rw [hs, weightedSmoothing_long qt d info hl]
  split_ifs <;> first | exact Or.inl rfl | exact Or.inr rfl

/-- Claim C22. Over exact arithmetic, with a positive `sqrt(2*pi)` and a positive `exp`: in
weighted mode with smoothness distance > 0, when the history holds more than three entries
after the append, every weight is positive and their sum `scaleSum` is positive; the smoothed
position is the mean of the history positions with these weights, so a sample that is rewritten
gets that mean as its position; and each coordinate of the sample `paint` goes on with lies
between any lower and upper bound of that coordinate over the history, and so does its
pressure (with smoothPressure set it is the weighted mean of the history pressures), in
particular in [0,1] when every history pressure is. -/
theorem weighted_sample_convex (qt : Qt) (d : Private) (info : KisPaintInformation)
    (hsqrt : 0 < qt.sqrt (2 * M_PI)) (hexp : ∀ q, 0 < qt.exp q)
    (hw : d.smoothingOptions.smoothingType = SmoothingType.WEIGHTED_SMOOTHING)
    (hd : d.smoothingOptions.smoothnessDistance > 0)
    (hl : 3 < (appendedHistory d info).length) :
    (∀ i, 0 < kernelFormula qt (d.smoothingOptions.smoothnessDistance / 3)
      (accumulatedDistance d.smoothingOptions (appendedHistory d info)
        (appendedDistanceHistory qt d info) (d.smoothingOptions.smoothnessDistance / 3) i)) ∧
    0 < (smoothAccumulators qt d.smoothingOptions (appendedHistory d info)
      (appendedDistanceHistory qt d info)).scaleSum ∧
    ((smoothedValues qt d.smoothingOptions (appendedHistory d info)
          (appendedDistanceHistory qt d info)).1,
        (smoothedValues qt d.smoothingOptions (appendedHistory d info)
          (appendedDistanceHistory qt d info)).2.1) =
      kernelMean qt d.smoothingOptions (appendedHistory d info)
        (appendedDistanceHistory qt d info) (d.smoothingOptions.smoothnessDistance / 3) ∧
    ((smoothSample qt d info).2 ≠ info →
      (smoothSample qt d info).2.pos =
        ⟨(kernelMean qt d.smoothingOptions (appendedHistory d info)
            (appendedDistanceHistory qt d info)
            (d.smoothingOptions.smoothnessDistance / 3)).1,
          (kernelMean qt d.smoothingOptions (appendedHistory d info)
            (appendedDistanceHistory qt d info)
            (d.smoothingOptions.smoothnessDistance / 3)).2⟩) ∧
    (∀ lo hi : ℚ, (∀ e ∈ appendedHistory d info, lo ≤ e.pos.x ∧ e.pos.x ≤ hi) →
      lo ≤ (smoothSample qt d info).2.pos.x ∧ (smoothSample qt d info).2.pos.x ≤ hi) ∧
    (∀ lo hi : ℚ, (∀ e ∈ appendedHistory d info, lo ≤ e.pos.y ∧ e.pos.y ≤ hi) →
      lo ≤ (smoothSample qt d info).2.pos.y ∧ (smoothSample qt d info).2.pos.y ≤ hi) ∧
    (∀ lo hi : ℚ, (∀ e ∈ appendedHistory d info, lo ≤ e.pressure ∧ e.pressure ≤ hi) →
      lo ≤ (smoothSample qt d info).2.pressure ∧ (smoothSample qt d info).2.pressure ≤ hi) := by
  have hh : appendedHistory d info ≠ [] := by simp [appendedHistory]
  have hinfo : info ∈ appendedHistory d info := by simp [appendedHistory]
  obtain ⟨hscale, hx, hy, hp⟩ := smoothedValues_in_range qt d.smoothingOptions
    (appendedHistory d info) (appendedDistanceHistory qt d info) hsqrt hexp hd hh
  have hclosed := smoothedValues_closed qt d.smoothingOptions (appendedHistory d info)
    (appendedDistanceHistory qt d info) (ne_of_gt hd) hh (ne_of_gt hscale)
  have hacc := (smoothAccumulators_closed qt d.smoothingOptions (appendedHistory d info)
    (appendedDistanceHistory qt d info) (ne_of_gt hd) hh).2
  refine ⟨fun i => kernelFormula_pos qt hsqrt hexp _ (by positivity) _, by rw [hacc]; exact hscale,
    hclosed, ?_, ?_, ?_, ?_⟩
  · intro hne
    rcases smoothSample_long_cases qt d info hw hd hl with h | h
    · exact absurd h hne
    · rw [h, ← hclosed]
  · intro lo hi hb
    rcases smoothSample_long_cases qt d info hw hd hl with h | h
    · rw [h]
      exact hb info hinfo
    · rw [h]
      exact hx lo hi hb
  · intro lo hi hb
    rcases smoothSample_long_cases qt d info hw hd hl with h | h
    · rw [h]
      exact hb info hinfo
    · rw [h]
      exact hy lo hi hb
  · intro lo hi hb
    rcases smoothSample_long_cases qt d info hw hd hl with h | h
    · rw [h]
      exact hb info hinfo
    · rw [h]
      by_cases hsp : d.smoothingOptions.smoothPressure = true
      · simp only [hsp, if_true]
        exact hp hsp lo hi hb
      · simp only [hsp, if_false]
        exact hb info hinfo

theorem ratExp_pos (q : ℚ) : 0 < ratExp q := by
  unfold ratExp
  have hq := sq_nonneg q
  split_ifs with h
  · have : 0 < 1 - q + q * q / 2 := by nlinarith
    positivity
  · have h0 : 0 < q := not_le.1 h
    nlinarith

/-- Witness of C22: the weighted stroke with distance 15 through (3,4), (6,8), (9,12) and then
(12,16), all at pressure 1, with the library instance `Qt.exact`: the sample `paint` goes on
with has its x in [3,12], its y in [4,16] and its pressure in [0,1]. -/
theorem weighted_sample_convex_witness :
    0 < Qt.exact.sqrt (2 * M_PI) ∧ (∀ q, 0 < Qt.exact.exp q) ∧
    diagonalStroke.smoothingOptions.smoothingType = SmoothingType.WEIGHTED_SMOOTHING ∧
    diagonalStroke.smoothingOptions.smoothnessDistance > 0 ∧
    3 < (appendedHistory diagonalStroke (sampleAt 12 16 4)).length ∧
    (3 ≤ (smoothSample Qt.exact diagonalStroke (sampleAt 12 16 4)).2.pos.x ∧
      (smoothSample Qt.exact diagonalStroke (sampleAt 12 16 4)).2.pos.x ≤ 12) ∧
    (4 ≤ (smoothSample Qt.exact diagonalStroke (sampleAt 12 16 4)).2.pos.y ∧
      (smoothSample Qt.exact diagonalStroke (sampleAt 12 16 4)).2.pos.y ≤ 16) ∧
    (0 ≤ (smoothSample Qt.exact diagonalStroke (sampleAt 12 16 4)).2.pressure ∧
      (smoothSample Qt.exact diagonalStroke (sampleAt 12 16 4)).2.pressure ≤ 1) := by
  have hexp : ∀ q, 0 < Qt.exact.exp q := ratExp_pos
  have hw : diagonalStroke.smoothingOptions.smoothingType =
      SmoothingType.WEIGHTED_SMOOTHING := rfl
  have hd : diagonalStroke.smoothingOptions.smoothnessDistance > 0 := by
    norm_num [diagonalStroke, idleState, weightedOptions]
  have hl : 3 < (appendedHistory diagonalStroke (sampleAt 12 16 4)).length := by
    simp [appendedHistory, diagonalStroke]
  obtain ⟨_, _, _, _, hx, hy, hp⟩ := weighted_sample_convex Qt.exact diagonalStroke
    (sampleAt 12 16 4) sqrt_two_pi_pos hexp hw hd hl
  refine ⟨sqrt_two_pi_pos, hexp, hw, hd, hl, hx 3 12 ?_, hy 4 16 ?_, hp 0 1 ?_⟩
  · intro e he
    simp only [appendedHistory, diagonalStroke, List.cons_append, List.nil_append,
      List.mem_cons, List.mem_singleton, List.not_mem_nil, or_false] at he
    rcases he with h | h | h | h <;> subst h <;> norm_num [sampleAt]
  · intro e he
    simp only [appendedHistory, diagonalStroke, List.cons_append, List.nil_append,
      List.mem_cons, List.mem_singleton, List.not_mem_nil, or_false] at he
    rcases he with h | h | h | h <;> subst h <;> norm_num [sampleAt]
  · intro e he
    simp only [appendedHistory, diagonalStroke, List.cons_append, List.nil_append,
      List.mem_cons, List.mem_singleton, List.not_mem_nil, or_false] at he
    rcases he with h | h | h | h <;> subst h <;> norm_num [sampleAt]

/-! ### Pressures along a stroke -/

/-- The smoothing part of `paint` keeps the pressures within bounds: when the pressures of the
history and of the sample lie in [lo, hi], so do those of the new history and of the sample
`paint` goes on with. -/
theorem smoothSample_pressures (qt : Qt) (hsqrt : 0 < qt.sqrt (2 * M_PI))
    (hexp : ∀ q, 0 < qt.exp q) (lo hi : ℚ) (d : Private) (info : KisPaintInformation)
    (hinv : ∀ e ∈ d.history, lo ≤ e.pressure ∧ e.pressure ≤ hi)
    (hinfo : lo ≤ info.pressure ∧ info.pressure ≤ hi) :
    (∀ e ∈ (smoothSample qt d info).1.history, lo ≤ e.pressure ∧ e.pressure ≤ hi) ∧
    lo ≤ (smoothSample qt d info).2.pressure ∧ (smoothSample qt d info).2.pressure ≤ hi := by
  by_cases hw : d.smoothingOptions.smoothingType = SmoothingType.WEIGHTED_SMOOTHING ∧
      d.smoothingOptions.smoothnessDistance > 0
  · have hs : smoothSample qt d info = weightedSmoothing qt d info := by
      simp only [smoothSample, hw, and_self, if_true]
    have happ : ∀ e ∈ appendedHistory d info, lo ≤ e.pressure ∧ e.pressure ≤ hi := by
      intro e he
      simp only [appendedHistory, List.mem_append, List.mem_singleton] at he
      rcases he with h | h
      · exact hinv e h
      · rw [h]
        exact hinfo
    have hsample : lo ≤ (smoothSample qt d info).2.pressure ∧
        (smoothSample qt d info).2.pressure ≤ hi := by
      by_cases hl : 3 < (appendedHistory d info).length
      · rcases smoothSample_long_cases qt d info hw.1 hw.2 hl with h | h
        · rw [h]
          exact hinfo
        · rw [h]
          by_cases hsp : d.smoothingOptions.smoothPressure = true
          · simp only [hsp, if_true]
            exact (smoothedValues_in_range qt d.smoothingOptions (appendedHistory d info)
              (appendedDistanceHistory qt d info) hsqrt hexp hw.2
              (by simp [appendedHistory])).2.2.2 hsp lo hi happ
          · simp only [hsp, if_false]
            exact hinfo
      · rw [hs, weightedSmoothing_short qt d info (not_lt.1 hl)]
        exact hinfo
    refine ⟨?_, hsample⟩
    obtain ⟨_, hdrop, hlast⟩ := weightedSmoothing_histories qt d info
    rw [← hs] at hdrop hlast
    intro e he
    have hsplit := List.dropLast_append_getLast? _ hlast
    rw [← hsplit, hdrop] at he
    simp only [List.mem_append, List.mem_singleton] at he
    rcases he with h | h
    · exact hinv e h
    · rw [h]
      exact hsample
  · have hs : smoothSample qt d info = (d, info) := by
      simp only [smoothSample, hw, if_false]
    rw [hs]
    exact ⟨hinv, hinfo⟩

theorem call_pressures (qt : Qt) (hsqrt : 0 < qt.sqrt (2 * M_PI)) (hexp : ∀ q, 0 < qt.exp q)
    (lo hi : ℚ) (d d1 : Private) (c : HelperCall) (jobs : List Job)
    (hinv : ∀ e ∈ d.history, lo ≤ e.pressure ∧ e.pressure ≤ hi)
    (hc : ∀ info, c = HelperCall.paint info → lo ≤ info.pressure ∧ info.pressure ≤ hi)
    (h : call qt d c = .ok (d1, jobs)) :
    ∀ e ∈ d1.history, lo ≤ e.pressure ∧ e.pressure ≤ hi := by
  cases c with
  | initPaint start air =>
    simp only [call, Except.ok.injEq, Prod.mk.injEq] at h
    rw [← h.1]
    simp [initPaint]
  | paint info =>
    simp only [call, paint] at h
    obtain ⟨h1, _, _⟩ := paintSmoothed_fields qt _ d1 _ jobs h
    rw [h1]
    exact (smoothSample_pressures qt hsqrt hexp lo hi d info hinv (hc info rfl)).1
  | endPaint =>
    obtain ⟨a, _, _⟩ := endPaint_fields qt d d1 jobs h
    rw [a]
    exact hinv
  | setSmoothness o =>
    simp only [call, Except.ok.injEq, Prod.mk.injEq] at h
    rw [← h.1]
    exact hinv
  | paintOpOutline pos hover =>
    simp only [call, Except.ok.injEq, Prod.mk.injEq] at h
    rw [← h.1]
    simp only [paintOpOutline]
    split <;> exact hinv
  | timeout =>
    obtain ⟨a, _, _⟩ := finishStroke_fields qt d d1 jobs h
    rw [a]
    exact hinv
  | airbrush =>
    obtain ⟨a, _, _⟩ := doAirbrushing_fields d d1 jobs h
    rw [a]
    exact hinv

/-- Along every sequence of calls the pressures of the history stay within bounds of the
pressures it starts with and of the samples given to `paint`: in [0,1] when these are. -/
theorem callAll_pressures (qt : Qt) (hsqrt : 0 < qt.sqrt (2 * M_PI))
    (hexp : ∀ q, 0 < qt.exp q) (lo hi : ℚ) (cs : List HelperCall) :
    ∀ (d dN : Private) (jobs : List Job),
      (∀ e ∈ d.history, lo ≤ e.pressure ∧ e.pressure ≤ hi) →
      (∀ info, HelperCall.paint info ∈ cs → lo ≤ info.pressure ∧ info.pressure ≤ hi) →
      callAll qt d cs = .ok (dN, jobs) →
      ∀ e ∈ dN.history, lo ≤ e.pressure ∧ e.pressure ≤ hi := by
  induction cs with
  | nil =>
    intro d dN jobs hinv _ h
    simp only [callAll, Except.ok.injEq, Prod.mk.injEq] at h
    rw [← h.1]
    exact hinv
  | cons c cs ih =>
    intro d dN jobs hinv hcs h
    simp only [callAll] at h
    cases hs : call qt d c with
    | error f => simp [hs] at h
    | ok r =>
      obtain ⟨d1, js1⟩ := r
      cases hr : callAll qt d1 cs with
      | error f => simp [hs, hr] at h
      | ok r2 =>
        obtain ⟨d2, js2⟩ := r2
        simp only [hs, hr, Except.ok.injEq, Prod.mk.injEq] at h
        obtain ⟨rfl, rfl⟩ := h
        exact ih d1 d2 js2
          (call_pressures qt hsqrt hexp lo hi d d1 c js1 hinv
            (fun info hc => hcs info (by rw [hc]; exact List.mem_cons_self _ _)) hs)
          (fun info hm => hcs info (List.mem_cons_of_mem _ hm)) hr

end KisToolFreehandHelper

end Krita
